import Mathlib

/-!
# Verification of the pyNMS routing and flow engine

Shallow embedding of the routing/flow engine of pyNMS
(`pyNMS/networks/network.py` and `pyNMS/networks/base_network.py`)
and proofs about it.

Numbers: Python floats are modelled by `WithTop ℚ` where the code uses the
sentinel `float('inf')` (costs, capacities, flows, shortest-path distances),
and by plain `ℚ` where the code only ever stores finite values
(traffic, throughput).  Machine floating point plays no role in any of the
verified properties: the code only adds, compares and divides by integers.

Stateful Python code (mutation of link attributes through object references)
is modelled by explicit state passing: links are looked up and updated by
their `id` inside a `Net` value.
-/

set_option maxHeartbeats 1000000
set_option maxRecDepth 40000

/- Core marks the rational-number operations `@[irreducible]`, which blocks
kernel evaluation of concrete runs of the embedded algorithms; restore the
default reducibility so that `decide` can evaluate them. -/
set_option allowUnsafeReducibility true
attribute [semireducible] Rat.add Rat.sub Rat.mul Rat.div Rat.neg Rat.inv Rat.normalize Rat.maybeNormalize

namespace PyNMS

/-- Extended rationals: Python floats together with `float('inf')`. -/
abbrev Cost := WithTop ℚ

/-- Subtraction on extended costs.  Both operands are finite wherever the
modelled code subtracts (Suurbale subtracts distances of tree-edge endpoints,
which are always reached hence finite; flow code subtracts finite flows from
finite capacities); the remaining cases are junk values, never reached. -/
def csub : Cost → Cost → Cost
  | some a, some b => some (a - b)
  | _, _ => ⊤

/-- A physical link with its direction-qualified attribute sets, as in the
pyNMS data model: cost / capacity / flow / traffic are tracked independently
for the source→destination (`SD`) and destination→source (`DS`) direction.
The interface-owned attributes used by the forwarding walk (IP, MAC,
subnetwork of the attached segment) are inlined as per-endpoint fields. -/
structure Link where
  id : Nat
  name : String := ""
  source : Nat
  destination : Nat
  costSD : Cost := 1
  costDS : Cost := 1
  capacitySD : Cost := 3
  capacityDS : Cost := 3
  flowSD : Cost := 0
  flowDS : Cost := 0
  trafficSD : ℚ := 0
  trafficDS : ℚ := 0
  wctrafficSD : ℚ := 0
  wctrafficDS : ℚ := 0
  wcfailure : String := ""
  subnetwork : String := ""
  ipS : String := ""
  ipD : String := ""
  macS : String := ""
  macD : String := ""
  deriving DecidableEq, Repr

/-- `plink('cost', node)`: direction-qualified read of the cost attribute,
resolved from the endpoint the current node is. -/
def Link.dirCost (l : Link) (n : Nat) : Cost :=
  if n = l.source then l.costSD else l.costDS

/-- `plink('ip_address', node)`. -/
def Link.dirIp (l : Link) (n : Nat) : String :=
  if n = l.source then l.ipS else l.ipD

/-- `plink('mac_address', node)`. -/
def Link.dirMac (l : Link) (n : Nat) : String :=
  if n = l.source then l.macS else l.macD

/-- An `IPAddress` object: an address string together with its network. -/
structure IPAddr where
  ip : String := ""
  network : String := ""
  deriving DecidableEq, Repr

/-- One routing-table route: the tuple
`(origin kind, next-hop IP, egress interface MAC, metric, next-hop node, egress link)`.
The egress interface is represented by its MAC address (the only attribute
the forwarding walk reads from it); nodes and links by their ids. -/
structure Route where
  origin : String := "O"
  nh_ip : String
  ex_int_mac : String := ""
  metric : Cost := 0
  nh_node : Nat
  ex_tk : Nat
  deriving DecidableEq, Repr

/-- A node.  `rt` is the routing table (destination network → equal-cost
routes), `arpt` the ARP table (next-hop IP → MAC of the remote interface;
the pyNMS table also stores the egress interface name, which the modelled
code never reads), `st` the switching table (destination MAC → egress link
of the egress interface). -/
structure RNode where
  id : Nat
  name : String := ""
  subtype : String := "router"
  rt : List (String × List Route) := []
  arpt : List (String × String) := []
  st : List (String × Nat) := []
  deriving DecidableEq, Repr

/-- A traffic demand. -/
structure Traffic where
  id : Nat
  name : String := ""
  source : Nat
  destination : Nat
  throughput : ℚ := 0
  source_IP : Option IPAddr := none
  destination_IP : Option IPAddr := none
  path : List Nat := []
  deriving DecidableEq, Repr

/-- A data flow of the forwarding walk. -/
structure DataFlow where
  src_ip : Option IPAddr
  dst_ip : Option IPAddr
  throughput : ℚ := 0
  src_mac : String := ""
  dst_mac : String := ""
  deriving DecidableEq, Repr

/-- The network state: node / physical-link / traffic pools and the set of
objects currently in failure (link ids). -/
structure Net where
  nodes : List RNode
  links : List Link
  traffics : List Traffic := []
  failed : List Nat := []
  deriving DecidableEq, Repr

/-- Mirrored adjacency of the graph store: the `(neighbor, link)` pairs of
`graph[n.id]['plink']`.  A self-loop contributes a single entry, as it does
in the Python set. -/
def Net.adj (net : Net) (n : Nat) : List (Nat × Link) :=
  net.links.filterMap (fun l =>
    if l.source = n then some (l.destination, l)
    else if l.destination = n then some (l.source, l) else none)

/-- Look a link up by id. -/
def Net.link? (net : Net) (i : Nat) : Option Link :=
  net.links.find? (fun l => l.id = i)

/-- Look a node up by id. -/
def Net.node? (net : Net) (i : Nat) : Option RNode :=
  net.nodes.find? (fun l => l.id = i)

/-- Mutate the link with id `i` (attribute assignment through an object
reference in the source). -/
def Net.updLink (net : Net) (i : Nat) (f : Link → Link) : Net :=
  { net with links := net.links.map (fun l => if l.id = i then f l else l) }

/-- All link ids (default value of an `allowed_plinks` argument). -/
def Net.linkIds (net : Net) : List Nat := net.links.map (·.id)

/-- All node ids (default value of an `allowed_nodes` argument). -/
def Net.nodeIds (net : Net) : List Nat := net.nodes.map (·.id)

/-! ## Heap popping

The source keeps candidate entries in a `heapq` heap ordered by accumulated
distance (ties resolved by comparing the remaining tuple components, whose
order the source does not pin down).  We model the heap as a list from which
`heappop` extracts a minimal element, earliest first on ties. -/

/-- Pop a minimal element (with respect to the strict comparison `lt`) from a
list, earliest such element first; returns the element and the remaining
list. -/
def popMinBy {α : Type} (lt : α → α → Bool) : List α → Option (α × List α)
  | [] => none
  | x :: xs =>
    match popMinBy lt xs with
    | none => some (x, [])
    | some (m, rest) => if lt m x then some (m, x :: rest) else some (x, xs)

/-! ## Dijkstra -/

/-- The loop state of `dijkstra`: the visited set, the tentative distance
dictionary, both predecessor dictionaries and the heap. -/
structure DijkstraState where
  visited : List Nat
  dist : Nat → Cost
  prec_node : Nat → Option Nat
  prec_plink : Nat → Option Nat
  heap : List (Cost × Nat)

/-- Strict comparison of heap entries `(dist, node)`. -/
def dheapLt (a b : Cost × Nat) : Bool :=
  a.1 < b.1 || (a.1 = b.1 && a.2 < b.2)

/-- The main loop of `dijkstra`.  Fuel-based: the Python loop always
terminates, and every theorem below either supplies enough fuel explicitly
or is conditional on the loop having drained its heap. -/
def dijkstraLoop (net : Net) (aPl aN : List Nat) :
    Nat → DijkstraState → DijkstraState
  | 0, st => st
  | fuel+1, st =>
    match popMinBy dheapLt st.heap with
    | none => st
    | some ((d, node), rest) =>
      if node ∈ st.visited then
        dijkstraLoop net aPl aN fuel { st with heap := rest }
      else
        let st1 := { st with visited := node :: st.visited, heap := rest }
        let st2 := (net.adj node).foldl (fun s (nb, l) =>
          if nb ∈ aN then
            if l.id ∈ aPl then
              let dn := d + l.dirCost node
              if dn < s.dist nb then
                { s with
                  dist := fun x => if x = nb then dn else s.dist x
                  prec_node := fun x => if x = nb then some node else s.prec_node x
                  prec_plink := fun x => if x = nb then some l.id else s.prec_plink x
                  heap := s.heap ++ [(dn, nb)] }
              else s
            else s
          else s) st1
        dijkstraLoop net aPl aN fuel st2

/-- The path traceback of `dijkstra`: starting from the target, follow
`prec_node` until the source is reached, appending `prec_plink` entries.
When the target was never reached, `prec_node` yields `None` and the source
look-up `prec_plink[None]` raises a `KeyError`, modelled as `.error`. -/
def tracebackLoop (source : Nat) (pn pp : Nat → Option Nat) :
    Nat → Nat → List (Option Nat) → Except String (List (Option Nat))
  | 0, _, _ => .error "fuel exhausted"
  | fuel+1, curr, acc =>
    if curr = source then .ok acc
    else
      match pn curr with
      | none => .error "KeyError: None"
      | some c => tracebackLoop source pn pp fuel c (acc ++ [pp c])

/-- `dijkstra(source, target, allowed_plinks, allowed_nodes)`.
Returns the distance dictionary, the shortest path to the target (as link
ids) and the edges of the shortest-path tree (`filter(None, prec_plink)`),
or the propagated `KeyError` of the traceback.  In a successful traceback
every entry surviving the final `[:-1]` slice stems from a relaxed node and
is an actual link; `filterMap id` extracts them. -/
def dijkstra (net : Net) (source target : Nat) (aPl aN : List Nat)
    (fuel : Nat) : Except String ((Nat → Cost) × List Nat × List Nat) :=
  let st0 : DijkstraState :=
    { visited := []
      dist := fun x => if x = source then 0 else ⊤
      prec_node := fun _ => none
      prec_plink := fun _ => none
      heap := [(0, source)] }
  let st := dijkstraLoop net aPl aN fuel st0
  match tracebackLoop source st.prec_node st.prec_plink fuel target
      [st.prec_plink target] with
  | .error e => .error e
  | .ok path =>
      .ok (st.dist, (path.dropLast.reverse).filterMap id, aN.filterMap st.prec_plink)

/-! ## A* (constrained shortest path) -/

/-- A heap entry of `A_star`: `(dist, node, nodes, plinks, pc)`. -/
structure AEntry where
  dist : Cost
  node : Nat
  nodes : List Nat
  plinks : List Nat
  pc : List Nat
  deriving DecidableEq, Repr

/-- Strict comparison of `A_star` heap entries; the source orders the heap
by accumulated distance first (the remaining tie-break components are not
pinned down by the source; we compare the node ids). -/
def aheapLt (a b : AEntry) : Bool :=
  a.dist < b.dist || (a.dist = b.dist && a.node < b.node)

/-- Push the admissible neighbor extensions of entry `e` (with path
constraints `pc`) onto `heap`. -/
def astarPush (net : Net) (exPl exN aPl aN : List Nat) (e : AEntry)
    (pc : List Nat) (heap : List AEntry) : List AEntry :=
  (net.adj e.node).foldl (fun h (nb, l) =>
    if nb ∈ aN ∧ nb ∉ exN then
      if l.id ∈ aPl ∧ l.id ∉ exPl then
        h ++ [{ dist := e.dist + l.dirCost e.node
                node := nb
                nodes := e.nodes ++ [nb]
                plinks := e.plinks ++ [l.id]
                pc := pc }]
      else h
    else h) heap

/-- The main loop of `A_star`.  On satisfying the pending constraint
`pc[-1]` the visited set and heap are reset and the constraint list is
popped; when it empties the node and link sequences are returned.  An empty
heap yields `([], [])`. -/
def astarLoop (net : Net) (exPl exN aPl aN : List Nat) :
    Nat → List Nat → List AEntry → Except String (List Nat × List Nat)
  | 0, _, _ => .error "fuel exhausted"
  | fuel+1, visited, heap =>
    match popMinBy aheapLt heap with
    | none => .ok ([], [])
    | some (e, rest) =>
      if e.node ∈ visited then
        astarLoop net exPl exN aPl aN fuel visited rest
      else
        match e.pc.getLast? with
        | none => .error "IndexError"
        | some w =>
          if e.node = w then
            let pc1 := e.pc.dropLast
            if pc1.isEmpty then .ok (e.nodes, e.plinks)
            else
              astarLoop net exPl exN aPl aN fuel []
                (astarPush net exPl exN aPl aN e pc1 [])
          else
            astarLoop net exPl exN aPl aN fuel (e.node :: visited)
              (astarPush net exPl exN aPl aN e e.pc rest)

/-- `A_star(source, target, excluded_plinks, excluded_nodes,
path_constraints, allowed_plinks, allowed_nodes)`. -/
def A_star (net : Net) (source target : Nat)
    (exPl exN : List Nat := []) (pathConstraints : List Nat := [])
    (aPl aN : Option (List Nat) := none) (fuel : Nat := 1000) :
    Except String (List Nat × List Nat) :=
  let apl := aPl.getD net.linkIds
  let an := aN.getD net.nodeIds
  let pc := [target] ++ pathConstraints.reverse
  astarLoop net exPl exN apl an fuel []
    [{ dist := 0, node := source, nodes := [source], plinks := [], pc := pc }]

/-! ## Bellman-Ford -/

/-- The relaxation state of `bellman_ford`. -/
structure BFState where
  dist : Nat → Cost
  prec_node : Nat → Option Nat
  prec_plink : Nat → Option Nat
  neg : Bool

/-- One relaxation pass over all allowed nodes and their adjacencies
(`negative_cycle` freshly reset). -/
def bfRound (net : Net) (exPl exN aPl aN : List Nat) (st : BFState) : BFState :=
  aN.foldl (fun s node =>
    (net.adj node).foldl (fun s (nb, l) =>
      if nb ∈ aN ∧ nb ∉ exN then
        if l.id ∈ aPl ∧ l.id ∉ exPl then
          let dn := s.dist node + l.dirCost node
          if dn < s.dist nb then
            { dist := fun x => if x = nb then dn else s.dist x
              prec_node := fun x => if x = nb then some node else s.prec_node x
              prec_plink := fun x => if x = nb then some l.id else s.prec_plink x
              neg := true }
          else s
        else s
      else s) s) { st with neg := false }

/-- The traceback of `bellman_ford` in shortest-path mode (collecting the
node and link sequences). -/
def bfTraceback (source : Nat) (pn pp : Nat → Option Nat) :
    Nat → Nat → List Nat × List (Option Nat) →
    Except String (List Nat × List (Option Nat))
  | 0, _, _ => .error "fuel exhausted"
  | fuel+1, curr, (accN, accP) =>
    if curr = source then .ok (accN, accP)
    else
      match pn curr with
      | none => .error "KeyError: None"
      | some c => bfTraceback source pn pp fuel c (accN ++ [c], accP ++ [pp c])

/-- The cycle traceback of `bellman_ford` (`cycle=True`): follow the
predecessors from the target until a node repeats. -/
def bfCycleTraceback (pn pp : Nat → Option Nat) :
    Nat → Nat → List Nat × List (Option Nat) →
    Except String (List Nat × List (Option Nat))
  | 0, _, _ => .error "fuel exhausted"
  | fuel+1, curr, (accN, accP) =>
    match pn curr with
    | none => .error "KeyError: None"
    | some c =>
      if c ∈ accN then .ok (accN ++ [c], accP ++ [pp c])
      else bfCycleTraceback pn pp fuel c (accN ++ [c], accP ++ [pp c])

/-- `bellman_ford(source, target, cycle, excluded_plinks, excluded_nodes,
allowed_plinks, allowed_nodes)`: `n+2` relaxation rounds, a relaxation in
the final round flags a negative cycle.  Returns the `(nodes, links)` pair
of the shortest path, of the found cycle in cycle mode, or `([], [])`. -/
def bellman_ford (net : Net) (source target : Nat) (cycle : Bool := false)
    (exPl exN : List Nat := []) (aPl aN : Option (List Nat) := none)
    (fuel : Nat := 1000) : Except String (List Nat × List Nat) :=
  let apl := aPl.getD net.linkIds
  let an := aN.getD net.nodeIds
  let n := an.length
  let st0 : BFState :=
    { dist := fun x => if x = source then 0 else ⊤
      prec_node := fun _ => none
      prec_plink := fun _ => none
      neg := false }
  let st := (List.range (n + 2)).foldl
    (fun s _ => bfRound net exPl exN apl an s) st0
  if st.dist target ≠ ⊤ ∧ cycle = false then
    match bfTraceback source st.prec_node st.prec_plink fuel target
        ([target], [st.prec_plink target]) with
    | .error e => .error e
    | .ok (ns, ps) => .ok (ns.reverse, (ps.dropLast.reverse).filterMap id)
  else if cycle ∧ st.neg then
    match bfCycleTraceback st.prec_node st.prec_plink fuel target
        ([target], [st.prec_plink target]) with
    | .error e => .error e
    | .ok (ns, ps) => .ok (ns.reverse, (ps.dropLast.reverse).filterMap id)
  else .ok ([], [])

/-! ## Disjoint-path algorithms -/

/-- `plink.flowSD = plink.costSD; plink.flowDS = plink.costDS`. -/
def costToFlow (l : Link) : Link := { l with flowSD := l.costSD, flowDS := l.costDS }

/-- `plink.costSD = plink.flowSD; plink.costDS = plink.flowDS`. -/
def flowToCost (l : Link) : Link := { l with costSD := l.flowSD, costDS := l.flowDS }

/-- The cost snapshot both disjoint-path algorithms take before mutating the
cost model: `plink.flowSD = plink.costSD; plink.flowDS = plink.costDS` for
every allowed link. -/
def saveCostsToFlows (net : Net) (at_ : List Nat) : Net :=
  at_.foldl (fun n i => n.updLink i costToFlow) net

/-- The restore step of both disjoint-path algorithms:
`plink.costSD = plink.flowSD; plink.costDS = plink.flowDS`. -/
def restoreFlowsToCosts (net : Net) (at_ : List Nat) : Net :=
  at_.foldl (fun n i => n.updLink i flowToCost) net

/-- Bhandari's graph transformation: walking the first path from the source,
set the forward cost of every path link to infinity and its reverse cost to
`-1`. -/
def bhandariMutate (net : Net) (source : Nat) (path : List Nat) : Net :=
  (path.foldl (fun (p : Net × Nat) i =>
    match p.1.link? i with
    | none => p
    | some l =>
      let sd := p.2 = l.source
      let n1 := p.1.updLink i (fun l =>
        if sd then { l with costSD := ⊤, costDS := -1 }
        else { l with costDS := ⊤, costSD := -1 })
      (n1, if sd then l.destination else l.source)) (net, source)).1

/-- `bhandari(source, target, a_n, a_t)`: shortest path by A*, cost flip
along it, second path by Bellman-Ford, cost restore, symmetric difference. -/
def bhandari (net : Net) (source target : Nat)
    (a_n a_t : Option (List Nat) := none) (fuel : Nat := 1000) :
    Except String (List Nat × Net) :=
  let at_ := a_t.getD net.linkIds
  let an := a_n.getD net.nodeIds
  let net1 := saveCostsToFlows net at_
  match A_star net1 source target [] [] [] (some at_) (some an) fuel with
  | .error e => .error e
  | .ok (_, first_path) =>
    let net2 := bhandariMutate net1 source first_path
    match bellman_ford net2 source target false [] [] (some at_) (some an) fuel with
    | .error e => .error e
    | .ok (_, second_path) =>
      let net3 := restoreFlowsToCosts net2 at_
      .ok (first_path.filter (· ∉ second_path) ++
           second_path.filter (· ∉ first_path), net3)

/-- Suurbale's tree re-costing: for every shortest-path-tree link,
`costSD += dist[source] - dist[destination]` and symmetrically. -/
def suurbaleRecost (net : Net) (dist : Nat → Cost) (tree : List Nat) : Net :=
  tree.foldl (fun n i =>
    n.updLink i (fun l =>
      { l with
        costSD := l.costSD + csub (dist l.source) (dist l.destination)
        costDS := l.costDS + csub (dist l.destination) (dist l.source) })) net

/-- Suurbale's shortest-path exclusion: walking the first path from the
source, set the forward cost of every path link to infinity. -/
def suurbaleExclude (net : Net) (source : Nat) (path : List Nat) : Net :=
  (path.foldl (fun (p : Net × Nat) i =>
    match p.1.link? i with
    | none => p
    | some l =>
      let sd := p.2 = l.source
      let n1 := p.1.updLink i (fun l =>
        if sd then { l with costSD := ⊤ } else { l with costDS := ⊤ })
      (n1, if sd then l.destination else l.source)) (net, source)).1

/-- `suurbale(source, target, a_n, a_t)`: Dijkstra tree, tree-edge cost
transform, shortest-path exclusion, second path by A*, cost restore,
symmetric difference. -/
def suurbale (net : Net) (source target : Nat)
    (a_n a_t : Option (List Nat) := none) (fuel : Nat := 1000) :
    Except String (List Nat × Net) :=
  let at_ := a_t.getD net.linkIds
  let an := a_n.getD net.nodeIds
  let net1 := saveCostsToFlows net at_
  match dijkstra net1 source target at_ an fuel with
  | .error e => .error e
  | .ok (dist, first_path, tree) =>
    let net2 := suurbaleRecost net1 dist tree
    let net3 := suurbaleExclude net2 source first_path
    match A_star net3 source target [] [] [] (some at_) (some an) fuel with
    | .error e => .error e
    | .ok (_, second_path) =>
      let net4 := restoreFlowsToCosts net3 at_
      .ok (first_path.filter (· ∉ second_path) ++
           second_path.filter (· ∉ first_path), net4)

/-! ## Flow algorithms -/

/-- `reset_flow`: zero both directional flows of every physical link. -/
def reset_flow (net : Net) : Net :=
  { net with links := net.links.map (fun l => { l with flowSD := 0, flowDS := 0 }) }

/-- The attribute name computed by `'flow' + (s==adj.source)*'SD' or 'DS'` in
`ford_fulkerson`'s final sum.  Python parses it as
`('flow' + (s==adj.source)*'SD') or 'DS'`; both `'flowSD'` and `'flow'` are
truthy strings, so the `or 'DS'` branch is dead and the expression yields the
attribute name `'flow'` whenever the node is the link's destination. -/
def ffFlowAttr (isSrc : Bool) : String := if isSrc then "flowSD" else "flow"

/-- Modelled from the spec (the `Link` classes of the missing
`objects/objects.py`): a link's flow is tracked by the two
direction-qualified attributes `flowSD` and `flowDS` only ("a link's two
directional attribute sets are never conflated"), so `getattr` on any other
name raises `AttributeError`, modelled as `none`. -/
def Link.getAttrFlow (l : Link) : String → Option Cost
  | "flowSD" => some l.flowSD
  | "flowDS" => some l.flowDS
  | _ => none

/-- The scan state of `augment_ff`'s adjacency loop: whether the early
`return` has fired, the returned value, the shared visited dictionary and
the network. -/
structure FFSt where
  done : Bool
  res : Cost
  visit : Nat → Bool
  net : Net

/-- `augment_ff`: depth-first augmentation of Ford-Fulkerson.  Marks the
current node visited, returns `val` at the target, otherwise scans the
adjacencies, augmenting along the first neighbor whose recursive call
returns a positive flow (the fold's `done` flag models the source's early
`return`; visited marks made by failed branches persist).  Python's `False`
result is modelled as `0` (both falsy, and compared with `> 0`).  The link
attributes are re-read from the current state at each step, since recursive
calls may have pushed flow over the same links. -/
def augment_ff (target : Nat) :
    Nat → Cost → Nat → (Nat → Bool) → Net → Cost × (Nat → Bool) × Net
  | 0, _, _, visit, net => (0, visit, net)
  | fuel+1, val, curr, visit, net =>
    let visit1 := fun x => if x = curr then true else visit x
    if curr = target then (val, visit1, net)
    else
      let r := ((net.adj curr).map (fun p => (p.1, p.2.id))).foldl
        (fun (st : FFSt) (e : Nat × Nat) =>
          if st.done then st
          else
            match st.net.link? e.2 with
            | none => st
            | some l =>
              let sd := curr = l.source
              let cap := if sd then l.capacitySD else l.capacityDS
              let fl := if sd then l.flowSD else l.flowDS
              if fl < cap ∧ st.visit e.1 = false then
                let rc := min val (csub cap fl)
                let r := augment_ff target fuel rc e.1 st.visit st.net
                if 0 < r.1 then
                  let net2 := r.2.2.updLink e.2 (fun l =>
                    if sd then
                      { l with flowSD := l.flowSD + r.1, flowDS := csub l.flowDS r.1 }
                    else
                      { l with flowDS := l.flowDS + r.1, flowSD := csub l.flowSD r.1 })
                  ⟨true, r.1, r.2.1, net2⟩
                else ⟨false, 0, r.2.1, r.2.2⟩
              else st)
        ⟨false, 0, visit1, net⟩
      (if r.done then r.res else 0, r.visit, r.net)

/-- The `while self.augment_ff(...)` loop of `ford_fulkerson`. -/
def ffLoop (target s : Nat) : Nat → Net → Net
  | 0, net => net
  | fuel+1, net =>
    let r := augment_ff target (fuel+1) ⊤ s (fun _ => false) net
    if r.1 ≠ 0 then ffLoop target s fuel r.2.2 else r.2.2

/-- `ford_fulkerson(s, d)`: reset flows, augment until exhaustion, then sum
the "flow leaving from the source" — reading, for each attached link, the
attribute named by `ffFlowAttr`; the result is `none` when that read raises
`AttributeError`. -/
def ford_fulkerson (net : Net) (s d : Nat) (fuel : Nat := 1000) :
    Option Cost × Net :=
  let net1 := ffLoop d s fuel (reset_flow net)
  ((net1.adj s).foldl (fun acc (_, adj) =>
      match acc, adj.getAttrFlow (ffFlowAttr (s = adj.source)) with
      | some a, some v => some (a + v)
      | _, _ => none) (some 0), net1)

/-- The BFS state of `augment_ek`. -/
structure EKState where
  res_cap : Nat → Cost
  ap : Nat → Option Nat
  q : List Nat

/-- Process the adjacencies of one dequeued node in `augment_ek`.  A
residual is "truthy" when it is nonzero. -/
def ekExpand (net : Net) (destination curr : Nat) (st : EKState) : EKState :=
  ((net.adj curr).foldl (fun (p : EKState × Bool) (e : Nat × Link) =>
    if p.2 then p
    else
      let (nb, l) := e
      let sd := curr = l.source
      let cap := if sd then l.capacitySD else l.capacityDS
      let fl := if sd then l.flowSD else l.flowDS
      let residual := csub cap fl
      if residual ≠ 0 ∧ p.1.ap nb = none then
        let st1 : EKState :=
          { res_cap := fun x => if x = nb then min (p.1.res_cap curr) residual
              else p.1.res_cap x
            ap := fun x => if x = nb then some curr else p.1.ap x
            q := p.1.q }
        if nb = destination then (st1, true)
        else ({ st1 with q := st1.q ++ [nb] }, false)
      else p) (st, false)).1

/-- The BFS loop of `augment_ek`. -/
def ekLoop (net : Net) (destination : Nat) : Nat → EKState → EKState
  | 0, st => st
  | fuel+1, st =>
    match st.q with
    | [] => st
    | curr :: rest => ekLoop net destination fuel
        (ekExpand net destination curr { st with q := rest })

/-- `augment_ek(source, destination)`: BFS for an augmenting path, returning
the parent map and the bottleneck residual capacity at the destination. -/
def augment_ek (net : Net) (source destination : Nat) (fuel : Nat) :
    (Nat → Option Nat) × Cost :=
  let st0 : EKState :=
    { res_cap := fun x => if x = source then ⊤ else 0
      ap := fun x => if x = source then some source else none
      q := [source] }
  let st := ekLoop net destination fuel st0
  (st.ap, st.res_cap destination)

/-- The parent-pointer walk of `edmonds_karp` that pushes the bottleneck
increment: `(_, plink) ,= filter(...)` unpacks exactly one matching
adjacency entry and raises a `ValueError` otherwise. -/
def ekPush (source : Nat) (ap : Nat → Option Nat) (gf : Cost) :
    Nat → Nat → Net → Except String Net
  | 0, _, _ => .error "fuel exhausted"
  | fuel+1, curr, net =>
    if curr = source then .ok net
    else
      match ap curr with
      | none => .error "ValueError"
      | some prec =>
        match (net.adj curr).filter (fun p => p.1 = prec) with
        | [(_, plink)] =>
          let sd := curr = plink.source
          let net1 := net.updLink plink.id (fun l =>
            if sd then { l with flowDS := l.flowDS + gf, flowSD := csub l.flowSD gf }
            else { l with flowSD := l.flowSD + gf, flowDS := csub l.flowDS gf })
          ekPush source ap gf fuel prec net1
        | _ => .error "ValueError"

/-- The outer augmentation loop of `edmonds_karp`. -/
def ekMainLoop (source destination : Nat) : Nat → Net → Except String Net
  | 0, _ => .error "fuel exhausted"
  | fuel+1, net =>
    let (ap, gf) := augment_ek net source destination (fuel+1)
    if gf = 0 then .ok net
    else
      match ekPush source ap gf (fuel+1) destination net with
      | .error e => .error e
      | .ok net1 => ekMainLoop source destination fuel net1

/-- `edmonds_karp(source, destination)`: repeated BFS augmentation; returns
the flow leaving the source (this sum parenthesizes the direction suffix
correctly, unlike `ford_fulkerson`'s). -/
def edmonds_karp (net : Net) (source destination : Nat) (fuel : Nat := 1000) :
    Except String (Cost × Net) :=
  match ekMainLoop source destination fuel (reset_flow net) with
  | .error e => .error e
  | .ok net1 =>
    .ok ((net1.adj source).foldl (fun acc (_, adj) =>
      acc + (if source = adj.source then adj.flowSD else adj.flowDS)) 0, net1)

/-- The blocking-flow descent `augment_di` of Dinic's algorithm: pushes flow
along edges that advance exactly one level, accumulating `val` and lowering
`limit`; a node from which nothing was pushed has its level erased. -/
def augment_di (net0 : Net) (dest : Nat) :
    Nat → (Nat → Option Nat) → Nat → Cost → Net →
    Cost × (Nat → Option Nat) × Net
  | 0, level, _, _, net => (0, level, net)
  | fuel+1, level, curr, limit, net =>
    if limit ≤ 0 then (0, level, net)
    else if curr = dest then (limit, level, net)
    else
      let r := ((net.adj curr).map (fun p => (p.1, p.2.id))).foldl
        (fun (st : Cost × Cost × (Nat → Option Nat) × Net) (e : Nat × Nat) =>
          let (val, limit, level, net) := st
          match net.link? e.2 with
          | none => st
          | some l =>
            let sd := curr = l.source
            let cap := if sd then l.capacitySD else l.capacityDS
            let fl := if sd then l.flowSD else l.flowDS
            let residual := csub cap fl
            if level e.1 = (level curr).map (· + 1) ∧ 0 < residual then
              let z := min limit residual
              let r := augment_di net0 dest fuel level e.1 z net
              let net2 := r.2.2.updLink e.2 (fun l =>
                if sd then { l with flowSD := l.flowSD + r.1, flowDS := csub l.flowDS r.1 }
                else { l with flowDS := l.flowDS + r.1, flowSD := csub l.flowSD r.1 })
              (val + r.1, csub limit r.1, r.2.1, net2)
            else st) (0, limit, level, net)
      if r.1 = 0 then
        (r.1, fun x => if x = curr then none else r.2.2.1 x, r.2.2.2)
      else (r.1, r.2.2.1, r.2.2.2)

/-- The level-graph BFS of `dinic` (`appendleft` + `pop` make the deque a
FIFO queue). -/
def dinicBFS (net : Net) : Nat → (Nat → Option Nat) → List Nat →
    Nat → Option Nat
  | 0, level, _ => level
  | fuel+1, level, q =>
    match q with
    | [] => level
    | curr :: rest =>
      let r := (net.adj curr).foldl
        (fun (p : (Nat → Option Nat) × List Nat) (e : Nat × Link) =>
          let (nb, l) := e
          let sd := curr = l.source
          let cap := if sd then l.capacitySD else l.capacityDS
          let fl := if sd then l.flowSD else l.flowDS
          if p.1 nb = none ∧ fl < cap then
            match p.1 curr with
            | some lc => (fun x => if x = nb then some (lc + 1) else p.1 x, p.2 ++ [nb])
            | none => p
          else p) (level, rest)
      dinicBFS net fuel r.1 r.2

/-- The outer loop of `dinic`, accumulating the total pushed flow. -/
def dinicLoop (source destination : Nat) : Nat → Cost → Net → Cost × Net
  | 0, total, net => (total, net)
  | fuel+1, total, net =>
    let level0 : Nat → Option Nat := fun x => if x = source then some 0 else none
    let level := dinicBFS net (fuel+1) level0 [source]
    if level destination = none then (total, net)
    else
      let limit := (net.adj source).foldl (fun acc (p : Nat × Link) =>
        acc + (if source = p.2.source then p.2.capacitySD else p.2.capacityDS)) 0
      let r := augment_di net destination (fuel+1) level source limit net
      dinicLoop source destination fuel (total + r.1) r.2.2

/-- `dinic(source, destination)`: level-graph BFS plus blocking-flow DFS;
the modelled result is the accumulated `total` (the source returns the pair
`(flow, total)` whose first component is a stray loop variable; its tests
read the second). -/
def dinic (net : Net) (source destination : Nat) (fuel : Nat := 1000) :
    Cost × Net :=
  dinicLoop source destination fuel 0 (reset_flow net)

/-! ## Kruskal and union-find -/

/-- Modelled from the spec: the union-find structure over the allowed nodes
(`miscellaneous/union_find.py` is not among the sources).  The structure is
represented by its root map; `union` reports whether the two nodes were in
different components, merging them when so ("greedily accept a link if its
endpoints are in different union-find components"). -/
def ufUnion (U : Nat → Nat) (u v : Nat) : Option (Nat → Nat) :=
  if U u = U v then none
  else some (fun x => if U x = U v then U u else U x)

/-- The edge list `kruskal` gathers: every adjacency entry of an allowed
node whose neighbor is also allowed, tagged with the link's forward cost
(each link with both endpoints allowed therefore appears once per
endpoint). -/
def kruskalEdges (net : Net) (allowed : List Nat) :
    List (Cost × Link × Nat × Nat) :=
  allowed.foldl (fun acc node =>
    (net.adj node).foldl (fun acc (p : Nat × Link) =>
      if p.1 ∈ allowed then acc ++ [(p.2.costSD, p.2, node, p.1)] else acc) acc) []

/-- The greedy acceptance scan of `kruskal` over the cost-sorted edge
list. -/
def kruskalGreedy : List (Cost × Link × Nat × Nat) → (Nat → Nat) → List Link
  | [], _ => []
  | (_, l, u, v) :: rest, U =>
    match ufUnion U u v with
    | some U1 => l :: kruskalGreedy rest U1
    | none => kruskalGreedy rest U

/-- `kruskal(allowed_nodes)`: sort the gathered edges by ascending forward
cost (a stable sort, as Python's `sorted`) and greedily accept an edge iff
its endpoints are in different union-find components. -/
def kruskal (net : Net) (allowed : List Nat) : List Link :=
  kruskalGreedy
    (List.insertionSort (fun a b => a.1 ≤ b.1) (kruskalEdges net allowed)) id

/-! ## Floyd-Warshall -/

/-- The initial matrix of `floyd_warshall` over node positions: zero on the
diagonal, the forward (`SD`) cost of the first adjacent link between the two
nodes otherwise, `inf` when there is none. -/
def fwInit (net : Net) (ns : List Nat) : Nat → Nat → Cost := fun i j =>
  if i = j then 0
  else
    match ns.get? i, ns.get? j with
    | some n1, some n2 =>
      match (net.adj n1).find? (fun p => p.1 = n2) with
      | some (_, l) => l.costSD
      | none => ⊤
    | _, _ => ⊤

/-- One in-place relaxation `W[u][v] = min(W[u][v], W[u][k]+W[k][v])`. -/
def fwStep (W : Nat → Nat → Cost) (k u v : Nat) : Nat → Nat → Cost :=
  fun i j => if i = u ∧ j = v then min (W u v) (W u k + W k v) else W i j

/-- The triple relaxation loop of `floyd_warshall` (in place, as in the
source). -/
def fwMatrix (net : Net) (ns : List Nat) : Nat → Nat → Cost :=
  let n := ns.length
  (List.range n).foldl (fun W k =>
    (List.range n).foldl (fun W u =>
      (List.range n).foldl (fun W v => fwStep W k u v) W) W) (fwInit net ns)

/-- `floyd_warshall()`: dense all-pairs shortest distances over the full
node set using the source→destination directional cost; `none` models the
`False` returned exactly when some negative self-distance is detected. -/
def floyd_warshall (net : Net) : Option (Nat → Nat → Cost) :=
  let ns := net.nodes.map (·.id)
  let W := fwMatrix net ns
  if (List.range ns.length).any (fun v => decide (W v v < 0)) then none
  else some W

/-! ## Optimization bridge (LP formulations)

The external MILP solver (`cvxopt.glpk`) is a collaborator outside the
sources: it is modelled as a function from the marshalled matrices to a
`(status, solution)` pair in which the solution is absent whenever the
solver did not find an optimum (infeasible / unbounded), exactly the
`(solsta, x)` convention of `glpk.ilp` — whose status the source never
inspects. -/

/-- The marshalled standard-form matrices (the source passes `G.T` and
`A.T`; transposition is part of the bridge's calling convention and is left
to the collaborator model). -/
structure LPInput where
  c : List Cost
  G : List (List ℚ)
  h : List Cost
  A : List (List ℚ)
  b : List ℚ
  deriving Repr

/-- The external solver: `glpk.ilp(...) = (solsta, x)`, with `x = None`
unless an optimal solution was found. -/
def SolverFn : Type := LPInput → String × Option (List ℚ)

/-- Insert-or-update preserving first-insertion order (Python dict
assignment). -/
def upsertC : List (Nat × Cost) → Nat → Cost → List (Nat × Cost)
  | [], k, v => [(k, v)]
  | (k0, v0) :: rest, k, v =>
    if k0 = k then (k, v) :: rest else (k0, v0) :: upsertC rest k v

/-- `new_graph`: per node, the neighbor → attribute dictionary built from
the adjacency (a later parallel link overwrites the entry, as in a Python
dict). -/
def lpGraph (net : Net) (attr : Nat → Link → Cost) : List (Nat × List (Nat × Cost)) :=
  net.nodes.map (fun nd =>
    (nd.id, (net.adj nd.id).foldl (fun acc (p : Nat × Link) =>
      upsertC acc p.1 (attr nd.id p.2)) []))

/-- The flattened `(node, neighbor)` variable order of the formulations. -/
def lpPairs (g : List (Nat × List (Nat × Cost))) : List (Nat × Nat) :=
  g.foldl (fun acc (p : Nat × List (Nat × Cost)) =>
    acc ++ p.2.map (fun q => (p.1, q.1))) []

/-- A row of the identity matrix. -/
def eyeRow (n i : Nat) : List ℚ :=
  (List.range n).map (fun j => if j = i then 1 else 0)

/-- `np.concatenate((id, -1*id), axis=0)`. -/
def eyeNegEye (n : Nat) : List (List ℚ) :=
  (List.range n).map (eyeRow n) ++
    (List.range n).map (fun i => (eyeRow n i).map (fun x => -x))

/-- Decode the solution vector back onto the `(node, neighbor)` pairs: with
an absent solution the first subscript `x[cpt]` raises (`TypeError` on
`None`; `IndexError` past the end). -/
def lpDecode (x : Option (List ℚ)) (pairs : List (Nat × Nat)) :
    Except String (List ((Nat × Nat) × ℚ)) :=
  match x with
  | none =>
    if pairs.isEmpty then .ok []
    else .error "TypeError: NoneType object is not subscriptable"
  | some xs =>
    (pairs.enum.foldl (fun acc (p : Nat × (Nat × Nat)) =>
      match acc with
      | .error e => .error e
      | .ok l =>
        match xs.get? p.1 with
        | none => .error "IndexError"
        | some v => .ok (l ++ [(p.2, v)])) (.ok []))

/-- Look the decoded flow of an ordered node pair up. -/
def lpFlowOf (sol : List ((Nat × Nat) × ℚ)) (a b : Nat) : Except String ℚ :=
  match sol.find? (fun p => p.1.1 = a ∧ p.1.2 = b) with
  | some p => .ok p.2
  | none => .error "KeyError"

/-- Write the decoded solution onto the links' directional flows. -/
def lpWriteFlows (net : Net) (sol : List ((Nat × Nat) × ℚ)) :
    Except String Net :=
  net.links.foldlM (fun n (l : Link) => do
    let fsd ← lpFlowOf sol l.source l.destination
    let fds ← lpFlowOf sol l.destination l.source
    pure (n.updLink l.id (fun l => { l with flowSD := some fsd, flowDS := some fds })))
    net

/-- `plink('flow', node)`. -/
def Link.dirFlow (l : Link) (n : Nat) : Cost :=
  if n = l.source then l.flowSD else l.flowDS

/-- The path traceback of `LP_SP_formulation`: follow, hop after hop, the
adjacency entries carrying one unit of flow out of the current node (the
source loops over the whole adjacency without a break; the current node is
advanced in place). -/
def lpspTraceback (net : Net) (t : Nat) : Nat → Nat → List Nat →
    Except String (List Nat)
  | 0, _, _ => .error "non-terminating traceback"
  | fuel+1, curr, path =>
    if curr = t then .ok path
    else
      let r := (net.adj curr).foldl (fun (p : Nat × List Nat) (e : Nat × Link) =>
        if e.2.dirFlow p.1 = 1 then (e.1, p.2 ++ [e.2.id]) else p) (curr, path)
      lpspTraceback net t fuel r.1 r.2

/-- `LP_SP_formulation(s, t)`: marshal the shortest-path MILP, delegate to
the solver, decode the solution onto the link flows and trace the path the
unit flow describes.  The solver status `solsta` is never read. -/
def LP_SP_formulation (solver : SolverFn) (net : Net) (s t : Nat)
    (fuel : Nat := 1000) : Except String (List Nat × Net) :=
  let net0 := reset_flow net
  let g := lpGraph net0 (fun n l => l.dirCost n)
  let pairs := lpPairs g
  let n := 2 * net0.links.length
  let c := g.foldl (fun acc (p : Nat × List (Nat × Cost)) =>
    acc ++ p.2.map (fun q => q.2)) []
  let h : List Cost := (List.replicate n (1:ℚ) ++ List.replicate n (0:ℚ)).map some
  let G := eyeNegEye n
  let Ab := g.foldl (fun (ab : List (List ℚ) × List ℚ) (p : Nat × List (Nat × Cost)) =>
    if p.1 ≠ t then
      (ab.1 ++ [pairs.map (fun q =>
          if q.2 = p.1 then -1 else if q.1 = p.1 then 1 else 0)],
       ab.2 ++ [if p.1 = s then 1 else 0])
    else ab) ([], [])
  let res := solver ⟨c, G, h, Ab.1, Ab.2⟩
  match lpDecode res.2 pairs with
  | .error e => .error e
  | .ok sol =>
    match lpWriteFlows net0 sol with
    | .error e => .error e
    | .ok net1 =>
      match lpspTraceback net1 t fuel s [] with
      | .error e => .error e
      | .ok path => .ok (path, net1)

/-- `LP_MF_formulation(s, t)`: marshal the max-flow MILP, delegate to the
solver, decode the solution onto the link flows and return the flow leaving
the source.  The solver status `solsta` is never read. -/
def LP_MF_formulation (solver : SolverFn) (net : Net) (s t : Nat) :
    Except String (Cost × Net) :=
  let g := lpGraph net (fun n l => if n = l.source then l.capacitySD else l.capacityDS)
  let pairs := lpPairs g
  let n := 2 * net.links.length
  let c : List Cost := pairs.map (fun q => some (if q.1 = s then (1:ℚ) else 0))
  let hcap := g.foldl (fun acc (p : Nat × List (Nat × Cost)) =>
    acc ++ p.2.map (fun q => q.2)) []
  let A := g.foldl (fun (a : List (List ℚ)) (p : Nat × List (Nat × Cost)) =>
    if p.1 ≠ s ∧ p.1 ≠ t then
      a ++ [pairs.map (fun q =>
        if q.2 = p.1 then 1 else if q.1 = p.1 then -1 else 0)]
    else a) []
  let b : List ℚ := List.replicate (g.length - 2) 0
  let h : List Cost := hcap ++ (List.replicate n (0:ℚ) : List ℚ).map (fun q => (q : Cost))
  let G := eyeNegEye n
  let res := solver ⟨c.map (fun v => -v), G, h, A, b⟩
  match lpDecode res.2 pairs with
  | .error e => .error e
  | .ok sol =>
    match lpWriteFlows net sol with
    | .error e => .error e
    | .ok net1 =>
      .ok ((net1.adj s).foldl (fun acc (p : Nat × Link) =>
        acc + (if s = p.2.source then p.2.flowSD else p.2.flowDS)) 0, net1)

/-! ## The forwarding simulator (RFT walk) -/

/-- Association-list lookup (Python dict read). -/
def alookup {β : Type} : List (String × β) → String → Option β
  | [], _ => none
  | (k, v) :: rest, key => if k = key then some v else alookup rest key

/-- Membership-deduplicating insert (Python `set.add`). -/
def sinsert (l : List Nat) (x : Nat) : List Nat :=
  if x ∈ l then l else l ++ [x]

/-- The walk state of `RFT_path_finder`: the stack of pending
`(node, incoming link, dataflow)` triples (`heap.pop()` takes the most
recently appended entry: the head of this list), the visited node and link
id sets of the recorded path, and the network. -/
structure WalkSt where
  stack : List (Nat × Option Nat × Option DataFlow)
  pathNodes : List Nat
  pathLinks : List Nat
  net : Net

/-- Handle one router hop: split the demand across the equal-cost routes
(over every route, failed or not, each receiving
`throughput / (len(routes) - failed_plinks)`), resolve MAC addresses via
the ARP table, accumulate traffic on each egress link and push the next
hops.  A zero divisor propagates the `ZeroDivisionError`; pushing happens
in list order, so the pushed next hops end up on the stack in reverse
order, as with Python's `append`/`pop`. -/
def rftRouterHop (curr : Nat) (nd : RNode) (df : DataFlow)
    (routes : List Route) (st : WalkSt) : Except String WalkSt :=
  routes.foldlM (fun st (route : Route) =>
    let failed_plinks : Nat :=
      (routes.filter (fun r => r.ex_tk ∈ st.net.failed)).length
    if routes.length - failed_plinks = 0 then
      .error "ZeroDivisionError"
    else
      match st.net.link? route.ex_tk with
      | none => .error "missing link"
      | some extk =>
        match alookup nd.arpt route.nh_ip with
        | none => .error "KeyError: ARP"
        | some dst_mac =>
          let ndf : DataFlow :=
            { df with
              throughput := df.throughput / (routes.length - failed_plinks : ℚ)
              src_mac := route.ex_int_mac
              dst_mac := dst_mac }
          let sd := curr = extk.source
          let net1 := st.net.updLink route.ex_tk (fun l =>
            if sd then { l with trafficSD := l.trafficSD + ndf.throughput }
            else { l with trafficDS := l.trafficDS + ndf.throughput })
          let next_hop := if sd then extk.destination else extk.source
          .ok { st with
                net := net1
                pathLinks := sinsert st.pathLinks route.ex_tk
                stack := (next_hop, some route.ex_tk, some ndf) :: st.stack }) st

/-- The hop-by-hop loop of `RFT_path_finder`.  "No route" interrupts the
walk without an exception (the source warns and breaks); ARP or switching
table misses and a zero ECMP divisor propagate as errors. -/
def rftWalkLoop (traffic : Traffic) (destination : Nat) (dst_ntw : String) :
    Nat → WalkSt → Except String WalkSt
  | 0, _ => .error "fuel exhausted"
  | fuel+1, st =>
    match st.stack with
    | [] => .ok st
    | (curr, _, df0) :: rest =>
      let st := { st with stack := rest, pathNodes := sinsert st.pathNodes curr }
      let df : DataFlow := match df0 with
        | some df => df
        | none =>
          { src_ip := traffic.source_IP, dst_ip := traffic.destination_IP
            throughput := traffic.throughput }
      if curr = destination then rftWalkLoop traffic destination dst_ntw fuel st
      else
        match st.net.node? curr with
        | none => rftWalkLoop traffic destination dst_ntw fuel st
        | some nd =>
          if nd.subtype = "router" then
            match (alookup nd.rt dst_ntw).orElse (fun _ => alookup nd.rt "0.0.0.0") with
            | none => .ok st
            | some routes =>
              match rftRouterHop curr nd df routes st with
              | .error e => .error e
              | .ok st1 => rftWalkLoop traffic destination dst_ntw fuel st1
          else if nd.subtype = "switch" then
            match alookup nd.st df.dst_mac with
            | none => .error "KeyError: switching table"
            | some extk_id =>
              match st.net.link? extk_id with
              | none => .error "missing link"
              | some extk =>
                let next_hop := if extk.source = curr then extk.destination
                  else extk.source
                rftWalkLoop traffic destination dst_ntw fuel
                  { st with
                    pathLinks := sinsert st.pathLinks extk_id
                    stack := (next_hop, some extk_id, some df) :: st.stack }
          else rftWalkLoop traffic destination dst_ntw fuel st

/-- Update a traffic demand's recorded path inside the pool. -/
def Net.setPath (net : Net) (tid : Nat) (nodes links : List Nat) : Net :=
  { net with traffics := net.traffics.map (fun tr =>
      if tr.id = tid then { tr with path := nodes ++ links } else tr) }

/-- `RFT_path_finder(traffic)`: replay the demand's hop-by-hop forwarding,
starting from its source, when both resolved IPs are present; record the
union of visited nodes and links as the demand's path. -/
def RFT_path_finder (net : Net) (traffic : Traffic) (fuel : Nat := 1000) :
    Except String Net :=
  match traffic.source_IP, traffic.destination_IP with
  | some _, some dip =>
    match rftWalkLoop traffic traffic.destination dip.network fuel
        ⟨[(traffic.source, none, none)], [], [], net⟩ with
    | .error e => .error e
    | .ok st => .ok (st.net.setPath traffic.id st.pathNodes st.pathLinks)
  | _, _ => .ok (net.setPath traffic.id [] [])

/-- `reset_traffic`: zero both directional traffics of every link. -/
def reset_traffic (net : Net) : Net :=
  { net with links := net.links.map (fun l =>
      { l with trafficSD := 0, trafficDS := 0 }) }

/-- `path_finder`: reset traffic, then route every demand — table-driven
forwarding between routers, plain shortest path (A*) otherwise. -/
def path_finder (net : Net) (fuel : Nat := 1000) : Except String Net :=
  (reset_traffic net).traffics.foldlM (fun n (traffic : Traffic) =>
    let srcRouter := (n.node? traffic.source).any (fun nd => nd.subtype = "router")
    let dstRouter := (n.node? traffic.destination).any (fun nd => nd.subtype = "router")
    if srcRouter ∧ dstRouter then
      RFT_path_finder n traffic fuel
    else
      (match A_star n traffic.source traffic.destination [] [] [] none none fuel with
      | .error e => .error e
      | .ok (_, plinks) => .ok (n.setPath traffic.id [] plinks) : Except String Net))
    (reset_traffic net)

/-! ## Routing-table construction

`routing_table_creation` clears the routing tables and delegates the actual
construction to `AS.build_RFT()` of the per-protocol autonomous-system
classes, which are not among the sources; the builder below is therefore
modelled from the spec. -/

/-- Distance-dictionary lookup of the relaxation rounds (absent: `inf`). -/
def dlookupC : List (Nat × Cost) → Nat → Cost
  | [], _ => ⊤
  | (k, v) :: rest, key => if k = key then v else dlookupC rest key

/-- One Bellman-Ford relaxation round over the non-failed physical links:
every node's tentative distance is lowered through each of its non-failed
incident links. -/
def relaxRound (net : Net) (dl : List (Nat × Cost)) : List (Nat × Cost) :=
  net.nodes.map (fun nd =>
    (nd.id, (net.adj nd.id).foldl (fun d (p : Nat × Link) =>
      if p.2.id ∈ net.failed then d
      else min d (dlookupC dl p.1 + p.2.dirCost p.1)) (dlookupC dl nd.id)))

/-- Bellman-Ford-style relaxation rounds over the non-failed physical links
(one full round per node), giving the distance map from `src`; the helper of
the spec-modelled table builder. -/
def relaxDist (net : Net) (src : Nat) : Nat → Cost :=
  dlookupC ((List.range net.nodes.length).foldl (fun dl _ => relaxRound net dl)
    (net.nodes.map (fun nd => (nd.id, if nd.id = src then (0 : Cost) else ⊤))))

/-- Modelled from the spec: `AS.build_RFT()` (the autonomous-system classes
of `autonomous_system/` are not among the sources).  §4.7: per-router
routing-table entries are built "from shortest-path computation restricted
to the domain's link/node set" — §4.9: "excluding failed links" — "merging
equal-cost routes (ECMP) keyed by destination subnet", and
"directly-connected subnets … are added afterward and never overridden by
computed routes".  For every non-failed link's subnet: a router adjacent to
it gets the connected route over it; any other router gets one route per
egress link lying on a minimum-cost path towards the nearer endpoint. -/
def buildRFT (net : Net) (r : RNode) : List (String × List Route) :=
  net.links.foldl (fun rt (p : Link) =>
    if p.id ∈ net.failed then rt
    else if r.id = p.source ∨ r.id = p.destination then
      let other := if r.id = p.source then p.destination else p.source
      rt ++ [(p.subnetwork,
        [{ origin := "C", nh_ip := p.dirIp other, ex_int_mac := p.dirMac r.id
           metric := 0, nh_node := other, ex_tk := p.id }])]
    else
      let dTarget := min (relaxDist net r.id p.source) (relaxDist net r.id p.destination)
      if dTarget = ⊤ then rt
      else
        let routes := (net.adj r.id).foldl (fun acc (q : Nat × Link) =>
          if q.2.id ∈ net.failed then acc
          else if q.2.dirCost r.id +
              min (relaxDist net q.1 p.source) (relaxDist net q.1 p.destination) =
              dTarget then
            acc ++ [{ origin := "O", nh_ip := q.2.dirIp q.1
                      ex_int_mac := q.2.dirMac r.id, metric := dTarget
                      nh_node := q.1, ex_tk := q.2.id : Route }]
          else acc) []
        if routes.isEmpty then rt else rt ++ [(p.subnetwork, routes)]) []

/-- `routing_table_creation`: clear the routing tables of routers and hosts
and rebuild them (via the spec-modelled `buildRFT`; the `subnetwork_update`
synchronisation is the identity here, links carry their subnetwork
directly). -/
def routing_table_creation (net : Net) : Net :=
  { net with nodes := net.nodes.map (fun nd =>
      if nd.subtype = "router" ∨ nd.subtype = "host" then
        { nd with rt := buildRFT net nd }
      else nd) }

/-- `route()`: rebuild the routing tables, then re-run the forwarding
simulator. -/
def route (net : Net) (fuel : Nat := 1000) : Except String Net :=
  path_finder (routing_table_creation net) fuel

/-! ## Worst-case dimensioning -/

/-- The per-scenario peak update of `plink_dimensioning`: for every link and
direction, raise the recorded worst-case traffic to the freshly observed
traffic, remembering the failure that caused it. -/
def wcUpdate (net : Net) (failedName : String) : Net :=
  { net with links := net.links.map (fun l =>
      let l := if l.trafficSD > l.wctrafficSD then
        { l with wctrafficSD := l.trafficSD, wcfailure := failedName } else l
      if l.trafficDS > l.wctrafficDS then
        { l with wctrafficDS := l.trafficDS, wcfailure := failedName } else l) }

/-- `plink_dimensioning()`: remove all failures, then fail every physical
link in turn — rebuilding the routing tables and re-running the forwarding
simulation — and keep, per link and direction, the highest observed
traffic and its cause; clear the failure set afterward. -/
def plink_dimensioning (net : Net) (fuel : Nat := 1000) : Except String Net :=
  let ids := net.linkIds
  match ids.foldlM (fun (n : Net) fid =>
      let n1 := routing_table_creation { n with failed := [fid] }
      (match path_finder n1 fuel with
      | .error e => .error e
      | .ok n2 =>
        .ok (wcUpdate n2 (((n2.link? fid).map (fun l => l.name)).getD ""))
        : Except String Net))
    { net with failed := [] } with
  | .error e => .error e
  | .ok n => .ok { n with failed := [] }

/-! ## The base-network object factories (`base_network.py`) -/

/-- Modelled from the spec: `update_properties` of the missing
`objects/objects.py` updates the entity's attributes from the keyword
arguments (create-or-update by name). -/
def updateProps (props kwargs : List (String × String)) :
    List (String × String) :=
  kwargs.foldl (fun acc (kv : String × String) =>
    if acc.any (fun p => p.1 = kv.1) then
      acc.map (fun p => if p.1 = kv.1 then kv else p)
    else acc ++ [kv]) props

/-- A node of the base network (attributes held in a property map). -/
structure BNode where
  id : Nat
  name : String
  subtype : String := "router"
  props : List (String × String) := []
  deriving DecidableEq, Repr

/-- A link of the base network. -/
structure BLink where
  id : Nat
  name : String
  subtype : String := "ethernet link"
  source : Nat
  destination : Nat
  props : List (String × String) := []
  deriving DecidableEq, Repr

/-- Modelled from the spec: the `subtype_to_type` mapping of the missing
`objects/objects.py`, sending a link subtype to its pool (link category). -/
def subtypeToType (subtype : String) : String :=
  if subtype = "ethernet link" ∨ subtype = "optical link" then "plink"
  else if subtype = "l2vc" then "l2link"
  else if subtype = "l3vc" ∨ subtype = "static route" ∨ subtype = "BGP peering" then "l3link"
  else "traffic"

/-- The state of a `BaseNetwork`: the node pool, the per-category link
pools (`pn`), the mirrored adjacency, the interface set, the name → id
registry and both id counters. -/
structure BNet where
  nodes : List (Nat × BNode) := []
  plinks : List (Nat × BLink) := []
  l2links : List (Nat × BLink) := []
  l3links : List (Nat × BLink) := []
  btraffics : List (Nat × BLink) := []
  interfaces : List (Nat × Bool) := []
  graph : List (Nat × String × Nat × Nat) := []
  name_to_id : List (String × Nat) := []
  cpt_link : Nat := 1
  cpt_node : Nat := 1
  deriving DecidableEq, Repr

/-- `pn[link_type]`. -/
def BNet.pool (st : BNet) (link_type : String) : List (Nat × BLink) :=
  if link_type = "plink" then st.plinks
  else if link_type = "l2link" then st.l2links
  else if link_type = "l3link" then st.l3links
  else st.btraffics

/-- Write `pn[link_type]` back. -/
def BNet.setPool (st : BNet) (link_type : String) (p : List (Nat × BLink)) : BNet :=
  if link_type = "plink" then { st with plinks := p }
  else if link_type = "l2link" then { st with l2links := p }
  else if link_type = "l3link" then { st with l3links := p }
  else { st with btraffics := p }

/-- Dictionary assignment on a `Nat`-keyed pool (insertion order kept). -/
def dinsert {β : Type} : List (Nat × β) → Nat → β → List (Nat × β)
  | [], k, v => [(k, v)]
  | (k0, v0) :: rest, k, v =>
    if k0 = k then (k, v) :: rest else (k0, v0) :: dinsert rest k v

/-- Dictionary lookup on a `Nat`-keyed pool. -/
def dlookup {β : Type} : List (Nat × β) → Nat → Option β
  | [], _ => none
  | (k0, v0) :: rest, k => if k0 = k then some v0 else dlookup rest k

/-- `nf`, the node factory: create-or-retrieve a node.  With a registered
name the stored node is updated from the keyword arguments and returned;
otherwise a fresh node is created under the next id (with a generated name
when none is supplied).  A registry entry pointing at a missing pool slot
propagates the `KeyError`. -/
def nf (st : BNet) (subtype : String := "router")
    (kwargs : List (String × String) := []) : Except String (BNode × BNet) :=
  let create : String → List (String × String) → Except String (BNode × BNet) :=
    fun name kw =>
      let id := st.cpt_node
      let node : BNode := { id := id, name := name, subtype := subtype
                            props := updateProps [] kw }
      .ok (node, { st with
        nodes := dinsert st.nodes id node
        name_to_id := st.name_to_id ++ [(name, id)]
        cpt_node := st.cpt_node + 1 })
  match alookup kwargs "name" with
  | none =>
    let name := subtype ++ toString st.cpt_node
    create name (kwargs ++ [("name", name)])
  | some nm =>
    match alookup st.name_to_id nm with
    | some i =>
      match dlookup st.nodes i with
      | some node =>
        let node1 := { node with props := updateProps node.props kwargs }
        .ok (node1, { st with nodes := dinsert st.nodes i node1 })
      | none => .error "KeyError: node pool"
    | none => create nm kwargs

/-- `lf`, the link factory: create-or-retrieve a link.  Without an explicit
id: a registered name retrieves the stored link (from the pool of the
requested subtype's category) and updates it from the keyword arguments;
otherwise a fresh link is created from the `source` / `destination`
keyword arguments (missing ones propagate the `KeyError`), registered,
added to the mirrored adjacency and — for ethernet and optical links — to
the interface set.  The final read returns `pn[link_type][id]`. -/
def lf (st : BNet) (subtype : String := "ethernet link")
    (idArg : Option Nat := none) (nameArg : Option String := none)
    (srcdst : Option (Nat × Nat) := none)
    (kwargs : List (String × String) := []) : Except String (BLink × BNet) :=
  let link_type := subtypeToType subtype
  match idArg with
  | some i =>
    match dlookup (st.pool link_type) i with
    | some link => .ok (link, st)
    | none => .error "KeyError: link pool"
  | none =>
    match nameArg with
    | some nm =>
      if (alookup st.name_to_id nm).isSome then
        match alookup st.name_to_id nm with
        | some i =>
          match dlookup (st.pool link_type) i with
          | some link =>
            let link1 := { link with props := updateProps link.props kwargs }
            .ok (link1, st.setPool link_type (dinsert (st.pool link_type) i link1))
          | none => .error "KeyError: link pool"
        | none => .error "KeyError: registry"
      else
        match srcdst with
        | none => .error "KeyError: source"
        | some (s, d) =>
          let id := st.cpt_link
          let link : BLink := { id := id, name := nm, subtype := subtype
                                source := s, destination := d
                                props := updateProps [] kwargs }
          let st1 := st.setPool link_type (dinsert (st.pool link_type) id link)
          let st2 := { st1 with
            name_to_id := st1.name_to_id ++ [(nm, id)]
            graph := st1.graph ++ [(s, link_type, d, id), (d, link_type, s, id)]
            interfaces := st1.interfaces ++
              (if subtype = "ethernet link" ∨ subtype = "optical link" then
                [(id, true), (id, false)] else [])
            cpt_link := st1.cpt_link + 1 }
          match dlookup (st2.pool link_type) id with
          | some l => .ok (l, st2)
          | none => .error "KeyError: link pool"
    | none =>
      match srcdst with
      | none => .error "KeyError: source"
      | some (s, d) =>
        let id := st.cpt_link
        let nm := subtype ++ toString st.cpt_link
        let link : BLink := { id := id, name := nm, subtype := subtype
                              source := s, destination := d
                              props := updateProps [] kwargs }
        let st1 := st.setPool link_type (dinsert (st.pool link_type) id link)
        let st2 := { st1 with
          name_to_id := st1.name_to_id ++ [(nm, id)]
          graph := st1.graph ++ [(s, link_type, d, id), (d, link_type, s, id)]
          interfaces := st1.interfaces ++
            (if subtype = "ethernet link" ∨ subtype = "optical link" then
              [(id, true), (id, false)] else [])
          cpt_link := st1.cpt_link + 1 }
        match dlookup (st2.pool link_type) id with
        | some l => .ok (l, st2)
        | none => .error "KeyError: link pool"


/-! ## Projections and concrete fixtures used by the theorems below -/

/-- The cost-field pair of a link. -/
def costPair (l : Link) : Cost × Cost := (l.costSD, l.costDS)

/-- The flow-field pair of a link. -/
def flowPair (l : Link) : Cost × Cost := (l.flowSD, l.flowDS)

/-- The propagated exception of a call, when there is one. -/
def exceptErr {α : Type} : Except String α → Option String
  | .error e => some e
  | .ok _ => none

instance {ε α : Type} [DecidableEq ε] [DecidableEq α] : DecidableEq (Except ε α) := fun a b =>
  match a, b with
  | .error e1, .error e2 =>
    if h : e1 = e2 then .isTrue (by rw [h]) else
      .isFalse (by intro hc; cases hc; exact h rfl)
  | .error _, .ok _ => .isFalse (by intro hc; cases hc)
  | .ok _, .error _ => .isFalse (by intro hc; cases hc)
  | .ok v1, .ok v2 =>
    if h : v1 = v2 then .isTrue (by rw [h]) else
      .isFalse (by intro hc; cases hc; exact h rfl)

/-- Two isolated routers with no links at all: the second router is
unreachable from the first. -/
def c2net : Net where
  nodes := [{ id := 1 }, { id := 2 }]
  links := []

/-- A two-router network whose only link lists the max-flow source as its
destination endpoint. -/
def c4net : Net where
  nodes := [{ id := 1 }, { id := 2 }]
  links := [{ id := 20, source := 2, destination := 1, capacitySD := 3, capacityDS := 5 }]

/-- Routing-table fixture: an equal-cost route over link 101. -/
def c1r1 : Route where
  origin := "O"; nh_ip := "ipB1"; ex_int_mac := "macA1"; metric := 1
  nh_node := 2; ex_tk := 101

/-- Routing-table fixture: an equal-cost route over link 102. -/
def c1r2 : Route where
  origin := "O"; nh_ip := "ipB2"; ex_int_mac := "macA2"; metric := 1
  nh_node := 2; ex_tk := 102

/-- A 10-unit demand between the two routers of `c1net`. -/
def c1t : Traffic where
  id := 301; source := 1; destination := 2; throughput := 10
  source_IP := some { ip := "ipA1", network := "NB" }
  destination_IP := some { ip := "ipB1", network := "NB" }

/-- Two routers joined by two parallel links forming one ECMP route pair,
with the second link failed. -/
def c1net : Net where
  nodes := [
    { id := 1, subtype := "router", rt := [("NB", [c1r1, c1r2])],
      arpt := [("ipB1", "macB1"), ("ipB2", "macB2")] },
    { id := 2, subtype := "router" }]
  links := [
    { id := 101, source := 1, destination := 2, subnetwork := "NB",
      ipS := "ipA1", ipD := "ipB1", macS := "macA1", macD := "macB1" },
    { id := 102, source := 1, destination := 2, subnetwork := "NB",
      ipS := "ipA2", ipD := "ipB2", macS := "macA2", macD := "macB2" }]
  traffics := [c1t]
  failed := [102]

/-- A four-node diamond on which both disjoint-path algorithms succeed. -/
def wnet : Net where
  nodes := [{ id := 1 }, { id := 2 }, { id := 3 }, { id := 4 }]
  links := [{ id := 10, source := 1, destination := 2, capacitySD := 5 },
            { id := 11, source := 2, destination := 4, capacitySD := 5 },
            { id := 12, source := 1, destination := 3, capacitySD := 9 },
            { id := 13, source := 3, destination := 4, capacitySD := 9 }]

/-- The result of `bhandari` on the diamond. -/
def wbh : List Nat × Net := ((bhandari wnet 1 4 none none 100).toOption).getD ([], wnet)

/-- The result of `suurbale` on the diamond. -/
def wsu : List Nat × Net := ((suurbale wnet 1 4 none none 100).toOption).getD ([], wnet)



/-- Fixture for the factory claims: the stored node of a first `nf` call
registered under the name `A`. -/
def c5node : BNode where
  id := 1; name := "A"; subtype := "router"
  props := [("name", "A"), ("x", "1")]

/-- Fixture: the stored link of a first `lf` call registered under the name
`t`. -/
def c5link : BLink where
  id := 1; name := "t"; subtype := "ethernet link"
  source := 1; destination := 1
  props := [("name", "t"), ("d", "666")]

/-- The base-network state after one node and one link creation. -/
def c5st : BNet where
  nodes := [(1, c5node)]
  plinks := [(1, c5link)]
  name_to_id := [("A", 1), ("t", 1)]
  graph := [(1, "plink", 1, 1), (1, "plink", 1, 1)]
  interfaces := [(1, true), (1, false)]
  cpt_node := 2
  cpt_link := 2


/-- A solver stub that reports failure (infeasible / unbounded): no solution
vector is produced. -/
def failSolver : SolverFn := fun _ => ("primal infeasible", none)


/-- The shared ARP table of the dimensioning fixture: every interface IP of
`c9net` resolves. -/
def c9arpt : List (String × String) :=
  [("1a", "m"), ("1b", "m"), ("2a", "m"), ("2b", "m"), ("3a", "m"), ("3b", "m")]

/-- Dimensioning fixture: routers 1 and 2 each reach router 4 through the
shared transit router 3, so the no-failure baseline puts the sum of both
demands on the transit link 203, while every single-link failure scenario
severs at least one of the demands. -/
def c9net : Net where
  nodes := [{ id := 1, arpt := c9arpt }, { id := 2, arpt := c9arpt },
            { id := 3, arpt := c9arpt }, { id := 4, arpt := c9arpt }]
  links := [{ id := 201, source := 1, destination := 3, subnetwork := "n1"
              ipS := "1a", ipD := "1b" },
            { id := 202, source := 2, destination := 3, subnetwork := "n2"
              ipS := "2a", ipD := "2b" },
            { id := 203, source := 3, destination := 4, subnetwork := "n3"
              ipS := "3a", ipD := "3b" }]
  traffics := [{ id := 301, source := 1, destination := 4, throughput := 8
                 source_IP := some ⟨"1a", "n1"⟩, destination_IP := some ⟨"3b", "n3"⟩ },
               { id := 302, source := 2, destination := 4, throughput := 8
                 source_IP := some ⟨"2a", "n2"⟩, destination_IP := some ⟨"3b", "n3"⟩ }]

/-- The dimensioned state of the fixture. -/
def c9dim : Net := ((plink_dimensioning c9net 40).toOption).getD c9net


/-- One-edge adjacency of a list of links (an edge relates its two
endpoints, in both directions). -/
def stepL (T : List Link) (x y : Nat) : Prop :=
  ∃ l ∈ T, (x = l.source ∧ y = l.destination) ∨ (x = l.destination ∧ y = l.source)

/-- Connectivity through a list of links: the reflexive-transitive closure
of one-edge adjacency. -/
def linkedL (T : List Link) : Nat → Nat → Prop :=
  Relation.ReflTransGen (stepL T)

/-- Acyclicity: every link of the list is a bridge — its endpoints are not
connected by the remaining links. -/
def forestL (S : List Link) : Prop :=
  ∀ l ∈ S, ¬ linkedL (S.erase l) l.source l.destination

/-- Union-find step over a link (the partition refinement `uf.union` causes,
as a map to class representatives). -/
def ufLink (U : Nat → Nat) (l : Link) : Nat → Nat :=
  match ufUnion U l.source l.destination with
  | some U1 => U1
  | none => U

/-- Representative map of the partition generated by a list of links. -/
def ufRepr (T : List Link) : Nat → Nat :=
  T.foldl ufLink id

/-- Decidable connectivity test: equal representatives. -/
def linkedB (T : List Link) (x y : Nat) : Bool :=
  ufRepr T x = ufRepr T y

/-- The links of the subgraph induced by a node subset. -/
def inducedLinks (net : Net) (allowed : List Nat) : List Link :=
  net.links.filter (fun l => decide (l.source ∈ allowed ∧ l.destination ∈ allowed))

/-- Decidable connectivity of a node subset through a list of links. -/
def spanB (T : List Link) (allowed : List Nat) : Bool :=
  allowed.all (fun x => allowed.all (fun y => linkedB T x y))

/-- Decidable acyclicity test. -/
def forestB (S : List Link) : Bool :=
  S.all (fun l => !(linkedB (S.erase l) l.source l.destination))

instance : IsTotal (Cost × Link × Nat × Nat) (fun a b => a.1 ≤ b.1) :=
  ⟨fun a b => le_total a.1 b.1⟩

instance : IsTrans (Cost × Link × Nat × Nat) (fun a b => a.1 ≤ b.1) :=
  ⟨fun a b c h1 h2 => le_trans h1 h2⟩

instance : IsTotal Link (fun a b => a.costSD ≤ b.costSD) :=
  ⟨fun a b => le_total a.costSD b.costSD⟩

instance : IsTrans Link (fun a b => a.costSD ≤ b.costSD) :=
  ⟨fun a b c h1 h2 => le_trans h1 h2⟩

/-- Spanning-tree fixture: a triangle with forward costs 1, 2 and 3. -/
def c6net : Net where
  nodes := [{ id := 1 }, { id := 2 }, { id := 3 }]
  links := [{ id := 601, source := 1, destination := 2, costSD := 1 },
            { id := 602, source := 2, destination := 3, costSD := 2 },
            { id := 603, source := 1, destination := 3, costSD := 3 }]

/-- A competitor spanning tree of the triangle: the links of cost 1 and 3. -/
def c6S : List Link :=
  [{ id := 601, source := 1, destination := 2, costSD := 1 },
   { id := 603, source := 1, destination := 3, costSD := 3 }]


/-- A walk between two nodes: each link is traversed in either direction. -/
def IsWalk (net : Net) : Nat → List Link → Nat → Prop
  | x, [], y => x = y
  | x, l :: ls, y => l ∈ net.links ∧
      ((x = l.source ∧ IsWalk net l.destination ls y) ∨
       (x = l.destination ∧ IsWalk net l.source ls y))

/-- A walk all of whose nodes but the last lie in `S`. -/
def WalkVia (net : Net) (S : List Nat) : Nat → List Link → Nat → Prop
  | x, [], y => x = y
  | x, l :: ls, y => l ∈ net.links ∧ x ∈ S ∧
      ((x = l.source ∧ WalkVia net S l.destination ls y) ∨
       (x = l.destination ∧ WalkVia net S l.source ls y))

/-- A walk whose interior nodes (all but the two endpoints) lie in `S`. -/
def WalkIn (net : Net) (S : List Nat) : Nat → List Link → Nat → Prop
  | x, [], y => x = y
  | x, l :: ls, y => l ∈ net.links ∧
      ((x = l.source ∧ WalkVia net S l.destination ls y) ∨
       (x = l.destination ∧ WalkVia net S l.source ls y))

/-- The forward-cost total of a walk. -/
def wcost (w : List Link) : Cost := (w.map Link.costSD).sum

/-- The matrix position of a node in the `floyd_warshall` node enumeration. -/
def nodeIdx (net : Net) (x : Nat) : Nat := (net.nodes.map RNode.id).indexOf x

/-- Asymmetric-cost fixture: the link 3–2 is cheap forward (`SD`, cost 1)
but expensive backward (`DS`, cost 100), so the A* traversal 1→2→3 costs
102 while Floyd-Warshall, reading `costSD` for both directions, sees a
two-hop path of cost 2. -/
def c7net : Net where
  nodes := [{ id := 1 }, { id := 2 }, { id := 3 }]
  links := [{ id := 701, source := 1, destination := 2, costSD := 1, costDS := 1 },
            { id := 702, source := 3, destination := 2, costSD := 1, costDS := 100 },
            { id := 703, source := 1, destination := 3, costSD := 3, costDS := 3 }]

/-- Symmetric two-node fixture for the amended Floyd-Warshall / A*
agreement. -/
def c7wnet : Net where
  nodes := [{ id := 1 }, { id := 2 }]
  links := [{ id := 711, source := 1, destination := 2, costSD := 1, costDS := 1 }]

/-! # Theorems

The helper lemmas come first; each claim's theorem carries a doc comment
naming the claim. -/

theorem updLink_link_eq (net : Net) (j : Nat) (f : Link → Link)
    (hid : ∀ l, (f l).id = l.id) (i : Nat) :
    (net.updLink j f).link? i =
      if j = i then (net.link? j).map f else net.link? i := by
  unfold Net.updLink Net.link?
  induction net.links with
  | nil => simp
  | cons l rest ih =>
    simp only [List.map_cons, List.find?]
    by_cases hj : l.id = j
    · by_cases hji : j = i
      · subst hji
        simp [hj, hid l]
      · have h2 : ((f l).id = i) = False := by simp [hid l, hj, hji]
        have h3 : (l.id = i) = False := by simp [hj, hji]
        simp [hj, h2, h3, ih, hji]
    · by_cases hli : l.id = i
      · by_cases hji : j = i
        · subst hji; simp [hli] at hj
        · have hij : (i = j) = False := by
            simp only [eq_iff_iff, iff_false]
            exact fun h => hji h.symm
          simp [hj, hli, hij, hji]
      · simp [hj, hli, ih]

theorem foldl_updLink_mem (F : Link → Link)
    (hid : ∀ l, (F l).id = l.id) (hidem : ∀ l, F (F l) = F l)
    (at_ : List Nat) (net : Net) (i : Nat) :
    ((at_.foldl (fun n j => n.updLink j F) net).link? i) =
      if i ∈ at_ then (net.link? i).map F else net.link? i := by
  induction at_ generalizing net with
  | nil => simp
  | cons j rest ih =>
    simp only [List.foldl_cons]
    rw [ih]
    by_cases hj : j = i
    · subst hj
      by_cases hm : j ∈ rest
      · simp only [hm, if_true, List.mem_cons, true_or, if_true,
          updLink_link_eq _ _ _ hid, if_pos rfl]
        cases net.link? j <;> simp [hidem]
      · simp [hm, List.mem_cons, updLink_link_eq _ _ _ hid]
    · rw [updLink_link_eq _ _ _ hid, if_neg hj]
      by_cases hm : i ∈ rest
      · simp [hm, List.mem_cons]
      · have h2 : (i ∈ j :: rest) = False := by
          simp only [List.mem_cons, eq_iff_iff, iff_false, not_or]
          exact ⟨fun h => hj h.symm, hm⟩
        simp [hm, h2]

theorem costToFlow_idem (l : Link) : costToFlow (costToFlow l) = costToFlow l := rfl

theorem flowToCost_idem (l : Link) : flowToCost (flowToCost l) = flowToCost l := rfl

theorem save_link_mem (net : Net) (at_ : List Nat) (i : Nat) (h : i ∈ at_) :
    (saveCostsToFlows net at_).link? i = (net.link? i).map costToFlow := by
  unfold saveCostsToFlows
  rw [foldl_updLink_mem costToFlow (fun _ => rfl) costToFlow_idem, if_pos h]

theorem restore_link_mem (net : Net) (at_ : List Nat) (i : Nat) (h : i ∈ at_) :
    (restoreFlowsToCosts net at_).link? i = (net.link? i).map flowToCost := by
  unfold restoreFlowsToCosts
  rw [foldl_updLink_mem flowToCost (fun _ => rfl) flowToCost_idem, if_pos h]

theorem updLink_proj {α : Type} (g : Link → α) (net : Net) (j : Nat)
    (f : Link → Link) (hid : ∀ l, (f l).id = l.id)
    (hg : ∀ l, g (f l) = g l) (i : Nat) :
    ((net.updLink j f).link? i).map g = (net.link? i).map g := by
  rw [updLink_link_eq _ _ _ hid]
  split
  · next h => subst h; cases hx : net.link? j <;> simp [hx, hg]
  · rfl

theorem bhandariMutate_flow (net : Net) (s : Nat) (path : List Nat) (i : Nat) :
    ((bhandariMutate net s path).link? i).map flowPair
      = ((net.link? i).map flowPair) := by
  unfold bhandariMutate
  induction path generalizing net s with
  | nil => rfl
  | cons j rest ih =>
    simp only [List.foldl_cons]
    cases hl : net.link? j with
    | none => simp only [hl]; exact ih net s
    | some l =>
      simp only [hl]
      rw [ih]
      exact updLink_proj flowPair net j _ (by intro l; split <;> rfl)
        (by intro l; unfold flowPair; split <;> rfl) i

theorem suurbaleRecost_flow (net : Net) (dist : Nat → Cost) (tree : List Nat)
    (i : Nat) :
    ((suurbaleRecost net dist tree).link? i).map flowPair
      = ((net.link? i).map flowPair) := by
  unfold suurbaleRecost
  induction tree generalizing net with
  | nil => rfl
  | cons j rest ih =>
    simp only [List.foldl_cons]
    rw [ih]
    exact updLink_proj flowPair net j
      (fun l => { l with costSD := l.costSD + csub (dist l.source) (dist l.destination),
                         costDS := l.costDS + csub (dist l.destination) (dist l.source) })
      (fun l => rfl) (fun l => rfl) i

theorem suurbaleExclude_flow (net : Net) (s : Nat) (path : List Nat) (i : Nat) :
    ((suurbaleExclude net s path).link? i).map flowPair
      = ((net.link? i).map flowPair) := by
  unfold suurbaleExclude
  induction path generalizing net s with
  | nil => rfl
  | cons j rest ih =>
    simp only [List.foldl_cons]
    cases hl : net.link? j with
    | none => simp only [hl]; exact ih net s
    | some l =>
      simp only [hl]
      rw [ih]
      exact updLink_proj flowPair net j _ (by intro l; split <;> rfl)
        (by intro l; unfold flowPair; split <;> rfl) i

theorem bhandari_net' {net : Net} {source target : Nat}
    {a_n a_t : Option (List Nat)} {fuel : Nat} {res : List Nat} {net' : Net}
    (h : bhandari net source target a_n a_t fuel = .ok (res, net')) :
    ∃ fp, net' = restoreFlowsToCosts
      (bhandariMutate (saveCostsToFlows net (a_t.getD net.linkIds)) source fp)
      (a_t.getD net.linkIds) := by
  unfold bhandari at h
  simp only at h
  split at h
  · exact absurd h (by simp)
  · split at h
    · exact absurd h (by simp)
    · cases h
      exact ⟨_, rfl⟩

theorem suurbale_net' {net : Net} {source target : Nat}
    {a_n a_t : Option (List Nat)} {fuel : Nat} {res : List Nat} {net' : Net}
    (h : suurbale net source target a_n a_t fuel = .ok (res, net')) :
    ∃ dist fp tree, net' = restoreFlowsToCosts
      (suurbaleExclude
        (suurbaleRecost (saveCostsToFlows net (a_t.getD net.linkIds)) dist tree)
        source fp)
      (a_t.getD net.linkIds) := by
  unfold suurbale at h
  simp only at h
  split at h
  · exact absurd h (by simp)
  · split at h
    · exact absurd h (by simp)
    · cases h
      exact ⟨_, _, _, rfl⟩

theorem restore_costPair (net : Net) (at_ : List Nat) (i : Nat) (h : i ∈ at_) :
    ((restoreFlowsToCosts net at_).link? i).map costPair
      = (net.link? i).map flowPair := by
  rw [restore_link_mem net at_ i h]
  cases net.link? i <;> rfl

theorem restore_flowPair (net : Net) (at_ : List Nat) (i : Nat) (h : i ∈ at_) :
    ((restoreFlowsToCosts net at_).link? i).map flowPair
      = (net.link? i).map flowPair := by
  rw [restore_link_mem net at_ i h]
  cases net.link? i <;> rfl

theorem save_flowPair (net : Net) (at_ : List Nat) (i : Nat) (h : i ∈ at_) :
    ((saveCostsToFlows net at_).link? i).map flowPair
      = (net.link? i).map costPair := by
  rw [save_link_mem net at_ i h]
  cases net.link? i <;> rfl

/-- **C3**: for every call to `bhandari` and every call to `suurbale`, the
directional cost fields of every allowed link are saved (into the flow
fields) before being mutated and written back on the way out, so that after
the call returns, each allowed link's `costSD` and `costDS` equal their
values on entry. -/
theorem disjoint_pair_costs_restored
    (net : Net) (source target : Nat) (a_n a_t : Option (List Nat)) (fuel : Nat) :
    (∀ res net', bhandari net source target a_n a_t fuel = .ok (res, net') →
      ∀ i ∈ a_t.getD net.linkIds,
        (net'.link? i).map costPair = (net.link? i).map costPair) ∧
    (∀ res net', suurbale net source target a_n a_t fuel = .ok (res, net') →
      ∀ i ∈ a_t.getD net.linkIds,
        (net'.link? i).map costPair = (net.link? i).map costPair) := by
  constructor
  · intro res net' h i hi
    obtain ⟨fp, rfl⟩ := bhandari_net' h
    rw [restore_costPair _ _ _ hi, bhandariMutate_flow, save_flowPair _ _ _ hi]
  · intro res net' h i hi
    obtain ⟨dist, fp, tree, rfl⟩ := suurbale_net' h
    rw [restore_costPair _ _ _ hi, suurbaleExclude_flow, suurbaleRecost_flow,
      save_flowPair _ _ _ hi]

/-- Witness for **C3** at the concrete diamond network: both calls succeed
and link 10's costs after each call equal its costs on entry. -/
theorem disjoint_pair_costs_restored_witness :
    (bhandari wnet 1 4 none none 100 = .ok (wbh.1, wbh.2) ∧
     suurbale wnet 1 4 none none 100 = .ok (wsu.1, wsu.2) ∧
     10 ∈ (none : Option (List Nat)).getD wnet.linkIds) ∧
    ((wbh.2.link? 10).map costPair = (wnet.link? 10).map costPair ∧
     (wsu.2.link? 10).map costPair = (wnet.link? 10).map costPair) :=
  ⟨⟨by decide, by decide, by decide⟩,
   ⟨(disjoint_pair_costs_restored wnet 1 4 none none 100).1 wbh.1 wbh.2
      (by decide) 10 (by decide),
    (disjoint_pair_costs_restored wnet 1 4 none none 100).2 wsu.1 wsu.2
      (by decide) 10 (by decide)⟩⟩

/-- **C10**: `bhandari` and `suurbale` overwrite the `flowSD` / `flowDS`
fields of every allowed link with that link's directional cost values
(scratch storage for the cost snapshot) and do not restore them: on return,
every allowed link's flow fields hold its entry costs, so any flow values
present before the call are destroyed. -/
theorem disjoint_pair_clobbers_flows
    (net : Net) (source target : Nat) (a_n a_t : Option (List Nat)) (fuel : Nat) :
    (∀ res net', bhandari net source target a_n a_t fuel = .ok (res, net') →
      ∀ i ∈ a_t.getD net.linkIds,
        (net'.link? i).map flowPair = (net.link? i).map costPair) ∧
    (∀ res net', suurbale net source target a_n a_t fuel = .ok (res, net') →
      ∀ i ∈ a_t.getD net.linkIds,
        (net'.link? i).map flowPair = (net.link? i).map costPair) := by
  constructor
  · intro res net' h i hi
    obtain ⟨fp, rfl⟩ := bhandari_net' h
    rw [restore_flowPair _ _ _ hi, bhandariMutate_flow, save_flowPair _ _ _ hi]
  · intro res net' h i hi
    obtain ⟨dist, fp, tree, rfl⟩ := suurbale_net' h
    rw [restore_flowPair _ _ _ hi, suurbaleExclude_flow, suurbaleRecost_flow,
      save_flowPair _ _ _ hi]

/-- Witness for **C10** at the concrete diamond network: link 11 had zero
flows and unit costs on entry; after each call its flows hold the costs. -/
theorem disjoint_pair_clobbers_flows_witness :
    (bhandari wnet 1 4 none none 100 = .ok (wbh.1, wbh.2) ∧
     suurbale wnet 1 4 none none 100 = .ok (wsu.1, wsu.2) ∧
     11 ∈ (none : Option (List Nat)).getD wnet.linkIds) ∧
    ((wbh.2.link? 11).map flowPair = (wnet.link? 11).map costPair ∧
     (wsu.2.link? 11).map flowPair = (wnet.link? 11).map costPair ∧
     (wnet.link? 11).map flowPair ≠ (wnet.link? 11).map costPair) :=
  ⟨⟨by decide, by decide, by decide⟩,
   ⟨(disjoint_pair_clobbers_flows wnet 1 4 none none 100).1 wbh.1 wbh.2
      (by decide) 11 (by decide),
    (disjoint_pair_clobbers_flows wnet 1 4 none none 100).2 wsu.1 wsu.2
      (by decide) 11 (by decide),
    by decide⟩⟩

/-- **C2**: on a network where the target is unreachable from the source,
`dijkstra` does not return normally: the path traceback looks the `None`
predecessor up and the `KeyError` propagates, even though the computed
distance of the target is indeed infinite at that point.  (The sibling
`bellman_ford` guards its traceback with `dist[target] != float('inf')`;
`dijkstra` misses that guard.) -/
theorem dijkstra_unreachable_raises :
    exceptErr (dijkstra c2net 1 2 c2net.linkIds c2net.nodeIds 10)
      = some "KeyError: None" ∧
    (dijkstraLoop c2net c2net.linkIds c2net.nodeIds 10
      { visited := [], dist := fun x => if x = 1 then 0 else ⊤,
        prec_node := fun _ => none, prec_plink := fun _ => none,
        heap := [(0, 1)] }).dist 2 = ⊤ := by
  constructor <;> decide

/-- **C4**: on `c4net`, whose only link has the max-flow source as its
destination endpoint, `ford_fulkerson` pushes the correct augmenting flow
(the link's `flowDS` ends at 5) but its final "flow leaving the source" sum
evaluates the attribute name `('flow' + (s==adj.source)*'SD') or 'DS'` to
`'flow'`, which no link defines, so the sum raises `AttributeError`
(modelled: `none`) instead of returning 5 — while `edmonds_karp` (whose sum
parenthesizes the suffix) and `dinic` both return 5. -/
theorem maxflow_ff_attribute_error :
    ffFlowAttr false = "flow" ∧
    (ford_fulkerson c4net 1 2 50).1 = none ∧
    ((ford_fulkerson c4net 1 2 50).2.link? 20).map Link.flowDS = some (some 5) ∧
    (edmonds_karp c4net 1 2 50).toOption.map Prod.fst = some (some 5) ∧
    (dinic c4net 1 2 50).1 = some 5 := by
  refine ⟨rfl, ?_, ?_, ?_, ?_⟩ <;> decide

/-- **C1**: at a router hop whose destination subnet resolves to two
equal-cost routes of which one (over link 102) is failed, the walk splits
the 10-unit demand by `len(routes) - failed_plinks = 1` but still iterates
over **all** routes: the failed route's egress link receives 10 units of
traffic — the claim's "egress links of failed routes receive no traffic"
does not hold — and the total injected at the hop is 20. -/
theorem rft_failed_route_receives_traffic :
    ((RFT_path_finder c1net c1t 50).toOption.bind
        (fun n => n.link? 102)).map Link.trafficSD = some 10 ∧
    ((RFT_path_finder c1net c1t 50).toOption.bind
        (fun n => n.link? 101)).map Link.trafficSD = some 10 := by
  constructor <;> decide


theorem dinsert_keys {β : Type} (l : List (Nat × β)) (k : Nat) (v : β)
    (h : dlookup l k ≠ none) :
    (dinsert l k v).map Prod.fst = l.map Prod.fst := by
  induction l with
  | nil => simp [dlookup] at h
  | cons p rest ih =>
    by_cases hk : p.1 = k
    · simp [dinsert, hk]
    · simp only [dlookup, hk, if_false] at h
      simp only [dinsert, hk, if_false, List.map_cons, List.cons.injEq, true_and]
      exact ih (by simpa using h)

theorem dlookup_dinsert {β : Type} (l : List (Nat × β)) (k : Nat) (v : β) :
    dlookup (dinsert l k v) k = some v := by
  induction l with
  | nil => simp [dinsert, dlookup]
  | cons p rest ih =>
    by_cases hpk : p.1 = k
    · simp [dinsert, dlookup, hpk]
    · simp [dinsert, dlookup, hpk, ih]

theorem nf_existing_name_updates
    (st : BNet) (subtype : String) (kwargs : List (String × String))
    (name : String) (i : Nat) (node : BNode)
    (hk : alookup kwargs "name" = some name)
    (hn : alookup st.name_to_id name = some i)
    (hp : dlookup st.nodes i = some node) :
    ∃ n1 st1, nf st subtype kwargs = .ok (n1, st1) ∧
      n1.id = node.id ∧
      n1 = { node with props := updateProps node.props kwargs } ∧
      st1.nodes.map Prod.fst = st.nodes.map Prod.fst ∧
      dlookup st1.nodes i = some n1 ∧
      st1.name_to_id = st.name_to_id ∧
      st1.cpt_node = st.cpt_node ∧ st1.cpt_link = st.cpt_link ∧
      st1.plinks = st.plinks ∧ st1.l2links = st.l2links ∧
      st1.l3links = st.l3links ∧ st1.btraffics = st.btraffics := by
  let n1 : BNode := { node with props := updateProps node.props kwargs }
  refine ⟨n1, { st with nodes := dinsert st.nodes i n1 },
          ?_, rfl, rfl, ?_, ?_, rfl, rfl, rfl, rfl, rfl, rfl, rfl⟩
  · unfold nf
    simp only [hk, hn, hp]
  · exact dinsert_keys _ _ _ (by simp [hp])
  · exact dlookup_dinsert _ _ _

theorem setPool_nodes (st : BNet) (t : String) (p : List (Nat × BLink)) :
    (st.setPool t p).nodes = st.nodes := by
  unfold BNet.setPool; split_ifs <;> rfl

theorem setPool_registry (st : BNet) (t : String) (p : List (Nat × BLink)) :
    (st.setPool t p).name_to_id = st.name_to_id := by
  unfold BNet.setPool; split_ifs <;> rfl

theorem setPool_cpts (st : BNet) (t : String) (p : List (Nat × BLink)) :
    (st.setPool t p).cpt_link = st.cpt_link ∧ (st.setPool t p).cpt_node = st.cpt_node := by
  unfold BNet.setPool; split_ifs <;> exact ⟨rfl, rfl⟩

theorem setPool_graph (st : BNet) (t : String) (p : List (Nat × BLink)) :
    (st.setPool t p).graph = st.graph ∧ (st.setPool t p).interfaces = st.interfaces := by
  unfold BNet.setPool; split_ifs <;> exact ⟨rfl, rfl⟩

theorem pool_setPool (st : BNet) (t : String) (p : List (Nat × BLink)) :
    (st.setPool t p).pool t = p := by
  unfold BNet.setPool BNet.pool; split_ifs <;> rfl

theorem lf_existing_name_updates
    (st : BNet) (subtype : String) (kwargs : List (String × String))
    (srcdst : Option (Nat × Nat))
    (name : String) (j : Nat) (link : BLink)
    (hn : alookup st.name_to_id name = some j)
    (hp : dlookup (st.pool (subtypeToType subtype)) j = some link) :
    ∃ l1 st1, lf st subtype none (some name) srcdst kwargs = .ok (l1, st1) ∧
      l1.id = link.id ∧
      l1 = { link with props := updateProps link.props kwargs } ∧
      (st1.pool (subtypeToType subtype)).map Prod.fst
        = (st.pool (subtypeToType subtype)).map Prod.fst ∧
      dlookup (st1.pool (subtypeToType subtype)) j = some l1 ∧
      st1.nodes = st.nodes ∧
      st1.name_to_id = st.name_to_id ∧
      st1.cpt_link = st.cpt_link ∧ st1.cpt_node = st.cpt_node ∧
      st1.graph = st.graph ∧ st1.interfaces = st.interfaces := by
  let l1 : BLink := { link with props := updateProps link.props kwargs }
  refine ⟨l1, st.setPool (subtypeToType subtype)
      (dinsert (st.pool (subtypeToType subtype)) j l1),
    ?_, rfl, rfl, ?_, ?_, setPool_nodes _ _ _, setPool_registry _ _ _,
    (setPool_cpts _ _ _).1, (setPool_cpts _ _ _).2,
    (setPool_graph _ _ _).1, (setPool_graph _ _ _).2⟩
  · unfold lf
    simp only [hn, hp, Option.isSome_some, if_true]
  · rw [pool_setPool]
    exact dinsert_keys _ _ _ (by simp [hp])
  · rw [pool_setPool]
    exact dlookup_dinsert _ _ _

/-- **C5**: invoking the node factory `nf` (or the link factory `lf`) with
an already-registered name returns the stored entity (same id), updates its
attributes from the new keyword arguments, and creates no duplicate: the
pools keep the same keys, the updated entity sits at the registered key,
and the registry and both id counters are unchanged. -/
theorem factory_idempotent
    (st : BNet) (subtype subtypeL : String)
    (kwargs kwargsL : List (String × String)) (srcdst : Option (Nat × Nat))
    (name : String) (i : Nat) (node : BNode)
    (hk : alookup kwargs "name" = some name)
    (hn : alookup st.name_to_id name = some i)
    (hp : dlookup st.nodes i = some node)
    (nameL : String) (j : Nat) (link : BLink)
    (hln : alookup st.name_to_id nameL = some j)
    (hlp : dlookup (st.pool (subtypeToType subtypeL)) j = some link) :
    (∃ n1 st1, nf st subtype kwargs = .ok (n1, st1) ∧
      n1.id = node.id ∧
      n1 = { node with props := updateProps node.props kwargs } ∧
      st1.nodes.map Prod.fst = st.nodes.map Prod.fst ∧
      dlookup st1.nodes i = some n1 ∧
      st1.name_to_id = st.name_to_id ∧
      st1.cpt_node = st.cpt_node ∧ st1.cpt_link = st.cpt_link ∧
      st1.plinks = st.plinks ∧ st1.l2links = st.l2links ∧
      st1.l3links = st.l3links ∧ st1.btraffics = st.btraffics) ∧
    (∃ l1 st1, lf st subtypeL none (some nameL) srcdst kwargsL = .ok (l1, st1) ∧
      l1.id = link.id ∧
      l1 = { link with props := updateProps link.props kwargsL } ∧
      (st1.pool (subtypeToType subtypeL)).map Prod.fst
        = (st.pool (subtypeToType subtypeL)).map Prod.fst ∧
      dlookup (st1.pool (subtypeToType subtypeL)) j = some l1 ∧
      st1.nodes = st.nodes ∧
      st1.name_to_id = st.name_to_id ∧
      st1.cpt_link = st.cpt_link ∧ st1.cpt_node = st.cpt_node ∧
      st1.graph = st.graph ∧ st1.interfaces = st.interfaces) :=
  ⟨nf_existing_name_updates st subtype kwargs name i node hk hn hp,
   lf_existing_name_updates st subtypeL kwargsL srcdst nameL j link hln hlp⟩

/-- Witness for **C5** on the concrete one-node, one-link state `c5st`. -/
theorem factory_idempotent_witness :
    (alookup [("name", "A"), ("x", "7")] "name" = some "A" ∧
     alookup c5st.name_to_id "A" = some 1 ∧
     dlookup c5st.nodes 1 = some c5node ∧
     alookup c5st.name_to_id "t" = some 1 ∧
     dlookup (c5st.pool (subtypeToType "ethernet link")) 1 = some c5link) ∧
    ((∃ n1 st1, nf c5st "router" [("name", "A"), ("x", "7")] = .ok (n1, st1) ∧
      n1.id = c5node.id ∧
      n1 = { c5node with props := updateProps c5node.props [("name", "A"), ("x", "7")] } ∧
      st1.nodes.map Prod.fst = c5st.nodes.map Prod.fst ∧
      dlookup st1.nodes 1 = some n1 ∧
      st1.name_to_id = c5st.name_to_id ∧
      st1.cpt_node = c5st.cpt_node ∧ st1.cpt_link = c5st.cpt_link ∧
      st1.plinks = c5st.plinks ∧ st1.l2links = c5st.l2links ∧
      st1.l3links = c5st.l3links ∧ st1.btraffics = c5st.btraffics) ∧
    (∃ l1 st1, lf c5st "ethernet link" none (some "t") none [("d", "42")] = .ok (l1, st1) ∧
      l1.id = c5link.id ∧
      l1 = { c5link with props := updateProps c5link.props [("d", "42")] } ∧
      (st1.pool (subtypeToType "ethernet link")).map Prod.fst
        = (c5st.pool (subtypeToType "ethernet link")).map Prod.fst ∧
      dlookup (st1.pool (subtypeToType "ethernet link")) 1 = some l1 ∧
      st1.nodes = c5st.nodes ∧
      st1.name_to_id = c5st.name_to_id ∧
      st1.cpt_link = c5st.cpt_link ∧ st1.cpt_node = c5st.cpt_node ∧
      st1.graph = c5st.graph ∧ st1.interfaces = c5st.interfaces)) :=
  ⟨⟨by decide, by decide, by decide, by decide, by decide⟩,
   factory_idempotent c5st "router" "ethernet link"
     [("name", "A"), ("x", "7")] [("d", "42")] none
     "A" 1 c5node (by decide) (by decide) (by decide)
     "t" 1 c5link (by decide) (by decide)⟩


theorem upsertC_ne_nil (l : List (Nat × Cost)) (k : Nat) (v : Cost) :
    upsertC l k v ≠ [] := by
  cases l with
  | nil => simp [upsertC]
  | cons p rest => unfold upsertC; split <;> simp

theorem foldl_upsertC_ne_nil (l : List (Nat × Link)) (acc : List (Nat × Cost))
    (f : Nat × Link → Cost) (h : acc ≠ [] ∨ l ≠ []) :
    l.foldl (fun acc p => upsertC acc p.1 (f p)) acc ≠ [] := by
  induction l generalizing acc with
  | nil => simpa using h.resolve_right (by simp)
  | cons p rest ih =>
    simp only [List.foldl_cons]
    exact ih _ (.inl (upsertC_ne_nil _ _ _))

theorem lpPairs_ne_nil (g : List (Nat × List (Nat × Cost)))
    (e : Nat × List (Nat × Cost)) (he : e ∈ g) (hne : e.2 ≠ []) :
    lpPairs g ≠ [] := by
  unfold lpPairs
  suffices h : ∀ acc, (acc ≠ [] ∨ ∃ p ∈ g, p.2 ≠ []) →
      g.foldl (fun acc p => acc ++ p.2.map (fun q => (p.1, q.1))) acc ≠ [] by
    exact h [] (.inr ⟨e, he, hne⟩)
  clear he
  induction g with
  | nil => intro acc h; simpa using h.resolve_right (by simp)
  | cons p rest ih =>
    intro acc h
    simp only [List.foldl_cons]
    rcases h with h | ⟨q, hq, hq2⟩
    · refine ih _ (.inl ?_)
      simp only [ne_eq, List.append_eq_nil, not_and]
      intro ha; exact absurd ha h
    · rcases List.mem_cons.mp hq with rfl | hq
      · refine ih _ (.inl ?_)
        simp only [ne_eq, List.append_eq_nil, not_and]
        intro _ hm
        exact hq2 (List.map_eq_nil_iff.mp hm)
      · exact ih _ (.inr ⟨q, hq, hq2⟩)

theorem lpDecode_none (pairs : List (Nat × Nat)) (h : pairs ≠ []) :
    lpDecode none pairs = .error "TypeError: NoneType object is not subscriptable" := by
  unfold lpDecode
  simp [List.isEmpty_iff, h]

theorem adj_map_links (net : Net) (g : Link → Link)
    (hsrc : ∀ l, (g l).source = l.source)
    (hdst : ∀ l, (g l).destination = l.destination) (n : Nat) :
    ({ net with links := net.links.map g } : Net).adj n
      = (net.adj n).map (fun p => (p.1, g p.2)) := by
  unfold Net.adj
  induction net.links with
  | nil => rfl
  | cons l rest ih =>
    simp only [List.map_cons, List.filterMap_cons, hsrc, hdst]
    by_cases h1 : l.source = n
    · simpa [h1, hdst] using ih
    · by_cases h2 : l.destination = n
      · simpa [h1, h2, hsrc] using ih
      · simpa [h1, h2] using ih

theorem lpGraph_entry_ne_nil (net : Net) (attr : Nat → Link → Cost)
    (nd : RNode) (hnd : nd ∈ net.nodes) (hadj : net.adj nd.id ≠ []) :
    lpPairs (lpGraph net attr) ≠ [] := by
  refine lpPairs_ne_nil _ (nd.id, (net.adj nd.id).foldl
    (fun acc p => upsertC acc p.1 (attr nd.id p.2)) []) ?_ ?_
  · unfold lpGraph
    exact List.mem_map_of_mem _ hnd
  · exact foldl_upsertC_ne_nil _ _ (fun p => attr nd.id p.2) (.inr hadj)

/-- **C8**: when the external MILP solver reports the problem infeasible or
unbounded (its solution vector is absent), both `LP_SP_formulation` and
`LP_MF_formulation` propagate an error to the caller — the decode step
subscripts the absent vector, raising the modelled `TypeError` — and never
return a zero, empty or otherwise fabricated solution (the hypotheses ask
for a node with at least one adjacency, so that the decode loop runs). -/
theorem lp_solver_failure_propagates
    (solver : SolverFn) (net : Net) (s t : Nat) (fuel : Nat)
    (hsolver : ∀ inp, (solver inp).2 = none)
    (nd : RNode) (hnd : nd ∈ net.nodes) (hadj : net.adj nd.id ≠ []) :
    exceptErr (LP_SP_formulation solver net s t fuel)
      = some "TypeError: NoneType object is not subscriptable" ∧
    exceptErr (LP_MF_formulation solver net s t)
      = some "TypeError: NoneType object is not subscriptable" := by
  have hadj0 : (reset_flow net).adj nd.id ≠ [] := by
    unfold reset_flow
    rw [adj_map_links net (fun l => { l with flowSD := 0, flowDS := 0 })
      (fun l => rfl) (fun l => rfl)]
    simpa using hadj
  have hnd0 : nd ∈ (reset_flow net).nodes := hnd
  have hpSP : lpPairs (lpGraph (reset_flow net) (fun n l => l.dirCost n)) ≠ [] :=
    lpGraph_entry_ne_nil _ _ nd hnd0 hadj0
  have hpMF : lpPairs (lpGraph net
      (fun n l => if n = l.source then l.capacitySD else l.capacityDS)) ≠ [] :=
    lpGraph_entry_ne_nil _ _ nd hnd hadj
  constructor
  · unfold LP_SP_formulation
    simp only [hsolver, lpDecode_none _ hpSP]
    rfl
  · unfold LP_MF_formulation
    simp only [hsolver, lpDecode_none _ hpMF]
    rfl

/-- Witness for **C8**: the always-failing solver on the concrete diamond
network. -/
theorem lp_solver_failure_propagates_witness :
    ((failSolver ⟨[], [], [], [], []⟩).2 = none ∧
     ({ id := 1 } : RNode) ∈ wnet.nodes ∧ wnet.adj 1 ≠ []) ∧
    (exceptErr (LP_SP_formulation failSolver wnet 1 4 10)
      = some "TypeError: NoneType object is not subscriptable" ∧
     exceptErr (LP_MF_formulation failSolver wnet 1 4)
      = some "TypeError: NoneType object is not subscriptable") :=
  ⟨⟨rfl, by decide, by decide⟩,
   lp_solver_failure_propagates failSolver wnet 1 4 10 (fun _ => rfl)
     { id := 1 } (by decide) (by decide)⟩


theorem exceptBind_ok {α β : Type} (a : Except String α) (g : α → Except String β)
    (b : β) (h : a >>= g = .ok b) : ∃ x, a = .ok x ∧ g x = .ok b := by
  cases a with
  | error e => simp [Bind.bind, Except.bind] at h
  | ok x => exact ⟨x, rfl, by simpa [Bind.bind, Except.bind] using h⟩

theorem wcUpdate_mem (net : Net) (fname : String) (l : Link)
    (h : l ∈ (wcUpdate net fname).links) :
    l.trafficSD ≤ l.wctrafficSD ∧ l.trafficDS ≤ l.wctrafficDS := by
  unfold wcUpdate at h
  simp only [List.mem_map] at h
  obtain ⟨l0, -, rfl⟩ := h
  dsimp only
  split_ifs with h1 h2 h3 <;>
    simp_all [not_lt, le_refl]

theorem plink_foldlM_peak (fuel : Nat) (ids : List Nat) :
    ∀ (n n2 : Net),
    ids.foldlM (fun (n : Net) fid =>
      let n1 := routing_table_creation { n with failed := [fid] }
      (match path_finder n1 fuel with
      | .error e => .error e
      | .ok n2 =>
        .ok (wcUpdate n2 (((n2.link? fid).map (fun l => l.name)).getD ""))
        : Except String Net)) n = .ok n2 →
    (ids = [] ∧ n2 = n) ∨
      ∀ l ∈ n2.links, l.trafficSD ≤ l.wctrafficSD ∧ l.trafficDS ≤ l.wctrafficDS := by
  induction ids with
  | nil =>
    intro n n2 h
    simp only [List.foldlM_nil] at h
    cases h
    exact .inl ⟨rfl, rfl⟩
  | cons x rest ih =>
    intro n n2 h
    simp only [List.foldlM_cons] at h
    obtain ⟨m, hm, hrest⟩ := exceptBind_ok _ _ _ h
    have hmwc : ∃ k fname, m = wcUpdate k fname := by
      split at hm
      · exact absurd hm (by simp)
      · cases hm; exact ⟨_, _, rfl⟩
    obtain ⟨k, fname, rfl⟩ := hmwc
    rcases ih _ _ hrest with ⟨-, rfl⟩ | hP
    · exact .inr (fun l hl => wcUpdate_mem _ _ _ hl)
    · exact .inr hP

/-- **C9** (amended): when `plink_dimensioning` returns normally, the failure
set of the returned network is empty, and for every physical link and each
direction the recorded worst-case traffic bounds the traffic fields of the
returned network — i.e. the peak taken over the single-failure scenarios the
procedure actually simulates.  (The original claim, which compares the peak
against the no-failure baseline instead, is false: `plink_dimensioning`
never routes the baseline scenario — see the counterexample.) -/
theorem plink_dimensioning_peak_bound (net : Net) (fuel : Nat) (n' : Net)
    (h : plink_dimensioning net fuel = .ok n') :
    n'.failed = [] ∧ ∀ l ∈ n'.links,
      l.trafficSD ≤ l.wctrafficSD ∧ l.trafficDS ≤ l.wctrafficDS := by
  unfold plink_dimensioning at h
  simp only at h
  split at h
  · exact absurd h (by simp)
  · rename_i n heq
    cases h
    refine ⟨rfl, ?_⟩
    rcases plink_foldlM_peak fuel _ _ _ heq with ⟨hids, rfl⟩ | hP
    · intro l hl
      have hnil : net.links = [] :=
        List.map_eq_nil_iff.mp hids
      simp [hnil] at hl
    · exact hP

/-- Witness for the amended **C9** at the concrete dimensioning fixture. -/
theorem plink_dimensioning_peak_bound_witness :
    plink_dimensioning c9net 40 = .ok c9dim ∧
    (c9dim.failed = [] ∧ ∀ l ∈ c9dim.links,
      l.trafficSD ≤ l.wctrafficSD ∧ l.trafficDS ≤ l.wctrafficDS) :=
  ⟨by decide, plink_dimensioning_peak_bound c9net 40 c9dim (by decide)⟩

/-- Counterexample to **C9** as stated: on `c9net` the no-failure baseline
(`route`) puts 16 units on the transit link 203, but `plink_dimensioning`
records a worst-case of only 8 units there — every single-failure scenario
severs one demand, and the loop never simulates the no-failure baseline, so
the recorded peak falls below the baseline traffic. -/
theorem dimensioning_peak_below_baseline :
    (route c9net 40).toOption.bind (fun n => (n.link? 203).map Link.trafficSD)
      = some 16 ∧
    (plink_dimensioning c9net 40).toOption.bind
      (fun n => (n.link? 203).map Link.wctrafficSD) = some 8 := by
  constructor <;> decide

theorem stepL_symm {T : List Link} {x y : Nat} (h : stepL T x y) : stepL T y x := by
  obtain ⟨l, hl, h | h⟩ := h
  · exact ⟨l, hl, .inr ⟨h.2, h.1⟩⟩
  · exact ⟨l, hl, .inl ⟨h.2, h.1⟩⟩

theorem linkedL_symm {T : List Link} {x y : Nat} (h : linkedL T x y) :
    linkedL T y x :=
  (Relation.ReflTransGen.symmetric (fun _ _ h => stepL_symm h)) h

theorem linkedL_mono {T T' : List Link} (hsub : ∀ l ∈ T, l ∈ T')
    {x y : Nat} (h : linkedL T x y) : linkedL T' x y := by
  refine Relation.ReflTransGen.mono ?_ h
  rintro a b ⟨l, hl, hse⟩
  exact ⟨l, hsub l hl, hse⟩

theorem linkedL_congr {T T' : List Link} (hiff : ∀ l, l ∈ T ↔ l ∈ T')
    (x y : Nat) : linkedL T x y ↔ linkedL T' x y :=
  ⟨linkedL_mono (fun l hl => (hiff l).mp hl),
   linkedL_mono (fun l hl => (hiff l).mpr hl)⟩

theorem linkedL_of_mem {T : List Link} {l : Link} (hl : l ∈ T) :
    linkedL T l.source l.destination :=
  Relation.ReflTransGen.single ⟨l, hl, .inl ⟨rfl, rfl⟩⟩

theorem linkedL_trans {T : List Link} {x y z : Nat} (h1 : linkedL T x y)
    (h2 : linkedL T y z) : linkedL T x z :=
  Relation.ReflTransGen.trans h1 h2

theorem linkedL_nil {x y : Nat} (h : linkedL [] x y) : x = y := by
  induction h with
  | refl => rfl
  | tail _ hstep ih =>
    obtain ⟨l, hl, -⟩ := hstep
    exact absurd hl (List.not_mem_nil l)

theorem linkedL_subst {T T' : List Link}
    (h : ∀ l ∈ T, linkedL T' l.source l.destination)
    {x y : Nat} (hxy : linkedL T x y) : linkedL T' x y := by
  induction hxy with
  | refl => exact .refl
  | tail _ hstep ih =>
    obtain ⟨l, hl, hse | hse⟩ := hstep
    · exact linkedL_trans ih (hse.1 ▸ hse.2 ▸ h l hl)
    · exact linkedL_trans ih (hse.1 ▸ hse.2 ▸ linkedL_symm (h l hl))

/-- Removing one link from a connectivity chain: either the chain avoids it,
or it decomposes around the link in one of its two directions. -/
theorem linkedL_cons_cases {e : Link} {B : List Link} {x y : Nat}
    (h : linkedL (e :: B) x y) :
    linkedL B x y ∨
    (linkedL B x e.source ∧ linkedL B e.destination y) ∨
    (linkedL B x e.destination ∧ linkedL B e.source y) := by
  induction h with
  | refl => exact .inl .refl
  | tail _ hstep ih =>
    rename_i b c _
    have hs : stepL B b c ∨ ((b = e.source ∧ c = e.destination) ∨
        (b = e.destination ∧ c = e.source)) := by
      obtain ⟨l, hl, hse⟩ := hstep
      rcases List.mem_cons.mp hl with rfl | hl
      · exact .inr hse
      · exact .inl ⟨l, hl, hse⟩
    rcases hs with hs | ⟨rfl, rfl⟩ | ⟨rfl, rfl⟩
    · rcases ih with ih | ⟨ih1, ih2⟩ | ⟨ih1, ih2⟩
      · exact .inl (ih.tail hs)
      · exact .inr (.inl ⟨ih1, ih2.tail hs⟩)
      · exact .inr (.inr ⟨ih1, ih2.tail hs⟩)
    · rcases ih with ih | ⟨ih1, ih2⟩ | ⟨ih1, ih2⟩
      · exact .inr (.inl ⟨ih, .refl⟩)
      · exact .inr (.inl ⟨ih1, .refl⟩)
      · exact .inl (linkedL_trans ih1 .refl)
    · rcases ih with ih | ⟨ih1, ih2⟩ | ⟨ih1, ih2⟩
      · exact .inr (.inr ⟨ih, .refl⟩)
      · exact .inl ih1
      · exact .inr (.inr ⟨ih1, .refl⟩)

theorem forestL_nil : forestL [] := fun l hl => absurd hl (List.not_mem_nil l)

theorem forestL_nodup {S : List Link} (h : forestL S) : S.Nodup := by
  rw [List.nodup_iff_count_le_one]
  intro a
  by_contra hc
  push_neg at hc
  have ha : a ∈ S := by
    rw [← List.count_pos_iff]
    omega
  have hmem : a ∈ S.erase a := by
    rw [← List.count_pos_iff, List.count_erase_self]
    omega
  exact h a ha (linkedL_of_mem hmem)

theorem forestL_perm {S S' : List Link} (hp : S.Perm S') (h : forestL S) :
    forestL S' := by
  intro l hl
  have hiff := linkedL_congr (fun e => (hp.erase l).mem_iff) l.source l.destination
  exact fun hlink => h l (hp.symm.subset hl) (hiff.mpr hlink)

/-- Adding a link between two unconnected components keeps the list a
forest. -/
theorem forestL_cons {S : List Link} {e : Link} (h : forestL S)
    (hne : ¬ linkedL S e.source e.destination) : forestL (e :: S) := by
  have hes : e ∉ S := fun hmem => hne (linkedL_of_mem hmem)
  intro l hl
  rcases List.mem_cons.mp hl with rfl | hl
  · rw [List.erase_cons_head]
    exact hne
  · have hlne : l ≠ e := fun hle => hes (hle ▸ hl)
    rw [List.erase_cons_tail (by simp [Ne.symm hlne])]
    intro hlink
    rcases linkedL_cons_cases hlink with hc | ⟨hc1, hc2⟩ | ⟨hc1, hc2⟩
    · exact h l hl hc
    · have a1 : linkedL S e.source l.source :=
        linkedL_symm (linkedL_mono (fun x hx => List.mem_of_mem_erase hx) hc1)
      have a2 : linkedL S l.source l.destination := linkedL_of_mem hl
      have a3 : linkedL S l.destination e.destination :=
        linkedL_symm (linkedL_mono (fun x hx => List.mem_of_mem_erase hx) hc2)
      exact hne (linkedL_trans a1 (linkedL_trans a2 a3))
    · have b1 : linkedL S e.source l.destination :=
        linkedL_mono (fun x hx => List.mem_of_mem_erase hx) hc2
      have b2 : linkedL S l.destination l.source :=
        linkedL_symm (linkedL_of_mem hl)
      have b3 : linkedL S l.source e.destination :=
        linkedL_mono (fun x hx => List.mem_of_mem_erase hx) hc1
      exact hne (linkedL_trans b1 (linkedL_trans b2 b3))

theorem ufUnion_some_inv {U : Nat → Nat} {A : List Link} {e : Link}
    {u v : Nat} {U1 : Nat → Nat}
    (hINV : ∀ x y, U x = U y ↔ linkedL A x y)
    (huv : (u = e.source ∧ v = e.destination) ∨ (u = e.destination ∧ v = e.source))
    (hun : ufUnion U u v = some U1) :
    ∀ x y, U1 x = U1 y ↔ linkedL (e :: A) x y := by
  unfold ufUnion at hun
  split at hun
  · exact absurd hun (by simp)
  · rename_i hne
    have hU1 : ∀ x, U1 x = if U x = U v then U u else U x := by
      intro x
      have := congrFun (Option.some.inj hun) x
      exact this.symm
    have hstepe : stepL (e :: A) v u := by
      refine ⟨e, List.mem_cons_self e A, ?_⟩
      rcases huv with ⟨rfl, rfl⟩ | ⟨rfl, rfl⟩
      · exact .inr ⟨rfl, rfl⟩
      · exact .inl ⟨rfl, rfl⟩
    have hmonoA : ∀ x y, linkedL A x y → linkedL (e :: A) x y :=
      fun x y => linkedL_mono (fun l hl => List.mem_cons_of_mem e hl)
    intro x y
    constructor
    · intro h
      rw [hU1 x, hU1 y] at h
      by_cases hx : U x = U v <;> by_cases hy : U y = U v
      · exact linkedL_trans (hmonoA _ _ ((hINV x v).mp hx))
          (linkedL_symm (hmonoA _ _ ((hINV y v).mp hy)))
      · rw [if_pos hx, if_neg hy] at h
        refine linkedL_trans (hmonoA _ _ ((hINV x v).mp hx))
          (linkedL_trans (Relation.ReflTransGen.single hstepe) ?_)
        exact hmonoA _ _ ((hINV u y).mp h)
      · rw [if_neg hx, if_pos hy] at h
        refine linkedL_symm
          (linkedL_trans (hmonoA _ _ ((hINV y v).mp hy))
            (linkedL_trans (Relation.ReflTransGen.single hstepe) ?_))
        exact hmonoA _ _ ((hINV u x).mp h.symm)
      · rw [if_neg hx, if_neg hy] at h
        exact hmonoA _ _ ((hINV x y).mp h)
    · intro h
      induction h with
      | refl => rfl
      | tail _ hstep ih =>
        rename_i b c _
        have hbc : U1 b = U1 c := by
          obtain ⟨l, hl, hse⟩ := hstep
          rcases List.mem_cons.mp hl with rfl | hl
          · have huvU : U1 u = U1 v := by
              rw [hU1 u, hU1 v, if_neg hne, if_pos rfl]
            rcases huv with ⟨hu, hv⟩ | ⟨hu, hv⟩ <;>
              rcases hse with ⟨rfl, rfl⟩ | ⟨rfl, rfl⟩
            · rw [← hu, ← hv]; exact huvU
            · rw [← hu, ← hv]; exact huvU.symm
            · rw [← hu, ← hv]; exact huvU.symm
            · rw [← hu, ← hv]; exact huvU
          · have hUbc : U b = U c := by
              rcases hse with ⟨rfl, rfl⟩ | ⟨rfl, rfl⟩
              · exact (hINV _ _).mpr (linkedL_of_mem hl)
              · exact ((hINV _ _).mpr (linkedL_of_mem hl)).symm
            rw [hU1 b, hU1 c, hUbc]
        exact ih.trans hbc

theorem ufUnion_none_inv {U : Nat → Nat} {A : List Link} {e : Link}
    {u v : Nat}
    (hINV : ∀ x y, U x = U y ↔ linkedL A x y)
    (huv : (u = e.source ∧ v = e.destination) ∨ (u = e.destination ∧ v = e.source))
    (hun : ufUnion U u v = none) :
    ∀ x y, U x = U y ↔ linkedL (e :: A) x y := by
  unfold ufUnion at hun
  split at hun
  · rename_i heq
    intro x y
    constructor
    · intro h
      exact linkedL_mono (fun l hl => List.mem_cons_of_mem e hl) ((hINV x y).mp h)
    · intro h
      induction h with
      | refl => rfl
      | tail _ hstep ih =>
        rename_i b c _
        have hbc : U b = U c := by
          obtain ⟨l, hl, hse⟩ := hstep
          rcases List.mem_cons.mp hl with rfl | hl
          · rcases huv with ⟨hu, hv⟩ | ⟨hu, hv⟩ <;>
              rcases hse with ⟨rfl, rfl⟩ | ⟨rfl, rfl⟩
            · rw [← hu, ← hv]; exact heq
            · rw [← hu, ← hv]; exact heq.symm
            · rw [← hu, ← hv]; exact heq.symm
            · rw [← hu, ← hv]; exact heq
          · rcases hse with ⟨rfl, rfl⟩ | ⟨rfl, rfl⟩
            · exact (hINV _ _).mpr (linkedL_of_mem hl)
            · exact ((hINV _ _).mpr (linkedL_of_mem hl)).symm
        exact ih.trans hbc
  · exact absurd hun (by simp)

theorem ufLink_inv {U : Nat → Nat} {A : List Link} (e : Link)
    (hINV : ∀ x y, U x = U y ↔ linkedL A x y) :
    ∀ x y, (ufLink U e) x = (ufLink U e) y ↔ linkedL (e :: A) x y := by
  unfold ufLink
  rcases hun : ufUnion U e.source e.destination with - | U1
  · exact ufUnion_none_inv hINV (.inl ⟨rfl, rfl⟩) hun
  · exact ufUnion_some_inv hINV (.inl ⟨rfl, rfl⟩) hun

theorem ufRepr_spec_aux (F : List Link) :
    ∀ (U : Nat → Nat) (A : List Link),
    (∀ x y, U x = U y ↔ linkedL A x y) →
    ∀ x y, (F.foldl ufLink U) x = (F.foldl ufLink U) y ↔ linkedL (F ++ A) x y := by
  induction F with
  | nil =>
    intro U A h x y
    simpa using h x y
  | cons e F ih =>
    intro U A h x y
    rw [List.foldl_cons]
    have h1 := ih (ufLink U e) (e :: A) (ufLink_inv e h)
    rw [h1 x y]
    exact linkedL_congr (fun l => by simp [List.mem_append, List.mem_cons]; tauto) x y

theorem ufRepr_iff (T : List Link) (x y : Nat) :
    ufRepr T x = ufRepr T y ↔ linkedL T x y := by
  unfold ufRepr
  have hbase : ∀ a b : Nat, id a = id b ↔ linkedL [] a b := by
    intro a b
    constructor
    · intro h
      simp only [id] at h
      exact h ▸ Relation.ReflTransGen.refl
    · exact fun h => linkedL_nil h
  simpa using ufRepr_spec_aux T id [] hbase x y

theorem linkedB_iff (T : List Link) (x y : Nat) :
    linkedB T x y = true ↔ linkedL T x y := by
  unfold linkedB
  rw [decide_eq_true_iff]
  exact ufRepr_iff T x y

theorem spanB_sound {T : List Link} {allowed : List Nat}
    (h : spanB T allowed = true) :
    ∀ x ∈ allowed, ∀ y ∈ allowed, linkedL T x y := by
  unfold spanB at h
  rw [List.all_eq_true] at h
  intro x hx y hy
  have := h x hx
  rw [List.all_eq_true] at this
  exact (linkedB_iff T x y).mp (this y hy)

theorem forestB_sound {S : List Link} (h : forestB S = true) : forestL S := by
  unfold forestB at h
  rw [List.all_eq_true] at h
  intro l hl hlink
  have := h l hl
  rw [Bool.not_eq_true'] at this
  rw [(linkedB_iff _ _ _).symm, this] at hlink
  exact Bool.false_ne_true hlink

theorem image_collapse_card {V : Finset ℕ} {U U1 : Nat → Nat} {u v : Nat}
    (hu : u ∈ V) (hv : v ∈ V) (hne : U u ≠ U v)
    (hU1 : ∀ x, U1 x = if U x = U v then U u else U x) :
    (V.image U).card = (V.image U1).card + 1 := by
  have himg : V.image U1 = (V.image U).erase (U v) := by
    ext a
    constructor
    · intro ha
      rw [Finset.mem_image] at ha
      obtain ⟨x, hx, rfl⟩ := ha
      rw [hU1 x]
      by_cases hxv : U x = U v
      · rw [if_pos hxv]
        exact Finset.mem_erase.mpr ⟨hne, Finset.mem_image_of_mem U hu⟩
      · rw [if_neg hxv]
        exact Finset.mem_erase.mpr ⟨hxv, Finset.mem_image_of_mem U hx⟩
    · intro ha
      obtain ⟨hav, ha⟩ := Finset.mem_erase.mp ha
      rw [Finset.mem_image] at ha
      obtain ⟨x, hx, rfl⟩ := ha
      rw [Finset.mem_image]
      refine ⟨x, hx, ?_⟩
      rw [hU1 x, if_neg hav]
  rw [himg]
  exact (Finset.card_erase_add_one (Finset.mem_image_of_mem U hv)).symm

theorem uf_count_aux (F : List Link) :
    ∀ (U : Nat → Nat) (A : List Link) (V : Finset ℕ),
    (∀ x y, U x = U y ↔ linkedL A x y) →
    forestL (A ++ F) →
    (∀ l ∈ F, l.source ∈ V ∧ l.destination ∈ V) →
    (V.image U).card = (V.image (F.foldl ufLink U)).card + F.length := by
  induction F with
  | nil =>
    intro U A V _ _ _
    simp
  | cons e F ih =>
    intro U A V hINV hforest hV
    have hnodup := forestL_nodup hforest
    have heA : e ∉ A := by
      intro heA
      exact (List.nodup_append.mp hnodup).2.2 heA (List.mem_cons_self e F)
    have herase : (A ++ e :: F).erase e = A ++ F := by
      rw [List.erase_append_right _ heA, List.erase_cons_head]
    have hne : ¬ linkedL A e.source e.destination := by
      have hfe := hforest e (by simp)
      rw [herase] at hfe
      exact fun hl => hfe (linkedL_mono (fun l hl' => List.mem_append_left F hl') hl)
    have hUne : U e.source ≠ U e.destination := fun h => hne ((hINV _ _).mp h)
    have hufl : ufLink U e = fun x => if U x = U e.destination then U e.source else U x := by
      unfold ufLink ufUnion
      rw [if_neg hUne]
    have hdrop : (V.image U).card = (V.image (ufLink U e)).card + 1 :=
      image_collapse_card (hV e (List.mem_cons_self e F)).1
        (hV e (List.mem_cons_self e F)).2 hUne (fun x => by rw [hufl])
    have hforest2 : forestL ((e :: A) ++ F) := by
      refine forestL_perm ?_ hforest
      exact List.perm_middle
    have hIH := ih (ufLink U e) (e :: A) V (ufLink_inv e hINV) hforest2
      (fun l hl => hV l (List.mem_cons_of_mem e hl))
    rw [List.foldl_cons]
    rw [hdrop, hIH]
    simp only [List.length_cons]
    omega

theorem forest_card {F : List Link} {V : Finset ℕ} (hf : forestL F)
    (hV : ∀ l ∈ F, l.source ∈ V ∧ l.destination ∈ V) :
    V.card = (V.image (ufRepr F)).card + F.length := by
  have hbase : ∀ a b : Nat, id a = id b ↔ linkedL [] a b := by
    intro a b
    constructor
    · intro h
      simp only [id] at h
      exact h ▸ Relation.ReflTransGen.refl
    · exact fun h => linkedL_nil h
  have := uf_count_aux F id [] V hbase (by simpa using hf) hV
  simpa [Finset.image_id] using this

theorem card_image_le_of_refine {V : Finset ℕ} {U1 U2 : Nat → Nat}
    (h : ∀ x ∈ V, ∀ y ∈ V, U2 x = U2 y → U1 x = U1 y) :
    (V.image U1).card ≤ (V.image U2).card := by
  classical
  set g : Nat → Nat :=
    fun t => if h2 : ∃ x, x ∈ V ∧ U2 x = t then U1 (Classical.choose h2) else t
    with hg
  have hsub : V.image U1 ⊆ (V.image U2).image g := by
    intro a ha
    rw [Finset.mem_image] at ha
    obtain ⟨x, hx, rfl⟩ := ha
    rw [Finset.mem_image]
    refine ⟨U2 x, Finset.mem_image_of_mem _ hx, ?_⟩
    have hex : ∃ z, z ∈ V ∧ U2 z = U2 x := ⟨x, hx, rfl⟩
    rw [hg]
    simp only [dif_pos hex]
    obtain ⟨hzV, hz2⟩ := Classical.choose_spec hex
    exact h _ hzV _ hx hz2
  calc (V.image U1).card ≤ ((V.image U2).image g).card :=
        Finset.card_le_card hsub
    _ ≤ (V.image U2).card := Finset.card_image_le

theorem forest_card_le {F1 F2 : List Link} {V : Finset ℕ}
    (h1 : forestL F1) (h2 : forestL F2)
    (hV1 : ∀ l ∈ F1, l.source ∈ V ∧ l.destination ∈ V)
    (hV2 : ∀ l ∈ F2, l.source ∈ V ∧ l.destination ∈ V)
    (hlink : ∀ l ∈ F2, linkedL F1 l.source l.destination) :
    F2.length ≤ F1.length := by
  have c1 := forest_card h1 hV1
  have c2 := forest_card h2 hV2
  have hcard := @card_image_le_of_refine V (ufRepr F1) (ufRepr F2)
    (fun x _ y _ hxy =>
      (ufRepr_iff F1 x y).mpr (linkedL_subst hlink ((ufRepr_iff F2 x y).mp hxy)))
  omega

theorem span_card_one {F : List Link} {V : Finset ℕ} (hne : V.Nonempty)
    (hspan : ∀ x ∈ V, ∀ y ∈ V, linkedL F x y) :
    (V.image (ufRepr F)).card = 1 := by
  obtain ⟨x0, hx0⟩ := hne
  refine Finset.card_eq_one.mpr ⟨ufRepr F x0, ?_⟩
  ext a
  rw [Finset.mem_image, Finset.mem_singleton]
  constructor
  · rintro ⟨x, hx, rfl⟩
    exact (ufRepr_iff F x x0).mpr (hspan x hx x0 hx0)
  · rintro rfl
    exact ⟨x0, hx0, rfl⟩

theorem adj_mem_cases {net : Net} {n : Nat} {p : Nat × Link}
    (hp : p ∈ net.adj n) :
    p.2 ∈ net.links ∧ ((p.2.source = n ∧ p.1 = p.2.destination) ∨
      (p.2.destination = n ∧ p.1 = p.2.source)) := by
  unfold Net.adj at hp
  rw [List.mem_filterMap] at hp
  obtain ⟨l, hl, hfl⟩ := hp
  by_cases h1 : l.source = n
  · rw [if_pos h1] at hfl
    cases hfl
    exact ⟨hl, .inl ⟨h1, rfl⟩⟩
  · rw [if_neg h1] at hfl
    by_cases h2 : l.destination = n
    · rw [if_pos h2] at hfl
      cases hfl
      exact ⟨hl, .inr ⟨h2, rfl⟩⟩
    · rw [if_neg h2] at hfl
      exact absurd hfl (by simp)

theorem adj_mem_of_source {net : Net} {l : Link} (hl : l ∈ net.links) :
    (l.destination, l) ∈ net.adj l.source := by
  unfold Net.adj
  rw [List.mem_filterMap]
  exact ⟨l, hl, by rw [if_pos rfl]⟩

theorem kruskalEdges_inner_mem (net : Net) (allowed : List Nat) (node : Nat)
    (L : List (Nat × Link)) :
    ∀ (acc : List (Cost × Link × Nat × Nat)) (q : Cost × Link × Nat × Nat),
    q ∈ L.foldl (fun acc (p : Nat × Link) =>
        if p.1 ∈ allowed then acc ++ [(p.2.costSD, p.2, node, p.1)] else acc) acc ↔
      q ∈ acc ∨ ∃ p ∈ L, p.1 ∈ allowed ∧ q = (p.2.costSD, p.2, node, p.1) := by
  induction L with
  | nil =>
    intro acc q
    simp
  | cons p L ih =>
    intro acc q
    rw [List.foldl_cons]
    by_cases hp : p.1 ∈ allowed
    · rw [if_pos hp, ih]
      simp only [List.mem_append, List.mem_cons, List.not_mem_nil, or_false]
      constructor
      · rintro ((hq | hq) | ⟨p2, hp2, hq⟩)
        · exact .inl hq
        · exact .inr ⟨p, .inl rfl, hp, hq⟩
        · exact .inr ⟨p2, .inr hp2, hq⟩
      · rintro (hq | ⟨p2, (rfl | hp2), hq⟩)
        · exact .inl (.inl hq)
        · exact .inl (.inr hq.2)
        · exact .inr ⟨p2, hp2, hq⟩
    · rw [if_neg hp, ih]
      simp only [List.mem_cons]
      constructor
      · rintro (hq | ⟨p2, hp2, hq⟩)
        · exact .inl hq
        · exact .inr ⟨p2, .inr hp2, hq⟩
      · rintro (hq | ⟨p2, (rfl | hp2), hq⟩)
        · exact .inl hq
        · exact absurd hq.1 hp
        · exact .inr ⟨p2, hp2, hq⟩

theorem kruskalEdges_mem_aux (net : Net) (allowed : List Nat) :
    ∀ (nodes0 : List Nat) (acc : List (Cost × Link × Nat × Nat))
      (q : Cost × Link × Nat × Nat),
    q ∈ nodes0.foldl (fun acc node =>
        (net.adj node).foldl (fun acc (p : Nat × Link) =>
          if p.1 ∈ allowed then acc ++ [(p.2.costSD, p.2, node, p.1)] else acc)
          acc) acc ↔
      q ∈ acc ∨ ∃ node ∈ nodes0, ∃ p ∈ net.adj node, p.1 ∈ allowed ∧
        q = (p.2.costSD, p.2, node, p.1) := by
  intro nodes0
  induction nodes0 with
  | nil =>
    intro acc q
    simp
  | cons node nodes0 ih =>
    intro acc q
    rw [List.foldl_cons, ih, kruskalEdges_inner_mem net allowed node (net.adj node)]
    simp only [List.mem_cons]
    constructor
    · rintro ((hq | ⟨p, hp, hpa, hq⟩) | ⟨n2, hn2, hq⟩)
      · exact .inl hq
      · exact .inr ⟨node, .inl rfl, p, hp, hpa, hq⟩
      · exact .inr ⟨n2, .inr hn2, hq⟩
    · rintro (hq | ⟨n2, (rfl | hn2), hq⟩)
      · exact .inl (.inl hq)
      · exact .inl (.inr hq)
      · exact .inr ⟨n2, hn2, hq⟩

theorem kruskalEdges_mem {net : Net} {allowed : List Nat}
    {q : Cost × Link × Nat × Nat} :
    q ∈ kruskalEdges net allowed ↔
      ∃ node ∈ allowed, ∃ p ∈ net.adj node, p.1 ∈ allowed ∧
        q = (p.2.costSD, p.2, node, p.1) := by
  unfold kruskalEdges
  rw [kruskalEdges_mem_aux]
  simp

theorem kruskalEdges_spec {net : Net} {allowed : List Nat}
    {q : Cost × Link × Nat × Nat} (hq : q ∈ kruskalEdges net allowed) :
    q.1 = q.2.1.costSD ∧ q.2.1 ∈ net.links ∧
    q.2.2.1 ∈ allowed ∧ q.2.2.2 ∈ allowed ∧
    ((q.2.2.1 = q.2.1.source ∧ q.2.2.2 = q.2.1.destination) ∨
     (q.2.2.1 = q.2.1.destination ∧ q.2.2.2 = q.2.1.source)) := by
  obtain ⟨node, hnode, p, hp, hpa, rfl⟩ := kruskalEdges_mem.mp hq
  obtain ⟨hl, hc⟩ := adj_mem_cases hp
  refine ⟨rfl, hl, hnode, hpa, ?_⟩
  rcases hc with ⟨h1, h2⟩ | ⟨h1, h2⟩
  · exact .inl ⟨h1.symm, h2⟩
  · exact .inr ⟨h1.symm, h2⟩

theorem kruskalEdges_complete {net : Net} {allowed : List Nat} {l : Link}
    (hl : l ∈ net.links) (hs : l.source ∈ allowed) (hd : l.destination ∈ allowed) :
    (l.costSD, l, l.source, l.destination) ∈ kruskalEdges net allowed := by
  rw [kruskalEdges_mem]
  exact ⟨l.source, hs, (l.destination, l), adj_mem_of_source hl, hd, rfl⟩

theorem kruskalGreedy_master (E : List (Cost × Link × Nat × Nat)) :
    ∀ (U : Nat → Nat) (A : List Link),
    (∀ x y, U x = U y ↔ linkedL A x y) →
    forestL A →
    (∀ q ∈ E, q.1 = q.2.1.costSD ∧
      ((q.2.2.1 = q.2.1.source ∧ q.2.2.2 = q.2.1.destination) ∨
       (q.2.2.1 = q.2.1.destination ∧ q.2.2.2 = q.2.1.source))) →
    List.Sorted (fun a b => a.1 ≤ b.1) E →
    (∀ l ∈ A, ∀ q ∈ E, l.costSD ≤ q.1) →
    forestL (kruskalGreedy E U ++ A) ∧
    (∀ q ∈ E, linkedL ((kruskalGreedy E U ++ A).filter
        (fun l => decide (l.costSD ≤ q.1))) q.2.2.1 q.2.2.2) ∧
    (∀ l ∈ kruskalGreedy E U, ∃ q ∈ E, l = q.2.1) := by
  induction E with
  | nil =>
    intro U A hINV hforest hsane hsorted hAcost
    refine ⟨by simpa [kruskalGreedy] using hforest, ?_, ?_⟩
    · intro q hq
      exact absurd hq (List.not_mem_nil q)
    · intro l hl
      simp [kruskalGreedy] at hl
  | cons q0 E ih =>
    intro U A hINV hforest hsane hsorted hAcost
    obtain ⟨c, l, u, v⟩ := q0
    obtain ⟨hc, huv⟩ := hsane (c, l, u, v) (List.mem_cons_self _ _)
    simp only at hc huv
    rw [List.sorted_cons] at hsorted
    obtain ⟨hhead, htail⟩ := hsorted
    cases hun : ufUnion U u v with
    | some U1 =>
      have hgr : kruskalGreedy ((c, l, u, v) :: E) U = l :: kruskalGreedy E U1 := by
        simp only [kruskalGreedy, hun]
      have hne : ¬ linkedL A l.source l.destination := by
        intro hlink
        have hUuv : U u = U v := by
          rcases huv with ⟨rfl, rfl⟩ | ⟨rfl, rfl⟩
          · exact (hINV _ _).mpr hlink
          · exact (hINV _ _).mpr (linkedL_symm hlink)
        unfold ufUnion at hun
        rw [if_pos hUuv] at hun
        exact absurd hun (by simp)
      have hINV1 := ufUnion_some_inv hINV huv hun
      have hforest1 := forestL_cons hforest hne
      have hAcost1 : ∀ l2 ∈ l :: A, ∀ q ∈ E, l2.costSD ≤ q.1 := by
        intro l2 hl2 q hq
        rcases List.mem_cons.mp hl2 with rfl | hl2
        · rw [← hc]
          exact hhead q hq
        · exact hAcost l2 hl2 q (List.mem_cons_of_mem _ hq)
      obtain ⟨IH1, IH2, IH3⟩ := ih U1 (l :: A) hINV1 hforest1
        (fun q hq => hsane q (List.mem_cons_of_mem _ hq)) htail hAcost1
      rw [hgr]
      refine ⟨?_, ?_, ?_⟩
      · exact forestL_perm List.perm_middle IH1
      · intro q hq
        rcases List.mem_cons.mp hq with rfl | hq
        · have hlf : l ∈ ((l :: kruskalGreedy E U1 ++ A).filter
              (fun l2 => decide (l2.costSD ≤ (c, l, u, v).1))) := by
            rw [List.mem_filter]
            refine ⟨List.mem_cons_self _ _, ?_⟩
            simp [hc]
          rcases huv with ⟨hu, hv⟩ | ⟨hu, hv⟩
          · simp only [hu, hv]
            exact linkedL_of_mem hlf
          · simp only [hu, hv]
            exact linkedL_symm (linkedL_of_mem hlf)
        · have hp : (kruskalGreedy E U1 ++ (l :: A)).Perm
              (l :: kruskalGreedy E U1 ++ A) := List.perm_middle
          refine linkedL_mono ?_ (IH2 q hq)
          intro l2 hl2
          rw [List.mem_filter] at hl2 ⊢
          exact ⟨hp.subset hl2.1, hl2.2⟩
      · intro l2 hl2
        rcases List.mem_cons.mp hl2 with rfl | hl2
        · exact ⟨(c, l2, u, v), List.mem_cons_self _ _, rfl⟩
        · obtain ⟨q, hq, hlq⟩ := IH3 l2 hl2
          exact ⟨q, List.mem_cons_of_mem _ hq, hlq⟩
    | none =>
      have hgr : kruskalGreedy ((c, l, u, v) :: E) U = kruskalGreedy E U := by
        simp only [kruskalGreedy, hun]
      have hUuv : U u = U v := by
        unfold ufUnion at hun
        by_cases h : U u = U v
        · exact h
        · rw [if_neg h] at hun
          exact absurd hun (by simp)
      obtain ⟨IH1, IH2, IH3⟩ := ih U A hINV hforest
        (fun q hq => hsane q (List.mem_cons_of_mem _ hq)) htail
        (fun l2 hl2 q hq => hAcost l2 hl2 q (List.mem_cons_of_mem _ hq))
      rw [hgr]
      refine ⟨IH1, ?_, ?_⟩
      · intro q hq
        rcases List.mem_cons.mp hq with rfl | hq
        · have hlA : linkedL A u v := (hINV u v).mp hUuv
          refine linkedL_mono ?_ hlA
          intro l2 hl2
          rw [List.mem_filter]
          refine ⟨List.mem_append_right _ hl2, ?_⟩
          simp only [decide_eq_true_iff]
          exact hAcost l2 hl2 (c, l, u, v) (List.mem_cons_self _ _)
        · exact IH2 q hq
      · intro l2 hl2
        obtain ⟨q, hq, hlq⟩ := IH3 l2 hl2
        exact ⟨q, List.mem_cons_of_mem _ hq, hlq⟩

theorem uf_id_inv : ∀ a b : Nat, id a = id b ↔ linkedL [] a b := by
  intro a b
  constructor
  · intro h
    simp only [id] at h
    exact h ▸ Relation.ReflTransGen.refl
  · exact fun h => linkedL_nil h

theorem forestL_sublist {L S : List Link} (hsub : L.Sublist S)
    (hS : forestL S) : forestL L := by
  have hnodup : L.Nodup := (forestL_nodup hS).sublist hsub
  intro l hl hlink
  refine hS l (hsub.mem hl) (linkedL_mono ?_ hlink)
  intro x hx
  obtain ⟨hxl, hxL⟩ := (List.Nodup.mem_erase_iff hnodup).mp hx
  exact (List.mem_erase_of_ne hxl).mpr (hsub.mem hxL)

theorem sorted_sum_le_of_counts :
    ∀ (t s : List Cost), List.Sorted (· ≤ ·) t → List.Sorted (· ≤ ·) s →
    t.length = s.length →
    (∀ c, (s.filter (fun x => decide (x ≤ c))).length ≤
      (t.filter (fun x => decide (x ≤ c))).length) →
    t.sum ≤ s.sum := by
  intro t
  induction t with
  | nil =>
    intro s _ _ hlen _
    rw [List.length_nil] at hlen
    rw [(List.length_eq_zero.mp hlen.symm)]
  | cons a t ih =>
    intro s hts hss hlen hcount
    cases s with
    | nil => simp at hlen
    | cons b s =>
      rw [List.sorted_cons] at hts hss
      obtain ⟨hta, hts⟩ := hts
      obtain ⟨hsb, hss⟩ := hss
      have hab : a ≤ b := by
        have hpos : 0 < ((a :: t).filter (fun x => decide (x ≤ b))).length := by
          refine lt_of_lt_of_le ?_ (hcount b)
          rw [List.filter_cons, if_pos (by simp)]
          simp
        obtain ⟨x, hx⟩ := List.exists_mem_of_ne_nil _
          (List.length_pos.mp hpos)
        rw [List.mem_filter] at hx
        obtain ⟨hx1, hx2⟩ := hx
        rw [decide_eq_true_iff] at hx2
        rcases List.mem_cons.mp hx1 with rfl | hx1
        · exact hx2
        · exact le_trans (hta x hx1) hx2
      have hcount2 : ∀ c, (s.filter (fun x => decide (x ≤ c))).length ≤
          (t.filter (fun x => decide (x ≤ c))).length := by
        intro c
        by_cases hbc : b ≤ c
        · have hac : a ≤ c := le_trans hab hbc
          have := hcount c
          rw [List.filter_cons, List.filter_cons,
            if_pos (by simpa), if_pos (by simpa)] at this
          simpa using this
        · have hnil : s.filter (fun x => decide (x ≤ c)) = [] := by
            rw [List.filter_eq_nil_iff]
            intro x hx
            simp only [decide_eq_true_iff]
            exact fun hxc => hbc (le_trans (hsb x hx) hxc)
          simp [hnil]
      rw [List.sum_cons, List.sum_cons]
      exact add_le_add hab (ih s hts hss (by simpa using hlen) hcount2)

/-- **C6**: over a node subset whose induced physical-link subgraph is
connected, `kruskal` returns an acyclic link set (every returned link is a
bridge among the returned links), considers exactly the links with both
endpoints in the subset (every returned link lies in the network with both
endpoints in the subset), spans the subset, and its total forward (`SD`)
cost is less than or equal to the total forward cost of every other
spanning tree over that subset (any acyclic, spanning list of links of the
induced subgraph). -/
theorem kruskal_minimum_spanning_tree (net : Net) (allowed : List Nat)
    (hconn : ∀ x ∈ allowed, ∀ y ∈ allowed, linkedL (inducedLinks net allowed) x y)
    (S : List Link)
    (hSsub : ∀ l ∈ S, l ∈ net.links ∧ l.source ∈ allowed ∧ l.destination ∈ allowed)
    (hSforest : forestL S)
    (hSspan : ∀ x ∈ allowed, ∀ y ∈ allowed, linkedL S x y) :
    forestL (kruskal net allowed) ∧
    (∀ l ∈ kruskal net allowed,
      l ∈ net.links ∧ l.source ∈ allowed ∧ l.destination ∈ allowed) ∧
    (∀ x ∈ allowed, ∀ y ∈ allowed, linkedL (kruskal net allowed) x y) ∧
    ((kruskal net allowed).map Link.costSD).sum ≤ (S.map Link.costSD).sum := by
  unfold kruskal
  set E := List.insertionSort (fun a b => a.1 ≤ b.1) (kruskalEdges net allowed)
    with hE
  have hEperm : E.Perm (kruskalEdges net allowed) := List.perm_insertionSort _ _
  have hEsorted : List.Sorted (fun a b => a.1 ≤ b.1) E :=
    List.sorted_insertionSort _ _
  obtain ⟨G1, G2, G3⟩ := kruskalGreedy_master E id [] uf_id_inv forestL_nil
    (fun q hq => ⟨(kruskalEdges_spec (hEperm.subset hq)).1,
      (kruskalEdges_spec (hEperm.subset hq)).2.2.2.2⟩)
    hEsorted (fun l hl => absurd hl (List.not_mem_nil l))
  rw [List.append_nil] at G1
  simp only [List.append_nil] at G2
  set T := kruskalGreedy E id with hT
  have hTmem : ∀ l ∈ T, l ∈ net.links ∧ l.source ∈ allowed ∧
      l.destination ∈ allowed := by
    intro l hl
    obtain ⟨q, hq, rfl⟩ := G3 l hl
    obtain ⟨-, hql, hu, hv, hc⟩ := kruskalEdges_spec (hEperm.subset hq)
    rcases hc with ⟨h1, h2⟩ | ⟨h1, h2⟩
    · exact ⟨hql, h1 ▸ hu, h2 ▸ hv⟩
    · exact ⟨hql, h2 ▸ hv, h1 ▸ hu⟩
  have hTlink : ∀ l ∈ net.links, l.source ∈ allowed → l.destination ∈ allowed →
      ∀ c : Cost, l.costSD ≤ c →
      linkedL (T.filter (fun x => decide (x.costSD ≤ c)))
        l.source l.destination := by
    intro l hl hs hd c hcle
    have hqE : (l.costSD, l, l.source, l.destination) ∈ E :=
      hEperm.mem_iff.mpr (kruskalEdges_complete hl hs hd)
    refine linkedL_mono ?_ (G2 _ hqE)
    intro x hx
    rw [List.mem_filter] at hx ⊢
    refine ⟨hx.1, ?_⟩
    rw [decide_eq_true_iff] at hx ⊢
    exact le_trans hx.2 hcle
  have hTspan : ∀ x ∈ allowed, ∀ y ∈ allowed, linkedL T x y := by
    intro x hx y hy
    refine linkedL_subst ?_ (hconn x hx y hy)
    intro l hl
    unfold inducedLinks at hl
    rw [List.mem_filter] at hl
    obtain ⟨hl1, hl2⟩ := hl
    rw [decide_eq_true_iff] at hl2
    exact linkedL_mono (fun x hx => (List.mem_filter.mp hx).1)
      (hTlink l hl1 hl2.1 hl2.2 l.costSD le_rfl)
  set V := allowed.toFinset with hV
  have hTV : ∀ l ∈ T, l.source ∈ V ∧ l.destination ∈ V := fun l hl =>
    ⟨List.mem_toFinset.mpr (hTmem l hl).2.1,
     List.mem_toFinset.mpr (hTmem l hl).2.2⟩
  have hSV : ∀ l ∈ S, l.source ∈ V ∧ l.destination ∈ V := fun l hl =>
    ⟨List.mem_toFinset.mpr (hSsub l hl).2.1,
     List.mem_toFinset.mpr (hSsub l hl).2.2⟩
  have hlen : T.length = S.length := by
    have cT := forest_card G1 hTV
    have cS := forest_card hSforest hSV
    rcases Finset.eq_empty_or_nonempty V with hVe | hVne
    · have hTnil : T = [] := List.eq_nil_iff_forall_not_mem.mpr (fun l hl => by
        have := (hTV l hl).1
        rw [hVe] at this
        exact absurd this (Finset.not_mem_empty _))
      have hSnil : S = [] := List.eq_nil_iff_forall_not_mem.mpr (fun l hl => by
        have := (hSV l hl).1
        rw [hVe] at this
        exact absurd this (Finset.not_mem_empty _))
      rw [hTnil, hSnil]
    · have h1 := span_card_one hVne (fun x hx y hy =>
        hTspan x (List.mem_toFinset.mp hx) y (List.mem_toFinset.mp hy))
      have h2 := span_card_one hVne (fun x hx y hy =>
        hSspan x (List.mem_toFinset.mp hx) y (List.mem_toFinset.mp hy))
      omega
  have hcounts : ∀ c : Cost,
      (S.filter (fun l => decide (l.costSD ≤ c))).length ≤
      (T.filter (fun l => decide (l.costSD ≤ c))).length := by
    intro c
    refine @forest_card_le _ _ V
      (forestL_sublist (List.filter_sublist _) G1)
      (forestL_sublist (List.filter_sublist _) hSforest)
      (fun l hl => hTV l (List.mem_of_mem_filter hl))
      (fun l hl => hSV l (List.mem_of_mem_filter hl)) ?_
    intro l hl
    rw [List.mem_filter] at hl
    obtain ⟨hlS, hlc⟩ := hl
    rw [decide_eq_true_iff] at hlc
    obtain ⟨hln, hls, hld⟩ := hSsub l hlS
    exact hTlink l hln hls hld c hlc
  refine ⟨G1, hTmem, hTspan, ?_⟩
  set tl := List.insertionSort (fun a b : Link => a.costSD ≤ b.costSD) T with htl
  set sl := List.insertionSort (fun a b : Link => a.costSD ≤ b.costSD) S with hsl
  have htperm : tl.Perm T := List.perm_insertionSort _ _
  have hsperm : sl.Perm S := List.perm_insertionSort _ _
  have htsorted : List.Sorted (· ≤ ·) (tl.map Link.costSD) :=
    List.Pairwise.map Link.costSD (fun a b h => h)
      (List.sorted_insertionSort _ T)
  have hssorted : List.Sorted (· ≤ ·) (sl.map Link.costSD) :=
    List.Pairwise.map Link.costSD (fun a b h => h)
      (List.sorted_insertionSort _ S)
  have hmain := sorted_sum_le_of_counts (tl.map Link.costSD) (sl.map Link.costSD)
    htsorted hssorted
    (by
      rw [List.length_map, List.length_map, htperm.length_eq,
        hsperm.length_eq, hlen])
    (by
      intro c
      rw [List.filter_map, List.filter_map, List.length_map, List.length_map]
      have h1 : (sl.filter (fun l => decide (l.costSD ≤ c))).length =
          (S.filter (fun l => decide (l.costSD ≤ c))).length :=
        (hsperm.filter _).length_eq
      have h2 : (tl.filter (fun l => decide (l.costSD ≤ c))).length =
          (T.filter (fun l => decide (l.costSD ≤ c))).length :=
        (htperm.filter _).length_eq
      calc ((sl.filter (fun l => decide (Link.costSD l ≤ c))).length)
          = (S.filter (fun l => decide (l.costSD ≤ c))).length := h1
        _ ≤ (T.filter (fun l => decide (l.costSD ≤ c))).length := hcounts c
        _ = (tl.filter (fun l => decide (Link.costSD l ≤ c))).length := h2.symm)
  calc (T.map Link.costSD).sum = (tl.map Link.costSD).sum :=
        ((htperm.map Link.costSD).sum_eq).symm
    _ ≤ (sl.map Link.costSD).sum := hmain
    _ = (S.map Link.costSD).sum := (hsperm.map Link.costSD).sum_eq

/-- Witness for **C6** on the concrete triangle: the competitor keeps the
cost-3 link, Kruskal the cost-1 and cost-2 links. -/
theorem kruskal_minimum_spanning_tree_witness :
    ((∀ x ∈ [1, 2, 3], ∀ y ∈ [1, 2, 3],
        linkedL (inducedLinks c6net [1, 2, 3]) x y) ∧
     (∀ l ∈ c6S, l ∈ c6net.links ∧ l.source ∈ [1, 2, 3] ∧
        l.destination ∈ [1, 2, 3]) ∧
     forestL c6S ∧
     (∀ x ∈ [1, 2, 3], ∀ y ∈ [1, 2, 3], linkedL c6S x y)) ∧
    (forestL (kruskal c6net [1, 2, 3]) ∧
     (∀ l ∈ kruskal c6net [1, 2, 3],
        l ∈ c6net.links ∧ l.source ∈ [1, 2, 3] ∧ l.destination ∈ [1, 2, 3]) ∧
     (∀ x ∈ [1, 2, 3], ∀ y ∈ [1, 2, 3], linkedL (kruskal c6net [1, 2, 3]) x y) ∧
     ((kruskal c6net [1, 2, 3]).map Link.costSD).sum ≤
        (c6S.map Link.costSD).sum) :=
  ⟨⟨spanB_sound (by decide), by decide, forestB_sound (by decide),
    spanB_sound (by decide)⟩,
   kruskal_minimum_spanning_tree c6net [1, 2, 3]
     (spanB_sound (by decide)) c6S (by decide) (forestB_sound (by decide))
     (spanB_sound (by decide))⟩

theorem WalkVia_isWalk {net : Net} {S : List Nat} :
    ∀ {w : List Link} {x y : Nat}, WalkVia net S x w y → IsWalk net x w y := by
  intro w
  induction w with
  | nil => intro x y h; exact h
  | cons l ls ih =>
    intro x y h
    obtain ⟨hl, -, hd⟩ := h
    rcases hd with ⟨hx, hw⟩ | ⟨hx, hw⟩
    · exact ⟨hl, .inl ⟨hx, ih hw⟩⟩
    · exact ⟨hl, .inr ⟨hx, ih hw⟩⟩

theorem WalkVia_mono {net : Net} {S S2 : List Nat} (hsub : ∀ a ∈ S, a ∈ S2) :
    ∀ {w : List Link} {x y : Nat}, WalkVia net S x w y → WalkVia net S2 x w y := by
  intro w
  induction w with
  | nil => intro x y h; exact h
  | cons l ls ih =>
    intro x y h
    obtain ⟨hl, hxS, hd⟩ := h
    rcases hd with ⟨hx, hw⟩ | ⟨hx, hw⟩
    · exact ⟨hl, hsub x hxS, .inl ⟨hx, ih hw⟩⟩
    · exact ⟨hl, hsub x hxS, .inr ⟨hx, ih hw⟩⟩

theorem WalkVia_links {net : Net} {S : List Nat} :
    ∀ {w : List Link} {x y : Nat}, WalkVia net S x w y → ∀ l ∈ w, l ∈ net.links := by
  intro w
  induction w with
  | nil => intro x y _ l hl; exact absurd hl (List.not_mem_nil l)
  | cons l0 ls ih =>
    intro x y h l hl
    obtain ⟨hl0, -, hd⟩ := h
    rcases List.mem_cons.mp hl with rfl | hl
    · exact hl0
    · rcases hd with ⟨-, hw⟩ | ⟨-, hw⟩ <;> exact ih hw l hl

theorem IsWalk_links {net : Net} :
    ∀ {w : List Link} {x y : Nat}, IsWalk net x w y → ∀ l ∈ w, l ∈ net.links := by
  intro w
  induction w with
  | nil => intro x y _ l hl; exact absurd hl (List.not_mem_nil l)
  | cons l0 ls ih =>
    intro x y h l hl
    obtain ⟨hl0, hd⟩ := h
    rcases List.mem_cons.mp hl with rfl | hl
    · exact hl0
    · rcases hd with ⟨-, hw⟩ | ⟨-, hw⟩ <;> exact ih hw l hl

theorem wcost_append (w1 w2 : List Link) :
    wcost (w1 ++ w2) = wcost w1 + wcost w2 := by
  unfold wcost
  rw [List.map_append, List.sum_append]

theorem wcost_nonneg {net : Net} (hnonneg : ∀ l ∈ net.links, 0 ≤ l.costSD)
    {w : List Link} (hw : ∀ l ∈ w, l ∈ net.links) : 0 ≤ wcost w := by
  unfold wcost
  induction w with
  | nil => simp
  | cons l ls ih =>
    rw [List.map_cons, List.sum_cons]
    have h1 : 0 ≤ l.costSD := hnonneg l (hw l (List.mem_cons_self l ls))
    have h2 : 0 ≤ (ls.map Link.costSD).sum :=
      ih (fun l2 hl2 => hw l2 (List.mem_cons_of_mem l hl2))
    exact add_nonneg h1 h2

theorem WalkVia_append {net : Net} {S : List Nat} :
    ∀ {w1 : List Link} {x y : Nat}, WalkVia net S x w1 y →
    ∀ {w2 : List Link} {z : Nat}, WalkVia net S y w2 z →
    WalkVia net S x (w1 ++ w2) z := by
  intro w1
  induction w1 with
  | nil =>
    intro x y h w2 z h2
    cases h
    exact h2
  | cons l ls ih =>
    intro x y h w2 z h2
    obtain ⟨hl, hxS, hd⟩ := h
    rcases hd with ⟨hx, hw⟩ | ⟨hx, hw⟩
    · exact ⟨hl, hxS, .inl ⟨hx, ih hw h2⟩⟩
    · exact ⟨hl, hxS, .inr ⟨hx, ih hw h2⟩⟩

theorem IsWalk_append {net : Net} :
    ∀ {w1 : List Link} {x y : Nat}, IsWalk net x w1 y →
    ∀ {w2 : List Link} {z : Nat}, IsWalk net y w2 z →
    IsWalk net x (w1 ++ w2) z := by
  intro w1
  induction w1 with
  | nil =>
    intro x y h w2 z h2
    cases h
    exact h2
  | cons l ls ih =>
    intro x y h w2 z h2
    obtain ⟨hl, hd⟩ := h
    rcases hd with ⟨hx, hw⟩ | ⟨hx, hw⟩
    · exact ⟨hl, .inl ⟨hx, ih hw h2⟩⟩
    · exact ⟨hl, .inr ⟨hx, ih hw h2⟩⟩

theorem WalkVia_extend {net : Net} {S : List Nat} {w : List Link} {x y : Nat}
    (h : WalkVia net S x w y) (hy : y ∈ S) {l : Link} (hl : l ∈ net.links)
    {z : Nat}
    (hz : (y = l.source ∧ z = l.destination) ∨ (y = l.destination ∧ z = l.source)) :
    WalkVia net S x (w ++ [l]) z := by
  refine WalkVia_append h ?_
  rcases hz with ⟨hy1, hz1⟩ | ⟨hy1, hz1⟩
  · exact ⟨hl, hy, .inl ⟨hy1, hz1.symm⟩⟩
  · exact ⟨hl, hy, .inr ⟨hy1, hz1.symm⟩⟩

theorem WalkVia_nil_set {net : Net} :
    ∀ {w : List Link} {x y : Nat}, WalkVia net [] x w y → w = [] ∧ x = y := by
  intro w
  cases w with
  | nil => intro x y h; exact ⟨rfl, h⟩
  | cons l ls =>
    intro x y h
    exact absurd h.2.1 (List.not_mem_nil x)

theorem IsWalk_endpoint {net : Net}
    (hwf : ∀ l ∈ net.links, l.source ∈ net.nodeIds ∧ l.destination ∈ net.nodeIds) :
    ∀ {w : List Link} {x y : Nat}, IsWalk net x w y → x ∈ net.nodeIds →
    y ∈ net.nodeIds := by
  intro w
  induction w with
  | nil => intro x y h hx; exact h ▸ hx
  | cons l ls ih =>
    intro x y h _
    obtain ⟨hl, hd⟩ := h
    rcases hd with ⟨-, hw⟩ | ⟨-, hw⟩
    · exact ih hw (hwf l hl).2
    · exact ih hw (hwf l hl).1

theorem linkedL_to_walk {net : Net} {x y : Nat}
    (h : linkedL net.links x y) : ∃ w, IsWalk net x w y := by
  induction h with
  | refl => exact ⟨[], rfl⟩
  | tail _ hstep ih =>
    obtain ⟨w, hw⟩ := ih
    obtain ⟨l, hl, hse⟩ := hstep
    refine ⟨w ++ [l], IsWalk_append hw ?_⟩
    rcases hse with ⟨hb, hc⟩ | ⟨hb, hc⟩
    · exact ⟨hl, .inl ⟨hb, hc.symm⟩⟩
    · exact ⟨hl, .inr ⟨hb, hc.symm⟩⟩

/-- Decompose a walk at the first node outside `S`. -/
theorem IsWalk_first_out {net : Net} {S : List Nat} :
    ∀ {w : List Link} {x y : Nat}, IsWalk net x w y → y ∉ S →
    ∃ w1 w2 z, w = w1 ++ w2 ∧ WalkVia net S x w1 z ∧ z ∉ S ∧
      IsWalk net z w2 y := by
  intro w
  induction w with
  | nil =>
    intro x y h hy
    cases h
    exact ⟨[], [], x, rfl, rfl, hy, rfl⟩
  | cons l ls ih =>
    intro x y h hy
    by_cases hxS : x ∈ S
    · obtain ⟨hl, hd⟩ := h
      rcases hd with ⟨hx, hw⟩ | ⟨hx, hw⟩
      · obtain ⟨w1, w2, z, heq, hvia, hz, hwalk⟩ := ih hw hy
        exact ⟨l :: w1, w2, z, by rw [heq]; rfl,
          ⟨hl, hxS, .inl ⟨hx, hvia⟩⟩, hz, hwalk⟩
      · obtain ⟨w1, w2, z, heq, hvia, hz, hwalk⟩ := ih hw hy
        exact ⟨l :: w1, w2, z, by rw [heq]; rfl,
          ⟨hl, hxS, .inr ⟨hx, hvia⟩⟩, hz, hwalk⟩
    · exact ⟨[], l :: ls, x, rfl, rfl, hxS, h⟩

/-- Decompose a `u :: V` walk at the first occurrence of `u`. -/
theorem WalkVia_first_split {net : Net} {V : List Nat} {u : Nat} :
    ∀ {w : List Link} {x y : Nat}, WalkVia net (u :: V) x w y →
    WalkVia net V x w y ∨
    ∃ w1 w2, w = w1 ++ w2 ∧ WalkVia net V x w1 u ∧ WalkVia net (u :: V) u w2 y := by
  intro w
  induction w with
  | nil => intro x y h; exact .inl h
  | cons l ls ih =>
    intro x y h
    obtain ⟨hl, hxS, hd⟩ := h
    by_cases hxu : x = u
    · subst hxu
      exact .inr ⟨[], l :: ls, rfl, rfl, ⟨hl, hxS, hd⟩⟩
    · have hxV : x ∈ V := by
        rcases List.mem_cons.mp hxS with h1 | h1
        · exact absurd h1 hxu
        · exact h1
      rcases hd with ⟨hx, hw⟩ | ⟨hx, hw⟩
      · rcases ih hw with hc | ⟨w1, w2, heq, hv1, hv2⟩
        · exact .inl ⟨hl, hxV, .inl ⟨hx, hc⟩⟩
        · exact .inr ⟨l :: w1, w2, by rw [heq]; rfl,
            ⟨hl, hxV, .inl ⟨hx, hv1⟩⟩, hv2⟩
      · rcases ih hw with hc | ⟨w1, w2, heq, hv1, hv2⟩
        · exact .inl ⟨hl, hxV, .inr ⟨hx, hc⟩⟩
        · exact .inr ⟨l :: w1, w2, by rw [heq]; rfl,
            ⟨hl, hxV, .inr ⟨hx, hv1⟩⟩, hv2⟩

/-- Decompose a `u :: V` walk at the last occurrence of `u`. -/
theorem WalkVia_last_split {net : Net} {V : List Nat} {u : Nat} :
    ∀ {w : List Link} {x y : Nat}, WalkVia net (u :: V) x w y →
    WalkVia net V x w y ∨
    ∃ w1 l w2, w = w1 ++ l :: w2 ∧ WalkVia net (u :: V) x w1 u ∧ l ∈ net.links ∧
      ((u = l.source ∧ WalkVia net V l.destination w2 y) ∨
       (u = l.destination ∧ WalkVia net V l.source w2 y)) := by
  intro w
  induction w with
  | nil => intro x y h; exact .inl h
  | cons l ls ih =>
    intro x y h
    obtain ⟨hl, hxS, hd⟩ := h
    rcases hd with ⟨hx, hw⟩ | ⟨hx, hw⟩
    · rcases ih hw with hc | ⟨w1, l2, w2, heq, hv1, hl2, hrest⟩
      · by_cases hxu : x = u
        · subst hxu
          exact .inr ⟨[], l, ls, rfl, rfl, hl, .inl ⟨hx, hc⟩⟩
        · have hxV : x ∈ V := by
            rcases List.mem_cons.mp hxS with h1 | h1
            · exact absurd h1 hxu
            · exact h1
          exact .inl ⟨hl, hxV, .inl ⟨hx, hc⟩⟩
      · exact .inr ⟨l :: w1, l2, w2, by rw [heq]; rfl,
          ⟨hl, hxS, .inl ⟨hx, hv1⟩⟩, hl2, hrest⟩
    · rcases ih hw with hc | ⟨w1, l2, w2, heq, hv1, hl2, hrest⟩
      · by_cases hxu : x = u
        · subst hxu
          exact .inr ⟨[], l, ls, rfl, rfl, hl, .inr ⟨hx, hc⟩⟩
        · have hxV : x ∈ V := by
            rcases List.mem_cons.mp hxS with h1 | h1
            · exact absurd h1 hxu
            · exact h1
          exact .inl ⟨hl, hxV, .inr ⟨hx, hc⟩⟩
      · exact .inr ⟨l :: w1, l2, w2, by rw [heq]; rfl,
          ⟨hl, hxS, .inr ⟨hx, hv1⟩⟩, hl2, hrest⟩

theorem popMinBy_nil {α : Type} (lt : α → α → Bool) {h : List α}
    (hp : popMinBy lt h = none) : h = [] := by
  cases h with
  | nil => rfl
  | cons a xs =>
    unfold popMinBy at hp
    rcases h2 : popMinBy lt xs with - | ⟨m2, rest2⟩ <;> rw [h2] at hp
    · exact absurd hp (by simp)
    · dsimp only at hp
      split at hp <;> exact absurd hp (by simp)

theorem popMinBy_perm {α : Type} (lt : α → α → Bool) :
    ∀ {h : List α} {m : α} {rest : List α},
    popMinBy lt h = some (m, rest) → h.Perm (m :: rest) := by
  intro h
  induction h with
  | nil => intro m rest h; simp [popMinBy] at h
  | cons x xs ih =>
    intro m rest h
    unfold popMinBy at h
    rcases hp : popMinBy lt xs with - | ⟨m2, rest2⟩ <;> rw [hp] at h <;>
      dsimp only at h
    · cases h
      rw [popMinBy_nil lt hp]
    · by_cases hlt : lt m2 x
      · rw [if_pos hlt] at h
        cases h
        exact ((ih hp).cons _).trans (List.Perm.swap _ _ _)
      · rw [if_neg hlt] at h
        cases h
        exact List.Perm.refl _

theorem popMinBy_min :
    ∀ {h : List AEntry} {m : AEntry} {rest : List AEntry},
    popMinBy aheapLt h = some (m, rest) →
    ∀ x ∈ h, m.dist < x.dist ∨ (m.dist = x.dist ∧ m.node ≤ x.node) := by
  have hR : ∀ p q : AEntry, ¬ aheapLt p q = true →
      q.dist < p.dist ∨ (q.dist = p.dist ∧ q.node ≤ p.node) := by
    intro p q hpq
    unfold aheapLt at hpq
    simp only [Bool.or_eq_true, Bool.and_eq_true, decide_eq_true_iff,
      not_or, not_and] at hpq
    obtain ⟨h1, h2⟩ := hpq
    rcases lt_trichotomy p.dist q.dist with hc | hc | hc
    · exact absurd hc h1
    · refine .inr ⟨hc.symm, ?_⟩
      have := h2 hc
      omega
    · exact .inl hc
  have hS : ∀ p q : AEntry, aheapLt p q = true →
      p.dist < q.dist ∨ (p.dist = q.dist ∧ p.node ≤ q.node) := by
    intro p q hpq
    unfold aheapLt at hpq
    simp only [Bool.or_eq_true, Bool.and_eq_true, decide_eq_true_iff] at hpq
    rcases hpq with h1 | ⟨h1, h2⟩
    · exact .inl h1
    · exact .inr ⟨h1, le_of_lt h2⟩
  have htrans : ∀ p q r : AEntry,
      (p.dist < q.dist ∨ (p.dist = q.dist ∧ p.node ≤ q.node)) →
      (q.dist < r.dist ∨ (q.dist = r.dist ∧ q.node ≤ r.node)) →
      (p.dist < r.dist ∨ (p.dist = r.dist ∧ p.node ≤ r.node)) := by
    intro p q r h1 h2
    rcases h1 with h1 | ⟨h1a, h1b⟩ <;> rcases h2 with h2 | ⟨h2a, h2b⟩
    · exact .inl (lt_trans h1 h2)
    · exact .inl (h2a ▸ h1)
    · exact .inl (h1a ▸ h2)
    · exact .inr ⟨h1a.trans h2a, le_trans h1b h2b⟩
  intro h
  induction h with
  | nil => intro m rest h; simp [popMinBy] at h
  | cons a xs ih =>
    intro m rest h x hx
    unfold popMinBy at h
    rcases hp : popMinBy aheapLt xs with - | ⟨m2, rest2⟩ <;> rw [hp] at h <;>
      dsimp only at h
    · cases h
      have hxs := popMinBy_nil aheapLt hp
      subst hxs
      rcases List.mem_cons.mp hx with rfl | hx
      · exact .inr ⟨rfl, le_refl _⟩
      · exact absurd hx (List.not_mem_nil x)
    · by_cases hlt : aheapLt m2 a
      · rw [if_pos hlt] at h
        cases h
        rcases List.mem_cons.mp hx with rfl | hx
        · exact hS _ _ hlt
        · exact ih hp x hx
      · rw [if_neg hlt] at h
        cases h
        rcases List.mem_cons.mp hx with rfl | hx
        · exact .inr ⟨rfl, le_refl _⟩
        · exact htrans _ _ _ (hR _ _ hlt) (ih hp x hx)

theorem astarPush_mem (net : Net) (exPl exN aPl aN : List Nat) (e : AEntry)
    (pc : List Nat) (L : List (Nat × Link)) :
    ∀ (h : List AEntry) (x : AEntry),
    x ∈ L.foldl (fun h (nb, l) =>
      if nb ∈ aN ∧ nb ∉ exN then
        if l.id ∈ aPl ∧ l.id ∉ exPl then
          h ++ [{ dist := e.dist + l.dirCost e.node
                  node := nb
                  nodes := e.nodes ++ [nb]
                  plinks := e.plinks ++ [l.id]
                  pc := pc }]
        else h
      else h) h ↔
    x ∈ h ∨ ∃ p ∈ L, (p.1 ∈ aN ∧ p.1 ∉ exN) ∧ (p.2.id ∈ aPl ∧ p.2.id ∉ exPl) ∧
      x = { dist := e.dist + p.2.dirCost e.node, node := p.1
            nodes := e.nodes ++ [p.1], plinks := e.plinks ++ [p.2.id]
            pc := pc } := by
  induction L with
  | nil =>
    intro h x
    simp
  | cons p L ih =>
    obtain ⟨nb, l⟩ := p
    intro h x
    rw [List.foldl_cons]
    dsimp only
    by_cases h1 : nb ∈ aN ∧ nb ∉ exN
    · rw [if_pos h1]
      by_cases h2 : l.id ∈ aPl ∧ l.id ∉ exPl
      · rw [if_pos h2, ih]
        simp only [List.mem_append, List.mem_cons, List.not_mem_nil, or_false]
        constructor
        · rintro ((hx | hx) | ⟨q, hq, hq1, hq2, hq3⟩)
          · exact .inl hx
          · exact .inr ⟨(nb, l), .inl rfl, h1, h2, hx⟩
          · exact .inr ⟨q, .inr hq, hq1, hq2, hq3⟩
        · rintro (hx | ⟨q, (rfl | hq), hq1, hq2, hq3⟩)
          · exact .inl (.inl hx)
          · exact .inl (.inr hq3)
          · exact .inr ⟨q, hq, hq1, hq2, hq3⟩
      · rw [if_neg h2, ih]
        simp only [List.mem_cons]
        constructor
        · rintro (hx | ⟨q, hq, hq1, hq2, hq3⟩)
          · exact .inl hx
          · exact .inr ⟨q, .inr hq, hq1, hq2, hq3⟩
        · rintro (hx | ⟨q, (rfl | hq), hq1, hq2, hq3⟩)
          · exact .inl hx
          · exact absurd hq2 h2
          · exact .inr ⟨q, hq, hq1, hq2, hq3⟩
    · rw [if_neg h1, ih]
      simp only [List.mem_cons]
      constructor
      · rintro (hx | ⟨q, hq, hq1, hq2, hq3⟩)
        · exact .inl hx
        · exact .inr ⟨q, .inr hq, hq1, hq2, hq3⟩
      · rintro (hx | ⟨q, (rfl | hq), hq1, hq2, hq3⟩)
        · exact .inl hx
        · exact absurd hq1 h1
        · exact .inr ⟨q, hq, hq1, hq2, hq3⟩

theorem astarPush_mem_iff (net : Net) (exPl exN aPl aN : List Nat) (e : AEntry)
    (pc : List Nat) (h : List AEntry) (x : AEntry) :
    x ∈ astarPush net exPl exN aPl aN e pc h ↔
    x ∈ h ∨ ∃ p ∈ net.adj e.node, (p.1 ∈ aN ∧ p.1 ∉ exN) ∧
      (p.2.id ∈ aPl ∧ p.2.id ∉ exPl) ∧
      x = { dist := e.dist + p.2.dirCost e.node, node := p.1
            nodes := e.nodes ++ [p.1], plinks := e.plinks ++ [p.2.id]
            pc := pc } := by
  unfold astarPush
  exact astarPush_mem net exPl exN aPl aN e pc (net.adj e.node) h x

theorem dirCost_symm {net : Net} {l : Link} (hl : l ∈ net.links)
    (hsym : ∀ l ∈ net.links, l.costDS = l.costSD) (n : Nat) :
    l.dirCost n = l.costSD := by
  unfold Link.dirCost
  split
  · rfl
  · exact hsym l hl

theorem adj_of_edge {net : Net} {l : Link} (hl : l ∈ net.links) {u x2 : Nat}
    (h : (u = l.source ∧ x2 = l.destination) ∨ (u = l.destination ∧ x2 = l.source)) :
    (x2, l) ∈ net.adj u := by
  unfold Net.adj
  rw [List.mem_filterMap]
  refine ⟨l, hl, ?_⟩
  rcases h with ⟨hu, hx⟩ | ⟨hu, hx⟩
  · rw [if_pos hu.symm, hx]
  · by_cases hs : l.source = u
    · rw [if_pos hs]
      rw [hx, ← hu, hs]
    · rw [if_neg hs, if_pos hu.symm, hx]


theorem astarLoop_opt (net : Net) (source target : Nat)
    (hwf : ∀ l ∈ net.links, l.source ∈ net.nodeIds ∧ l.destination ∈ net.nodeIds)
    (hsym : ∀ l ∈ net.links, l.costDS = l.costSD)
    (hnonneg : ∀ l ∈ net.links, 0 ≤ l.costSD)
    (hreach : ∃ w0, IsWalk net source w0 target) :
    ∀ (fuel : Nat) (visited : List Nat) (heap : List AEntry) (d : Nat → Cost),
    (∀ e ∈ heap, e.pc = [target] ∧ ∃ ws, e.plinks = ws.map Link.id ∧
        WalkVia net visited source ws e.node ∧ e.dist = wcost ws) →
    (∀ z, z ∉ visited → ∀ w, WalkVia net visited source w z →
        ∃ e ∈ heap, e.node = z ∧ e.dist ≤ wcost w) →
    (∀ v ∈ visited, ∀ w, WalkVia net visited source w v → d v ≤ wcost w) →
    (∀ v ∈ visited, ∀ e ∈ heap, d v ≤ e.dist) →
    (∀ v ∈ visited, ∃ w, WalkVia net visited source w v ∧ wcost w ≤ d v) →
    target ∉ visited →
    ∀ res, astarLoop net [] [] net.linkIds net.nodeIds fuel visited heap = .ok res →
    ∃ ws, res.2 = ws.map Link.id ∧ IsWalk net source ws target ∧
      ∀ w, IsWalk net source w target → wcost ws ≤ wcost w := by
  intro fuel
  induction fuel with
  | zero =>
    intro visited heap d _ _ _ _ _ _ res hrun
    exact absurd hrun (by simp [astarLoop])
  | succ f ih =>
    intro visited heap d H1 H2 H3 H4 H5 H6 res hrun
    simp only [astarLoop] at hrun
    rcases hpop : popMinBy aheapLt heap with - | ⟨e0, rest⟩ <;> rw [hpop] at hrun <;>
      dsimp only at hrun
    · -- empty heap: contradicts reachability
      exfalso
      have hnil := popMinBy_nil aheapLt hpop
      obtain ⟨w0, hw0⟩ := hreach
      obtain ⟨w1, w2, z, -, hvia1, hz, -⟩ := IsWalk_first_out hw0 H6
      obtain ⟨e, he, -, -⟩ := H2 z hz w1 hvia1
      rw [hnil] at he
      exact absurd he (List.not_mem_nil e)
    · have hperm := popMinBy_perm aheapLt hpop
      have he0 : e0 ∈ heap := hperm.mem_iff.mpr (List.mem_cons_self e0 rest)
      have hminpop : ∀ e ∈ heap, e0.dist ≤ e.dist := by
        intro e he
        rcases popMinBy_min hpop e he with hlt | ⟨heq, -⟩
        · exact le_of_lt hlt
        · exact le_of_eq heq
      have hrestmem : ∀ e ∈ rest, e ∈ heap := by
        intro e he
        exact hperm.mem_iff.mpr (List.mem_cons_of_mem e0 he)
      by_cases hv : e0.node ∈ visited
      · -- skip branch
        rw [if_pos hv] at hrun
        refine ih visited rest d (fun e he => H1 e (hrestmem e he)) ?_ H3
          (fun v hvv e he => H4 v hvv e (hrestmem e he)) H5 H6 res hrun
        intro z hz w hw
        obtain ⟨e, he, hez, hed⟩ := H2 z hz w hw
        have hne : e ≠ e0 := by
          intro heq
          rw [heq] at hez
          rw [hez] at hv
          exact hz hv
        rcases List.mem_cons.mp (hperm.mem_iff.mp he) with h1 | h1
        · exact absurd h1 hne
        · exact ⟨e, h1, hez, hed⟩
      · -- unvisited
        rw [if_neg hv] at hrun
        obtain ⟨hpc0, ws0, hpl0, hvia0, hdist0⟩ := H1 e0 he0
        rw [hpc0] at hrun
        simp only [List.getLast?_singleton] at hrun
        by_cases ht : e0.node = target
        · -- return branch
          rw [if_pos ht] at hrun
          simp only [show ([target] : List Nat).dropLast = [] from rfl, List.isEmpty_nil, if_true] at hrun
          cases hrun
          refine ⟨ws0, hpl0, ht ▸ WalkVia_isWalk hvia0, ?_⟩
          intro w hw
          obtain ⟨w1, w2, z, heqw, hvia1, hz, hw2⟩ := IsWalk_first_out hw H6
          obtain ⟨e, he, hez, hed⟩ := H2 z hz w1 hvia1
          have h1 : wcost ws0 = e0.dist := hdist0.symm
          have h2 : e0.dist ≤ e.dist := hminpop e he
          have h3 : wcost w1 ≤ wcost w := by
            rw [heqw, wcost_append]
            refine le_add_of_nonneg_right ?_
            exact wcost_nonneg hnonneg (IsWalk_links hw2)
          rw [h1]
          exact le_trans h2 (le_trans hed h3)
        · -- visit branch
          rw [if_neg ht] at hrun
          have hDVU : ∀ w, WalkVia net (e0.node :: visited) source w e0.node →
              e0.dist ≤ wcost w := by
            intro w hw
            rcases WalkVia_first_split hw with hc | ⟨w1, w2, heqw, hv1, hv2⟩
            · obtain ⟨e, he, -, hed⟩ := H2 e0.node hv w hc
              exact le_trans (hminpop e he) hed
            · obtain ⟨e, he, -, hed⟩ := H2 e0.node hv w1 hv1
              have h3 : wcost w1 ≤ wcost w := by
                rw [heqw, wcost_append]
                refine le_add_of_nonneg_right ?_
                exact wcost_nonneg hnonneg (WalkVia_links hv2)
              exact le_trans (hminpop e he) (le_trans hed h3)
          have hd' : ∀ v w, v ∈ e0.node :: visited →
              WalkVia net (e0.node :: visited) source w v →
              (if v = e0.node then e0.dist else d v) ≤ wcost w := by
            intro v w hvv hw
            rcases List.mem_cons.mp hvv with rfl | hvv
            · rw [if_pos rfl]
              exact hDVU w hw
            · rw [if_neg (show ¬ _ = e0.node from fun heq => hv (heq ▸ hvv))]
              rcases WalkVia_first_split hw with hc | ⟨w1, w2, heqw, hv1, hv2⟩
              · exact H3 v hvv w hc
              · obtain ⟨e, he, -, hed⟩ := H2 e0.node hv w1 hv1
                have h3 : wcost w1 ≤ wcost w := by
                  rw [heqw, wcost_append]
                  refine le_add_of_nonneg_right ?_
                  exact wcost_nonneg hnonneg (WalkVia_links hv2)
                exact le_trans (H4 v hvv e0 he0)
                  (le_trans (hminpop e he) (le_trans hed h3))
          have hsubvis : ∀ a ∈ visited, a ∈ e0.node :: visited :=
            fun a ha => List.mem_cons_of_mem e0.node ha
          refine ih (e0.node :: visited)
            (astarPush net [] [] net.linkIds net.nodeIds e0 [target] rest)
            (fun x => if x = e0.node then e0.dist else d x)
            ?_ ?_ ?_ ?_ ?_ ?_ res hrun
          · -- H1 preserved
            intro e he
            rcases (astarPush_mem_iff net [] [] net.linkIds net.nodeIds e0
                [target] rest e).mp he with h1 | ⟨p, hp, -, -, rfl⟩
            · obtain ⟨hepc, ws, hws1, hws2, hws3⟩ := H1 e (hrestmem e h1)
              exact ⟨hepc, ws, hws1, WalkVia_mono hsubvis hws2, hws3⟩
            · obtain ⟨hpl, hpe⟩ := adj_mem_cases hp
              refine ⟨rfl, ws0 ++ [p.2], ?_, ?_, ?_⟩
              · simp only [List.map_append, List.map_cons, List.map_nil]
                rw [hpl0]
              · refine WalkVia_extend (WalkVia_mono hsubvis hvia0)
                  (List.mem_cons_self _ _) hpl ?_
                rcases hpe with ⟨h1, h2⟩ | ⟨h1, h2⟩
                · exact .inl ⟨h1.symm, h2⟩
                · exact .inr ⟨h1.symm, h2⟩
              · dsimp only
                rw [hdist0, dirCost_symm hpl hsym, wcost_append]
                unfold wcost
                simp
          · -- H2 preserved
            intro z hz w hw
            have hzvis : z ∉ visited := fun hc => hz (hsubvis z hc)
            have hzu : z ≠ e0.node := fun hc => hz (hc ▸ List.mem_cons_self _ _)
            rcases WalkVia_last_split hw with hc | ⟨w1, l, w2, heqw, hv1, hl, hrest2⟩
            · obtain ⟨e, he, hez, hed⟩ := H2 z hzvis w hc
              have hne : e ≠ e0 := fun heq => hzu (by rw [← hez, heq])
              rcases List.mem_cons.mp (hperm.mem_iff.mp he) with h1 | h1
              · exact absurd h1 hne
              · exact ⟨e, (astarPush_mem_iff net [] [] net.linkIds net.nodeIds e0
                  [target] rest e).mpr (.inl h1), hez, hed⟩
            · -- edge out of the newly visited node
              have hx2 : ∃ x2, ((e0.node = l.source ∧ x2 = l.destination) ∨
                  (e0.node = l.destination ∧ x2 = l.source)) ∧
                  WalkVia net visited x2 w2 z := by
                rcases hrest2 with ⟨h1, h2⟩ | ⟨h1, h2⟩
                · exact ⟨l.destination, .inl ⟨h1, rfl⟩, h2⟩
                · exact ⟨l.source, .inr ⟨h1, rfl⟩, h2⟩
              obtain ⟨x2, hedge, hw2⟩ := hx2
              have hbound1 : e0.dist ≤ wcost w1 := hDVU w1 hv1
              cases w2 with
              | nil =>
                -- the pushed entry covers z directly
                have hx2z : x2 = z := hw2
                have hadj : (x2, l) ∈ net.adj e0.node := adj_of_edge hl hedge
                have hx2nid : x2 ∈ net.nodeIds := by
                  rcases hedge with ⟨-, h2⟩ | ⟨-, h2⟩
                  · rw [h2]
                    exact (hwf l hl).2
                  · rw [h2]
                    exact (hwf l hl).1
                have hlid : l.id ∈ net.linkIds := List.mem_map_of_mem _ hl
                refine ⟨{ dist := e0.dist + l.dirCost e0.node, node := x2
                          nodes := e0.nodes ++ [x2]
                          plinks := e0.plinks ++ [l.id], pc := [target] },
                  (astarPush_mem_iff net [] [] net.linkIds net.nodeIds e0
                    [target] rest _).mpr
                    (.inr ⟨(x2, l), hadj, ⟨hx2nid, List.not_mem_nil x2⟩,
                      ⟨hlid, List.not_mem_nil l.id⟩, rfl⟩), hx2z, ?_⟩
                dsimp only
                rw [dirCost_symm hl hsym, heqw, wcost_append]
                refine add_le_add_right hbound1 _ |>.trans ?_
                unfold wcost
                simp
              | cons l2 w2' =>
                -- the walk re-enters the old visited region at x2
                have hx2vis : x2 ∈ visited := hw2.2.1
                have hdx2 : d x2 ≤ wcost (w1 ++ [l]) := by
                  have hwext : WalkVia net (e0.node :: visited) source
                      (w1 ++ [l]) x2 :=
                    WalkVia_extend hv1 (List.mem_cons_self _ _) hl hedge
                  have := hd' x2 (w1 ++ [l]) (hsubvis x2 hx2vis) hwext
                  rw [if_neg (show ¬ x2 = e0.node from fun heq => hv (heq ▸ hx2vis))] at this
                  exact this
                obtain ⟨wx, hwx, hwxc⟩ := H5 x2 hx2vis
                have hwstar : WalkVia net visited source (wx ++ (l2 :: w2')) z :=
                  WalkVia_append hwx hw2
                obtain ⟨e, he, hez, hed⟩ := H2 z hzvis _ hwstar
                have hne : e ≠ e0 := fun heq => hzu (by rw [← hez, heq])
                refine ⟨e, ?_, hez, ?_⟩
                · rcases List.mem_cons.mp (hperm.mem_iff.mp he) with h1 | h1
                  · exact absurd h1 hne
                  · exact (astarPush_mem_iff net [] [] net.linkIds net.nodeIds e0
                      [target] rest e).mpr (.inl h1)
                · rw [wcost_append] at hed
                  have h4 : wcost wx + wcost (l2 :: w2') ≤
                      wcost (w1 ++ [l]) + wcost (l2 :: w2') :=
                    add_le_add_right (le_trans hwxc hdx2) _
                  have h5 : wcost (w1 ++ [l]) + wcost (l2 :: w2') = wcost w := by
                    rw [heqw]
                    rw [← wcost_append, List.append_assoc]
                    rfl
                  exact le_trans hed (le_trans h4 (le_of_eq h5))
          · -- H3 preserved
            intro v hvv w hw
            dsimp only
            exact hd' v w hvv hw
          · -- H4 preserved
            intro v hvv e he
            dsimp only
            rcases (astarPush_mem_iff net [] [] net.linkIds net.nodeIds e0
                [target] rest e).mp he with h1 | ⟨p, hp, -, -, rfl⟩
            · rcases List.mem_cons.mp hvv with rfl | hvv
              · rw [if_pos rfl]
                exact hminpop e (hrestmem e h1)
              · rw [if_neg (show ¬ _ = e0.node from fun heq => hv (heq ▸ hvv))]
                exact H4 v hvv e (hrestmem e h1)
            · have hple : e0.dist ≤ e0.dist + p.2.dirCost e0.node := by
                refine le_add_of_nonneg_right ?_
                rw [dirCost_symm (adj_mem_cases hp).1 hsym]
                exact hnonneg p.2 (adj_mem_cases hp).1
              rcases List.mem_cons.mp hvv with rfl | hvv
              · rw [if_pos rfl]
                exact hple
              · rw [if_neg (show ¬ _ = e0.node from fun heq => hv (heq ▸ hvv))]
                exact le_trans (H4 v hvv e0 he0) hple
          · -- H5 preserved
            intro v hvv
            dsimp only
            rcases List.mem_cons.mp hvv with rfl | hvv
            · refine ⟨ws0, WalkVia_mono hsubvis hvia0, ?_⟩
              rw [if_pos rfl]
              exact le_of_eq hdist0.symm
            · obtain ⟨w, hw, hwc⟩ := H5 v hvv
              refine ⟨w, WalkVia_mono hsubvis hw, ?_⟩
              rw [if_neg (show ¬ _ = e0.node from fun heq => hv (heq ▸ hvv))]
              exact hwc
          · -- target still unvisited
            intro hc
            rcases List.mem_cons.mp hc with h1 | h1
            · exact ht h1.symm
            · exact H6 h1

theorem A_star_opt (net : Net) (source target : Nat) (fuel : Nat)
    (hwf : ∀ l ∈ net.links, l.source ∈ net.nodeIds ∧ l.destination ∈ net.nodeIds)
    (hsym : ∀ l ∈ net.links, l.costDS = l.costSD)
    (hnonneg : ∀ l ∈ net.links, 0 ≤ l.costSD)
    (hreach : ∃ w0, IsWalk net source w0 target)
    (res : List Nat × List Nat)
    (hA : A_star net source target [] [] [] none none fuel = .ok res) :
    ∃ ws, res.2 = ws.map Link.id ∧ IsWalk net source ws target ∧
      ∀ w, IsWalk net source w target → wcost ws ≤ wcost w := by
  unfold A_star at hA
  simp only [Option.getD_none, List.reverse_nil, List.append_nil] at hA
  refine astarLoop_opt net source target hwf hsym hnonneg hreach fuel []
    [{ dist := 0, node := source, nodes := [source], plinks := [], pc := [target] }]
    (fun _ => 0) ?_ ?_ ?_ ?_ ?_ ?_ res hA
  · intro e he
    rw [List.mem_singleton] at he
    subst he
    exact ⟨rfl, [], rfl, rfl, by simp [wcost]⟩
  · intro z _ w hw
    obtain ⟨hwnil, hz⟩ := WalkVia_nil_set hw
    subst hwnil
    refine ⟨_, List.mem_singleton_self _, hz, ?_⟩
    simp [wcost]
  · intro v hv
    exact absurd hv (List.not_mem_nil v)
  · intro v hv
    exact absurd hv (List.not_mem_nil v)
  · intro v hv
    exact absurd hv (List.not_mem_nil v)
  · exact List.not_mem_nil target

theorem foldl_pres {α β : Type} (f : β → α → β) (P : β → Prop) :
    ∀ (L : List α) (b : β), P b → (∀ b x, x ∈ L → P b → P (f b x)) →
    P (L.foldl f b) := by
  intro L
  induction L with
  | nil => intro b hb _; exact hb
  | cons x L ih =>
    intro b hb hstep
    rw [List.foldl_cons]
    exact ih (f b x) (hstep b x (List.mem_cons_self x L) hb)
      (fun b y hy => hstep b y (List.mem_cons_of_mem x hy))

theorem fwStep_le (W : Nat → Nat → Cost) (k u v i j : Nat) :
    fwStep W k u v i j ≤ W i j := by
  unfold fwStep
  split
  · rename_i h
    rw [h.1, h.2]
    exact min_le_left _ _
  · exact le_refl _

theorem foldl_W_le {α : Type} (f : (Nat → Nat → Cost) → α → Nat → Nat → Cost)
    (hf : ∀ W x i j, f W x i j ≤ W i j) :
    ∀ (L : List α) (W : Nat → Nat → Cost) (i j : Nat),
    (L.foldl f W) i j ≤ W i j := by
  intro L
  induction L with
  | nil => intro W i j; exact le_refl _
  | cons x L ih =>
    intro W i j
    rw [List.foldl_cons]
    exact le_trans (ih (f W x) i j) (hf W x i j)

theorem fwInner_le (k u : Nat) (L : List Nat) (W : Nat → Nat → Cost) (i j : Nat) :
    (L.foldl (fun W v => fwStep W k u v) W) i j ≤ W i j :=
  foldl_W_le _ (fun W v i j => fwStep_le W k u v i j) L W i j

theorem fwRound_le (k : Nat) (L1 L2 : List Nat) (W : Nat → Nat → Cost) (i j : Nat) :
    (L1.foldl (fun W u => L2.foldl (fun W v => fwStep W k u v) W) W) i j ≤ W i j :=
  foldl_W_le _ (fun W u i j => fwInner_le k u L2 W i j) L1 W i j

theorem fwInner_relax (k u : Nat) :
    ∀ (L : List Nat) (W : Nat → Nat → Cost) (j : Nat), j ∈ L →
    (L.foldl (fun W v => fwStep W k u v) W) u j ≤ W u k + W k j := by
  intro L
  induction L with
  | nil => intro W j hj; exact absurd hj (List.not_mem_nil j)
  | cons v L ih =>
    intro W j hj
    rw [List.foldl_cons]
    rcases List.mem_cons.mp hj with rfl | hj
    · refine le_trans (fwInner_le k u L _ u j) ?_
      unfold fwStep
      rw [if_pos ⟨rfl, rfl⟩]
      exact min_le_right _ _
    · refine le_trans (ih (fwStep W k u v) j hj) ?_
      exact add_le_add (fwStep_le W k u v u k) (fwStep_le W k u v k j)

theorem fwRound_relax (k : Nat) (L2 : List Nat) :
    ∀ (L1 : List Nat) (W : Nat → Nat → Cost) (i j : Nat), i ∈ L1 → j ∈ L2 →
    (L1.foldl (fun W u => L2.foldl (fun W v => fwStep W k u v) W) W) i j ≤
      W i k + W k j := by
  intro L1
  induction L1 with
  | nil => intro W i j hi _; exact absurd hi (List.not_mem_nil i)
  | cons u L1 ih =>
    intro W i j hi hj
    rw [List.foldl_cons]
    rcases List.mem_cons.mp hi with rfl | hi
    · refine le_trans (fwRound_le k L1 L2 _ i j) ?_
      exact fwInner_relax k i L2 W j hj
    · refine le_trans (ih _ i j hi hj) ?_
      exact add_le_add (fwInner_le k u L2 W i k) (fwInner_le k u L2 W k j)

theorem wcost_cons (l : Link) (w : List Link) :
    wcost (l :: w) = l.costSD + wcost w := by
  simp [wcost]

theorem fw_LB_aux (net : Net) (ns : List Nat)
    (hnonneg : ∀ l ∈ net.links, 0 ≤ l.costSD) :
    ∀ (K : List Nat) (pre : List Nat) (W : Nat → Nat → Cost),
    (∀ k ∈ K, k < ns.length) →
    (∀ i j ni nj, ns.get? i = some ni → ns.get? j = some nj →
      ∀ w, WalkIn net (pre.filterMap (fun k => ns.get? k)) ni w nj →
      W i j ≤ wcost w) →
    ∀ i j ni nj, ns.get? i = some ni → ns.get? j = some nj →
    ∀ w, WalkIn net ((pre ++ K).filterMap (fun k => ns.get? k)) ni w nj →
    (K.foldl (fun W k => (List.range ns.length).foldl (fun W u =>
      (List.range ns.length).foldl (fun W v => fwStep W k u v) W) W) W) i j ≤
      wcost w := by
  intro K
  induction K with
  | nil =>
    intro pre W _ hP i j ni nj hi hj w hw
    rw [List.foldl_nil]
    exact hP i j ni nj hi hj w (by simpa using hw)
  | cons k K ih =>
    intro pre W hK hP i j ni nj hi hj w hw
    rw [List.foldl_cons]
    have hkn : k < ns.length := hK k (List.mem_cons_self k K)
    obtain ⟨hklt, hkget⟩ := List.get?_eq_some.mp
      (List.get?_eq_get hkn)
    have hk : ns.get? k = some (ns.get ⟨k, hkn⟩) := List.get?_eq_get hkn
    set nk := ns.get ⟨k, hkn⟩ with hnk
    -- the round-processed matrix satisfies the bound for pre ++ [k]
    refine ih (pre ++ [k]) _
      (fun k2 hk2 => hK k2 (List.mem_cons_of_mem k hk2)) ?_ i j ni nj hi hj w
      (by rw [List.append_cons] at hw; exact hw)
    intro i2 j2 ni2 nj2 hi2 hj2 w2 hw2
    have hSmem : ∀ a, a ∈ ((pre ++ [k]).filterMap (fun k => ns.get? k)) ↔
        a ∈ nk :: (pre.filterMap (fun k => ns.get? k)) := by
      intro a
      rw [List.filterMap_append]
      simp only [List.filterMap, hk, List.mem_append, List.mem_cons,
        List.mem_singleton, List.not_mem_nil, or_false]
      tauto
    have hi2n : i2 ∈ List.range ns.length :=
      List.mem_range.mpr (List.get?_eq_some.mp hi2).1
    have hj2n : j2 ∈ List.range ns.length :=
      List.mem_range.mpr (List.get?_eq_some.mp hj2).1
    cases w2 with
    | nil =>
      refine le_trans (fwRound_le k _ _ W i2 j2) ?_
      exact hP i2 j2 ni2 nj2 hi2 hj2 [] hw2
    | cons l ls =>
      obtain ⟨hl, hor⟩ := hw2
      have hor2 : ∃ x2, ((ni2 = l.source ∧ x2 = l.destination) ∨
          (ni2 = l.destination ∧ x2 = l.source)) ∧
          WalkVia net (nk :: pre.filterMap (fun k => ns.get? k)) x2 ls nj2 := by
        rcases hor with ⟨h1, h2⟩ | ⟨h1, h2⟩
        · exact ⟨l.destination, .inl ⟨h1, rfl⟩,
            WalkVia_mono (fun a ha => (hSmem a).mp ha) h2⟩
        · exact ⟨l.source, .inr ⟨h1, rfl⟩,
            WalkVia_mono (fun a ha => (hSmem a).mp ha) h2⟩
      obtain ⟨x2, hor, hvia⟩ := hor2
      have hbound1 : ∀ (w1 : List Link),
          WalkVia net (nk :: pre.filterMap (fun k => ns.get? k)) x2 w1 nk →
          W i2 k ≤ wcost (l :: w1) := by
        intro w1 hw1
        have hWalkIn : ∀ wa, WalkVia net (pre.filterMap (fun k => ns.get? k)) x2 wa nk →
            WalkIn net (pre.filterMap (fun k => ns.get? k)) ni2 (l :: wa) nk := by
          intro wa hwa
          rcases hor with ⟨h1, h2⟩ | ⟨h1, h2⟩
          · exact ⟨hl, .inl ⟨h1, h2 ▸ hwa⟩⟩
          · exact ⟨hl, .inr ⟨h1, h2 ▸ hwa⟩⟩
        rcases WalkVia_first_split hw1 with hc | ⟨wa, wb, heq, hva, hvb⟩
        · exact hP i2 k ni2 nk hi2 hk (l :: w1) (hWalkIn w1 hc)
        · refine le_trans (hP i2 k ni2 nk hi2 hk (l :: wa) (hWalkIn wa hva)) ?_
          rw [heq, wcost_cons, wcost_cons, wcost_append]
          rw [← add_assoc]
          refine le_add_of_nonneg_right ?_
          exact wcost_nonneg hnonneg (WalkVia_links hvb)
      rcases WalkVia_last_split hvia with hc | ⟨w1, l2, ws2, heqls, hv1, hl2, hrest2⟩
      · -- the walk avoids the new pivot
        refine le_trans (fwRound_le k _ _ W i2 j2) ?_
        refine hP i2 j2 ni2 nj2 hi2 hj2 (l :: ls) ?_
        rcases hor with ⟨h1, h2⟩ | ⟨h1, h2⟩
        · exact ⟨hl, .inl ⟨h1, h2 ▸ hc⟩⟩
        · exact ⟨hl, .inr ⟨h1, h2 ▸ hc⟩⟩
      · -- split through the pivot
        have hA : W i2 k ≤ wcost (l :: w1) := hbound1 w1 hv1
        have hB : W k j2 ≤ wcost (l2 :: ws2) :=
          hP k j2 nk nj2 hk hj2 (l2 :: ws2) ⟨hl2, hrest2⟩
        refine le_trans (fwRound_relax k _ _ W i2 j2 hi2n hj2n) ?_
        refine le_trans (add_le_add hA hB) ?_
        rw [← wcost_append]
        rw [heqls]
        rfl

theorem fwInit_LB (net : Net) (ns : List Nat) (hnodup : ns.Nodup)
    (hnonneg : ∀ l ∈ net.links, 0 ≤ l.costSD)
    (hsimple : ∀ l1 ∈ net.links, ∀ l2 ∈ net.links,
      ((l1.source = l2.source ∧ l1.destination = l2.destination) ∨
       (l1.source = l2.destination ∧ l1.destination = l2.source)) → l1 = l2) :
    ∀ i j ni nj, ns.get? i = some ni → ns.get? j = some nj →
    ∀ w, WalkIn net [] ni w nj → fwInit net ns i j ≤ wcost w := by
  intro i j ni nj hi hj w hw
  cases w with
  | nil =>
    have hninj : ni = nj := hw
    have hij : i = j := by
      have h1 : i < ns.length := (List.get?_eq_some.mp hi).1
      refine List.get?_inj h1 hnodup ?_
      rw [hi, hj, hninj]
    subst hij
    unfold fwInit
    rw [if_pos rfl]
    simp [wcost]
  | cons l ls =>
    obtain ⟨hl, hor⟩ := hw
    have hor2 : ∃ x2, ((ni = l.source ∧ x2 = l.destination) ∨
        (ni = l.destination ∧ x2 = l.source)) ∧ WalkVia net [] x2 ls nj := by
      rcases hor with ⟨h1, h2⟩ | ⟨h1, h2⟩
      · exact ⟨l.destination, .inl ⟨h1, rfl⟩, h2⟩
      · exact ⟨l.source, .inr ⟨h1, rfl⟩, h2⟩
    obtain ⟨x2, horx, hvia⟩ := hor2
    obtain ⟨hls, hx2⟩ := WalkVia_nil_set hvia
    subst hls
    have hedge : (ni = l.source ∧ nj = l.destination) ∨
        (ni = l.destination ∧ nj = l.source) := by
      rw [← hx2]
      exact horx
    have hcost : wcost [l] = l.costSD := by simp [wcost]
    have hnn : (0 : Cost) ≤ l.costSD := hnonneg l hl
    unfold fwInit
    by_cases hij : i = j
    · rw [if_pos hij, hcost]
      exact hnn
    · rw [if_neg hij, hi, hj]
      dsimp only
      have hadj : (nj, l) ∈ net.adj ni := adj_of_edge hl hedge
      rcases hf : (net.adj ni).find? (fun p => p.1 = nj) with - | ⟨qa, ql⟩ <;>
        rw [hf]
      · exfalso
        have := List.find?_eq_none.mp hf (nj, l) hadj
        simp at this
      · have hq1 : qa = nj := by
          have := List.find?_some hf
          simpa using this
        obtain ⟨hql, hqor⟩ := adj_mem_cases (List.mem_of_find?_eq_some hf)
        dsimp only at hql hqor
        have hq2 : ql = l := by
          refine hsimple ql hql l hl ?_
          rcases hqor with ⟨ha, hb⟩ | ⟨ha, hb⟩ <;>
            rcases hedge with ⟨hc, hd⟩ | ⟨hc, hd⟩
          · exact .inl ⟨ha.trans hc, (hb.symm.trans hq1).trans hd⟩
          · exact .inr ⟨ha.trans hc, (hb.symm.trans hq1).trans hd⟩
          · exact .inr ⟨(hb.symm.trans hq1).trans hd, ha.trans hc⟩
          · exact .inl ⟨(hb.symm.trans hq1).trans hd, ha.trans hc⟩
        rw [hq2, hcost]

theorem fwInit_nonneg (net : Net) (ns : List Nat)
    (hnonneg : ∀ l ∈ net.links, 0 ≤ l.costSD) (i j : Nat) :
    0 ≤ fwInit net ns i j := by
  unfold fwInit
  split
  · exact le_refl 0
  · rcases h1 : ns.get? i with - | n1 <;> rcases h2 : ns.get? j with - | n2 <;>
      dsimp only
    · exact le_top
    · exact le_top
    · exact le_top
    · rcases hf : (net.adj n1).find? (fun p => p.1 = n2) with - | ⟨qa, ql⟩ <;>
        rw [hf]
      · exact le_top
      · obtain ⟨hql, -⟩ := adj_mem_cases (List.mem_of_find?_eq_some hf)
        exact hnonneg ql hql

theorem fwStep_nonneg {W : Nat → Nat → Cost} (hW : ∀ i j, 0 ≤ W i j)
    (k u v : Nat) : ∀ i j, 0 ≤ fwStep W k u v i j := by
  intro i j
  unfold fwStep
  split
  · exact le_min (hW u v) (add_nonneg (hW u k) (hW k v))
  · exact hW i j

theorem fwMatrix_nonneg (net : Net) (ns : List Nat)
    (hnonneg : ∀ l ∈ net.links, 0 ≤ l.costSD) :
    ∀ i j, 0 ≤ fwMatrix net ns i j := by
  unfold fwMatrix
  refine foldl_pres _ (fun W : Nat → Nat → Cost => ∀ i j, 0 ≤ W i j) _ _
    (fwInit_nonneg net ns hnonneg) ?_
  intro W k _ hW
  refine foldl_pres _ (fun W : Nat → Nat → Cost => ∀ i j, 0 ≤ W i j) _ _ hW ?_
  intro W u _ hW
  refine foldl_pres _ (fun W : Nat → Nat → Cost => ∀ i j, 0 ≤ W i j) _ _ hW ?_
  intro W v _ hW
  exact fwStep_nonneg hW k u v

theorem fwInit_UB (net : Net) (ns : List Nat) :
    ∀ i j ni nj, ns.get? i = some ni → ns.get? j = some nj →
    fwInit net ns i j ≠ ⊤ →
    ∃ w, IsWalk net ni w nj ∧ wcost w ≤ fwInit net ns i j := by
  intro i j ni nj hi hj hne
  unfold fwInit at hne ⊢
  by_cases hij : i = j
  · rw [if_pos hij] at hne ⊢
    have hninj : ni = nj := by
      rw [hij] at hi
      rw [hi] at hj
      exact Option.some.inj hj
    exact ⟨[], hninj, by simp [wcost]⟩
  · rw [if_neg hij, hi, hj] at hne ⊢
    dsimp only at hne ⊢
    rcases hf : (net.adj ni).find? (fun p => p.1 = nj) with - | ⟨qa, ql⟩ <;>
      rw [hf] at hne ⊢
    · exact absurd rfl hne
    · have hq1 : qa = nj := by
        have := List.find?_some hf
        simpa using this
      obtain ⟨hql, hqor⟩ := adj_mem_cases (List.mem_of_find?_eq_some hf)
      dsimp only at hql hqor
      refine ⟨[ql], ?_, le_of_eq (by simp [wcost])⟩
      rcases hqor with ⟨ha, hb⟩ | ⟨ha, hb⟩
      · exact ⟨hql, .inl ⟨ha.symm, hb.symm.trans hq1⟩⟩
      · exact ⟨hql, .inr ⟨ha.symm, hb.symm.trans hq1⟩⟩

theorem fwStep_UB (net : Net) (ns : List Nat) {W : Nat → Nat → Cost}
    (hW : ∀ i j ni nj, ns.get? i = some ni → ns.get? j = some nj →
      W i j ≠ ⊤ → ∃ w, IsWalk net ni w nj ∧ wcost w ≤ W i j)
    {k : Nat} (hk : k < ns.length) (u v : Nat) :
    ∀ i j ni nj, ns.get? i = some ni → ns.get? j = some nj →
    fwStep W k u v i j ≠ ⊤ →
    ∃ w, IsWalk net ni w nj ∧ wcost w ≤ fwStep W k u v i j := by
  intro i j ni nj hi hj hne
  unfold fwStep at hne ⊢
  split at hne <;> split
  case isTrue.isFalse h1 h2 => exact absurd h1 h2
  case isFalse.isTrue h1 h2 => exact absurd h2 h1
  case isFalse.isFalse => exact hW i j ni nj hi hj hne
  case isTrue.isTrue h1 h2 =>
    obtain ⟨rfl, rfl⟩ := h1
    rcases le_total (W i j) (W i k + W k j) with hle | hle
    · rw [min_eq_left hle] at hne ⊢
      exact hW i j ni nj hi hj hne
    · rw [min_eq_right hle] at hne ⊢
      obtain ⟨h1, h2⟩ := WithTop.add_ne_top.mp hne
      have hkk := List.get?_eq_get hk
      obtain ⟨w1, hw1, hc1⟩ := hW i k ni (ns.get ⟨k, hk⟩) hi hkk h1
      obtain ⟨w2, hw2, hc2⟩ := hW k j (ns.get ⟨k, hk⟩) nj hkk hj h2
      exact ⟨w1 ++ w2, IsWalk_append hw1 hw2,
        by rw [wcost_append]; exact add_le_add hc1 hc2⟩

theorem fwMatrix_UB (net : Net) (ns : List Nat) :
    ∀ i j ni nj, ns.get? i = some ni → ns.get? j = some nj →
    fwMatrix net ns i j ≠ ⊤ →
    ∃ w, IsWalk net ni w nj ∧ wcost w ≤ fwMatrix net ns i j := by
  unfold fwMatrix
  refine foldl_pres _ (fun W : Nat → Nat → Cost => ∀ i j ni nj,
    ns.get? i = some ni → ns.get? j = some nj → W i j ≠ ⊤ →
    ∃ w, IsWalk net ni w nj ∧ wcost w ≤ W i j) _ _ (fwInit_UB net ns) ?_
  intro W k hkmem hW
  have hk : k < ns.length := List.mem_range.mp hkmem
  refine foldl_pres _ (fun W : Nat → Nat → Cost => ∀ i j ni nj,
    ns.get? i = some ni → ns.get? j = some nj → W i j ≠ ⊤ →
    ∃ w, IsWalk net ni w nj ∧ wcost w ≤ W i j) _ _ hW ?_
  intro W u _ hW
  refine foldl_pres _ (fun W : Nat → Nat → Cost => ∀ i j ni nj,
    ns.get? i = some ni → ns.get? j = some nj → W i j ≠ ⊤ →
    ∃ w, IsWalk net ni w nj ∧ wcost w ≤ W i j) _ _ hW ?_
  intro W v _ hW
  exact fwStep_UB net ns hW hk u v

theorem IsWalk_to_WalkVia {net : Net}
    (hwf : ∀ l ∈ net.links, l.source ∈ net.nodeIds ∧ l.destination ∈ net.nodeIds) :
    ∀ {w : List Link} {x y : Nat}, IsWalk net x w y → x ∈ net.nodeIds →
    WalkVia net net.nodeIds x w y := by
  intro w
  induction w with
  | nil => intro x y h _; exact h
  | cons l ls ih =>
    intro x y h hx
    obtain ⟨hl, hd⟩ := h
    rcases hd with ⟨h1, h2⟩ | ⟨h1, h2⟩
    · exact ⟨hl, hx, .inl ⟨h1, ih h2 (hwf l hl).2⟩⟩
    · exact ⟨hl, hx, .inr ⟨h1, ih h2 (hwf l hl).1⟩⟩

theorem nodeIds_sub_range (ns : List Nat) :
    ∀ a ∈ ns, a ∈ (List.range ns.length).filterMap (fun k => ns.get? k) := by
  intro a ha
  obtain ⟨n, hn⟩ := List.mem_iff_get?.mp ha
  rw [List.mem_filterMap]
  exact ⟨n, List.mem_range.mpr (List.get?_eq_some.mp hn).1, hn⟩

theorem fwMatrix_LB (net : Net)
    (hnodup : net.nodeIds.Nodup)
    (hwf : ∀ l ∈ net.links, l.source ∈ net.nodeIds ∧ l.destination ∈ net.nodeIds)
    (hnonneg : ∀ l ∈ net.links, 0 ≤ l.costSD)
    (hsimple : ∀ l1 ∈ net.links, ∀ l2 ∈ net.links,
      ((l1.source = l2.source ∧ l1.destination = l2.destination) ∨
       (l1.source = l2.destination ∧ l1.destination = l2.source)) → l1 = l2) :
    ∀ i j ni nj, net.nodeIds.get? i = some ni → net.nodeIds.get? j = some nj →
    ∀ w, IsWalk net ni w nj → fwMatrix net net.nodeIds i j ≤ wcost w := by
  intro i j ni nj hi hj w hw
  have hni : ni ∈ net.nodeIds := List.get?_mem hi
  have hWalkIn : WalkIn net
      ((List.range net.nodeIds.length).filterMap (fun k => net.nodeIds.get? k))
      ni w nj := by
    cases w with
    | nil => exact hw
    | cons l ls =>
      obtain ⟨hl, hd⟩ := hw
      rcases hd with ⟨h1, h2⟩ | ⟨h1, h2⟩
      · exact ⟨hl, .inl ⟨h1, WalkVia_mono (nodeIds_sub_range net.nodeIds)
          (IsWalk_to_WalkVia hwf h2 (hwf l hl).2)⟩⟩
      · exact ⟨hl, .inr ⟨h1, WalkVia_mono (nodeIds_sub_range net.nodeIds)
          (IsWalk_to_WalkVia hwf h2 (hwf l hl).1)⟩⟩
  unfold fwMatrix
  exact fw_LB_aux net net.nodeIds hnonneg (List.range net.nodeIds.length) []
    (fwInit net net.nodeIds) (fun k hk => List.mem_range.mp hk)
    (fwInit_LB net net.nodeIds hnodup hnonneg hsimple) i j ni nj hi hj w
    (by simpa using hWalkIn)

theorem floyd_warshall_some (net : Net)
    (hnonneg : ∀ l ∈ net.links, 0 ≤ l.costSD) :
    floyd_warshall net = some (fwMatrix net net.nodeIds) := by
  unfold floyd_warshall Net.nodeIds
  simp only
  rw [if_neg]
  rw [Bool.not_eq_true, List.any_eq_false]
  intro v _
  simp only [decide_eq_true_eq, not_lt]
  exact fwMatrix_nonneg net _ hnonneg v v

theorem link_lookup_map {net : Net}
    (hids : (net.links.map Link.id).Nodup) :
    ∀ (ws : List Link), (∀ l ∈ ws, l ∈ net.links) →
    (ws.map Link.id).filterMap net.link? = ws := by
  intro ws
  induction ws with
  | nil => intro _; rfl
  | cons l ls ih =>
    intro hmem
    have hl : l ∈ net.links := hmem l (List.mem_cons_self l ls)
    have hfind : net.link? l.id = some l := by
      unfold Net.link?
      rcases hf : net.links.find? (fun l2 => l2.id = l.id) with - | l2
      · exfalso
        have := List.find?_eq_none.mp hf l hl
        simp at this
      · have h1 : l2.id = l.id := by
          have := List.find?_some hf
          simpa using this
        have h2 : l2 ∈ net.links := List.mem_of_find?_eq_some hf
        have heq := List.inj_on_of_nodup_map hids h2 hl h1
        conv_rhs => rw [← heq]
        exact hf
    rw [List.map_cons, List.filterMap_cons, hfind]
    rw [ih (fun x hx => hmem x (List.mem_cons_of_mem l hx))]

theorem nodeIdx_get {net : Net} {x : Nat} (hx : x ∈ net.nodeIds) :
    net.nodeIds.get? (nodeIdx net x) = some x := by
  unfold nodeIdx Net.nodeIds
  have hx2 : x ∈ net.nodes.map RNode.id := by
    have : net.nodeIds = net.nodes.map RNode.id := rfl
    rw [← this]
    exact hx
  rw [List.get?_eq_get (List.indexOf_lt_length.mpr hx2)]
  rw [List.indexOf_get]

/-- **C7** (amended): on a well-formed network (distinct node and link
identifiers, link endpoints among the nodes) whose link costs are symmetric
(`costDS = costSD`), nonnegative, and with at most one link per node pair,
for every reachable source/target pair on which `A_star` returns,
`floyd_warshall` returns its distance mapping (never `False`), and its
distance for the pair equals the sum of the forward link costs of the path
returned by `A_star`.  (The original unconditional claim is false:
`floyd_warshall` reads `costSD` for both directions of a link while `A_star`
reads the direction-qualified cost — see the counterexample.) -/
theorem fw_astar_agree (net : Net) (source target fuel : Nat)
    (hnodup : net.nodeIds.Nodup)
    (hids : (net.links.map Link.id).Nodup)
    (hwf : ∀ l ∈ net.links, l.source ∈ net.nodeIds ∧ l.destination ∈ net.nodeIds)
    (hsym : ∀ l ∈ net.links, l.costDS = l.costSD)
    (hnonneg : ∀ l ∈ net.links, 0 ≤ l.costSD)
    (hsimple : ∀ l1 ∈ net.links, ∀ l2 ∈ net.links,
      ((l1.source = l2.source ∧ l1.destination = l2.destination) ∨
       (l1.source = l2.destination ∧ l1.destination = l2.source)) → l1 = l2)
    (hsrc : source ∈ net.nodeIds)
    (hreach : linkedL net.links source target)
    (res : List Nat × List Nat)
    (hA : A_star net source target [] [] [] none none fuel = .ok res) :
    floyd_warshall net = some (fwMatrix net net.nodeIds) ∧
    fwMatrix net net.nodeIds (nodeIdx net source) (nodeIdx net target) =
      ((res.2.filterMap net.link?).map Link.costSD).sum := by
  have hwalk0 := linkedL_to_walk hreach
  obtain ⟨ws, hres2, hwalk, hopt⟩ :=
    A_star_opt net source target fuel hwf hsym hnonneg hwalk0 res hA
  have htgt : target ∈ net.nodeIds := IsWalk_endpoint hwf hwalk hsrc
  have hgs := nodeIdx_get hsrc
  have hgt := nodeIdx_get htgt
  have hsum : ((res.2.filterMap net.link?).map Link.costSD).sum = wcost ws := by
    rw [hres2, link_lookup_map hids ws (IsWalk_links hwalk)]
    rfl
  rw [hsum]
  refine ⟨floyd_warshall_some net hnonneg, ?_⟩
  have hLB := fwMatrix_LB net hnodup hwf hnonneg hsimple _ _ source target
    hgs hgt ws hwalk
  by_cases htop : fwMatrix net net.nodeIds (nodeIdx net source)
      (nodeIdx net target) = ⊤
  · rw [htop] at hLB ⊢
    exact (top_le_iff.mp hLB).symm
  · obtain ⟨w2, hw2, hc2⟩ := fwMatrix_UB net net.nodeIds _ _ source target
      hgs hgt htop
    exact le_antisymm hLB (le_trans (hopt w2 hw2) hc2)

/-- Counterexample to **C7** as stated: on `c7net` (no negative cycle —
all costs positive), Floyd-Warshall computes distance 2 between the nodes
at positions 0 and 2 (nodes 1 and 3) through its symmetrised `costSD`
graph, while the path returned by `A_star` for the same pair is the direct
link of forward cost 3: the two sides differ. -/
theorem fw_astar_mismatch :
    (floyd_warshall c7net).map (fun W => W 0 2) = some (2 : Cost) ∧
    (A_star c7net 1 3 [] [] [] none none 40).toOption.map
      (fun r => ((r.2.filterMap (fun i => c7net.link? i)).map Link.costSD).sum)
      = some (3 : Cost) := by
  constructor <;> decide

/-- Witness for the amended **C7** on the concrete symmetric two-node
network. -/
theorem fw_astar_agree_witness :
    ((∀ l ∈ c7wnet.links, l.costDS = l.costSD) ∧
     (∀ l ∈ c7wnet.links, 0 ≤ l.costSD) ∧
     linkedL c7wnet.links 1 2 ∧
     A_star c7wnet 1 2 [] [] [] none none 20 = .ok ([1, 2], [711])) ∧
    (floyd_warshall c7wnet = some (fwMatrix c7wnet c7wnet.nodeIds) ∧
     fwMatrix c7wnet c7wnet.nodeIds (nodeIdx c7wnet 1) (nodeIdx c7wnet 2) =
       ((([1, 2], [711]).2.filterMap c7wnet.link?).map Link.costSD).sum) :=
  ⟨⟨by decide, by decide, (linkedB_iff _ _ _).mp (by decide), by decide⟩,
   fw_astar_agree c7wnet 1 2 20 (by decide) (by decide) (by decide) (by decide)
     (by decide) (by decide) (by decide) ((linkedB_iff _ _ _).mp (by decide))
     ([1, 2], [711]) (by decide)⟩

end PyNMS
